import Mathlib

/-!
Chunk mesher visibility core and render traversal.

A shallow embedding of `buildCullBits`, `floodFill` and `buildVertex`
(`chunkbuilder.go`) and of `renderBuffer` (`render/render.go`), followed by the
properties established about them.

Conventions of the embedding:

* Go `int` coordinates are `Int`; bit masks (`uint8`, `uint64`) are `Nat`.  Every mask
  built here stays below `2 ^ 6` resp. `2 ^ 36`, so no truncation is ever applied.
* Go recursion is modelled with a fuel argument that bounds the recursion depth; a
  result `none` stands for an abnormal end (fuel exhausted or a bit set indexed out
  of range).
-/

namespace Steven

/-! ## Directions -/

/-- Modelled from the spec: the type `direction.Type` of package `type/direction`.
The six directions carry the stable indices `0 .. 5` in the order the data model lists
them, `Invalid` follows them. -/
inductive Direction where
  | Up | Down | North | South | East | West | Invalid
  deriving DecidableEq

namespace Direction

/-- Modelled from the spec: the stable index of a direction (`direction.Type` is an
unsigned integer type, the constants are used as shift counts and array indices). -/
def toNat : Direction → Nat
  | Up => 0
  | Down => 1
  | North => 2
  | South => 3
  | East => 4
  | West => 5
  | Invalid => 6

/-- Modelled from the spec: `direction.Values`, the closed set of the six directions. -/
def Values : List Direction := [Up, Down, North, South, East, West]

/-- Modelled from the spec: `Offset`, the unit integer offset of a direction.  The axes
follow the face table of the flood fill (`x == 0` is West, `y == 0` is Down, `z == 0` is
North). -/
def Offset : Direction → Int × Int × Int
  | Up => (0, 1, 0)
  | Down => (0, -1, 0)
  | North => (0, 0, -1)
  | South => (0, 0, 1)
  | East => (1, 0, 0)
  | West => (-1, 0, 0)
  | Invalid => (0, 0, 0)

/-- Modelled from the spec: `Opposite`, an involution on the six directions. -/
def Opposite : Direction → Direction
  | Up => Down
  | Down => Up
  | North => South
  | South => North
  | East => West
  | West => East
  | Invalid => Invalid

end Direction

/-! ## Blocks, snapshots and bit sets -/

/-- Modelled from the spec: a block, seen through its capability set. -/
structure Block where
  Renderable : Bool
  IsTranslucent : Bool
  ShouldCullAgainst : Bool
  IsLiquid : Bool

/-- Modelled from the spec: a `blocksSnapshot` with its relative origin already set, read
through `block(x, y, z)`. -/
structure blocksSnapshot where
  block : Int → Int → Int → Block

/-- Modelled from the spec: `bit.Set`, a bit set of `size` bits.  The bits are kept in one
natural number, bit `i` of `bits` is the `i`-th bit of the set. -/
structure BitSet where
  size : Nat
  bits : Nat

/-- Modelled from the spec: `bit.NewSet(size)`, all bits clear. -/
def NewSet (size : Nat) : BitSet := ⟨size, 0⟩

/-- Modelled from the spec: `Get(i)`; indexing outside of the set fails. -/
def BitSet.Get (s : BitSet) (i : Nat) : Option Bool :=
  if i < s.size then some (s.bits.testBit i) else none

/-- Modelled from the spec: `Set(i, v)`; indexing outside of the set fails. -/
def BitSet.Set (s : BitSet) (i : Nat) (v : Bool) : Option BitSet :=
  if i < s.size then
    some ⟨s.size, if v then s.bits ||| (1 <<< i) else s.bits ^^^ (s.bits &&& (1 <<< i))⟩
  else none

/-! ## The visibility builder (`chunkbuilder.go`) -/

/-- The bit set index `x | (z << 4) | (y << 8)` of a cell.  It is only ever used for
coordinates that passed the range check, where the Go `int` value is the natural number
computed here. -/
def cellIndex (x y z : Int) : Nat :=
  x.toNat ||| (z.toNat <<< 4) ||| (y.toNat <<< 8)

/-- The faces a single cell lies on, lines 193-209 of `floodFill`. -/
def touchedFaces (x y z : Int) : Nat :=
  let touched := 0
  let touched :=
    if x = 0 then touched ||| (1 <<< Direction.West.toNat)
    else if x = 15 then touched ||| (1 <<< Direction.East.toNat)
    else touched
  let touched :=
    if y = 0 then touched ||| (1 <<< Direction.Down.toNat)
    else if y = 15 then touched ||| (1 <<< Direction.Up.toNat)
    else touched
  let touched :=
    if z = 0 then touched ||| (1 <<< Direction.North.toNat)
    else if z = 15 then touched ||| (1 <<< Direction.South.toNat)
    else touched
  touched

/-- The body of the loop over `direction.Values` in `floodFill` (lines 213-216): fill from
the neighbour of `(x, y, z)` in direction `d` and add the faces it touched.  The state is
the pair of `touched` and `visited`; `fill` is the recursive call. -/
def fillNeighbour (fill : BitSet → Int → Int → Int → Option (Nat × BitSet))
    (x y z : Int) (st : Nat × BitSet) (d : Direction) : Option (Nat × BitSet) :=
  match fill st.2 (x + d.Offset.1) (y + d.Offset.2.1) (z + d.Offset.2.2) with
  | none => none
  | some (t, v) => some (st.1 ||| t, v)

/-- The recursive `floodFill`.  The first argument bounds the recursion depth.  The result
is the touched mask together with the updated `visited` set (the Go code mutates the set
in place). -/
def floodFill (bs : blocksSnapshot) : Nat → BitSet → Int → Int → Int → Option (Nat × BitSet)
  | 0, _, _, _, _ => none
  | fuel + 1, visited, x, y, z =>
    if x < 0 ∨ x > 15 ∨ y < 0 ∨ y > 15 ∨ z < 0 ∨ z > 15 then some (0, visited)
    else
      match visited.Get (cellIndex x y z) with
      | none => none
      | some true => some (0, visited)
      | some false =>
        match visited.Set (cellIndex x y z) true with
        | none => none
        | some visited =>
          if (bs.block x y z).ShouldCullAgainst then some (0, visited)
          else
            Direction.Values.foldlM (fillNeighbour (floodFill bs fuel) x y z)
              (touchedFaces x y z, visited)

/-- The alternative order of the flood fill that the design notes describe: after the
range and visited guard, test `ShouldCullAgainst` first and return 0 for a solid cell
without marking it visited; only an open cell is marked and filled from. -/
def floodFillAlt (bs : blocksSnapshot) :
    Nat → BitSet → Int → Int → Int → Option (Nat × BitSet)
  | 0, _, _, _, _ => none
  | fuel + 1, visited, x, y, z =>
    if x < 0 ∨ x > 15 ∨ y < 0 ∨ y > 15 ∨ z < 0 ∨ z > 15 then some (0, visited)
    else
      match visited.Get (cellIndex x y z) with
      | none => none
      | some true => some (0, visited)
      | some false =>
        if (bs.block x y z).ShouldCullAgainst then some (0, visited)
        else
          match visited.Set (cellIndex x y z) true with
          | none => none
          | some visited =>
            Direction.Values.foldlM (fillNeighbour (floodFillAlt bs fuel) x y z)
              (touchedFaces x y z, visited)

/-- The two loops of `buildCullBits` (lines 160-170) that mark each touched face as visible
through each other touched face. -/
def setTouched (bits touched : Nat) : Nat :=
  Direction.Values.foldl
    (fun bits d =>
      if touched &&& (1 <<< d.toNat) ≠ 0 then
        Direction.Values.foldl
          (fun bits d2 =>
            if touched &&& (1 <<< d2.toNat) ≠ 0 then bits ||| (1 <<< (d.toNat * 6 + d2.toNat))
            else bits)
          bits
      else bits)
    bits

/-- The body of the innermost loop of `buildCullBits` for the cell `(x, y, z)`; the state is
the pair of `bits` and `visited`. -/
def cullStep (fill : BitSet → Int → Int → Int → Option (Nat × BitSet))
    (x y z : Nat) (st : Nat × BitSet) : Option (Nat × BitSet) :=
  match st.2.Get (x ||| (z <<< 4) ||| (y <<< 8)) with
  | none => none
  | some true => some st
  | some false =>
    match fill st.2 x y z with
    | none => none
    | some (touched, visited) =>
      if touched = 0 then some (st.1, visited)
      else some (setTouched st.1 touched, visited)

/-- The triple loop of `buildCullBits` over `y`, `z`, `x`, for a given fill function. -/
def cullLoop (fill : BitSet → Int → Int → Int → Option (Nat × BitSet)) : Option Nat :=
  ((List.range 16).foldlM
    (fun st y => (List.range 16).foldlM
      (fun st z => (List.range 16).foldlM
        (fun st x => cullStep fill x y z st) st) st)
    (0, NewSet (16 * 16 * 16))).map Prod.fst

/-- The function `buildCullBits`.  Every fill is given a recursion depth of `16 ^ 3 + 1`. -/
def buildCullBits (bs : blocksSnapshot) : Option Nat :=
  cullLoop (floodFill bs (16 * 16 * 16 + 1))

/-- The function `buildCullBits` run with the alternative flood fill. -/
def buildCullBitsAlt (bs : blocksSnapshot) : Option Nat :=
  cullLoop (floodFillAlt bs (16 * 16 * 16 + 1))

/-! ## Cells, faces and connectivity (the vocabulary of the visibility contract) -/

/-- A cell position `(x, y, z)`. -/
abbrev Cell := Int × Int × Int

/-- The cell lies in the 16x16x16 section. -/
def inSection (c : Cell) : Prop :=
  0 ≤ c.1 ∧ c.1 ≤ 15 ∧ 0 ≤ c.2.1 ∧ c.2.1 ≤ 15 ∧ 0 ≤ c.2.2 ∧ c.2.2 ≤ 15

instance (c : Cell) : Decidable (inSection c) := by
  unfold inSection; exact inferInstance

/-- The block at the cell is `ShouldCullAgainst`. -/
def solidAt (bs : blocksSnapshot) (c : Cell) : Bool :=
  (bs.block c.1 c.2.1 c.2.2).ShouldCullAgainst

/-- A cell of the section whose block is not `ShouldCullAgainst`. -/
def isOpen (bs : blocksSnapshot) (c : Cell) : Prop :=
  inSection c ∧ solidAt bs c = false

instance (bs : blocksSnapshot) (c : Cell) : Decidable (isOpen bs c) := by
  unfold isOpen; exact inferInstance

/-- The neighbour of a cell in a direction. -/
def shift (c : Cell) (d : Direction) : Cell :=
  (c.1 + d.Offset.1, c.2.1 + d.Offset.2.1, c.2.2 + d.Offset.2.2)

/-- The cell lies on the given face of the section: West is `x == 0`, East `x == 15`,
Down `y == 0`, Up `y == 15`, North `z == 0`, South `z == 15`. -/
def onFace : Direction → Cell → Prop
  | Direction.West, c => c.1 = 0
  | Direction.East, c => c.1 = 15
  | Direction.Down, c => c.2.1 = 0
  | Direction.Up, c => c.2.1 = 15
  | Direction.North, c => c.2.2 = 0
  | Direction.South, c => c.2.2 = 15
  | Direction.Invalid, _ => False

instance (d : Direction) (c : Cell) : Decidable (onFace d c) := by
  cases d <;> unfold onFace <;> exact inferInstance

/-- One step between two 6-adjacent open cells. -/
def openStep (bs : blocksSnapshot) (a b : Cell) : Prop :=
  isOpen bs a ∧ isOpen bs b ∧ ∃ d ∈ Direction.Values, b = shift a d

/-- Two cells are joined by a path of 6-adjacent open cells: they lie in the same
6-connected component of cells that are not `ShouldCullAgainst`. -/
def connected (bs : blocksSnapshot) : Cell → Cell → Prop :=
  Relation.ReflTransGen (openStep bs)

/-- Face `f` sees face `t`: some 6-connected component of open cells contains a cell on
face `f` and a cell on face `t`. -/
def sees (bs : blocksSnapshot) (f t : Direction) : Prop :=
  ∃ p q : Cell, isOpen bs p ∧ isOpen bs q ∧ onFace f p ∧ onFace t q ∧ connected bs p q

/-- The cell is marked in the visited set. -/
def marked (V : BitSet) (c : Cell) : Prop :=
  V.bits.testBit (cellIndex c.1 c.2.1 c.2.2) = true

/-- The number of clear bits among the 4096 bits of the visited set. -/
def unvisited (V : BitSet) : Nat :=
  ((Finset.range 4096).filter (fun i => V.bits.testBit i = false)).card

/-- An open cell that one fill marked: marked in `W`, not marked in `V`. -/
def freshOpen (bs : blocksSnapshot) (V W : BitSet) (p : Cell) : Prop :=
  isOpen bs p ∧ marked W p ∧ ¬ marked V p

/-- Every mark of `V` is a mark of `W`. -/
def marksLe (V W : BitSet) : Prop :=
  ∀ i, V.bits.testBit i = true → W.bits.testBit i = true

/-- The fill is done with the cell: it is marked, or it is `ShouldCullAgainst` (a fill
never enters such a cell, whether it marks it or not). -/
def settled (bs : blocksSnapshot) (V : BitSet) (p : Cell) : Prop :=
  marked V p ∨ solidAt bs p = true

/-- The marked open cells newly added by `W` have all their neighbours in the section
settled in `W`. -/
def closedFrom (bs : blocksSnapshot) (V W : BitSet) : Prop :=
  ∀ p, freshOpen bs V W p →
    ∀ d ∈ Direction.Values, inSection (shift p d) → settled bs W (shift p d)

/-- What one call of a flood fill at cell `c` guarantees: the set keeps its size and its
marks, an in-range start cell is settled, the fresh open cells are closed under
neighbours, each of them is connected to the start cell, and the returned mask collects
exactly their faces. -/
structure FillPost (bs : blocksSnapshot) (V : BitSet) (c : Cell) (t : Nat) (W : BitSet) :
    Prop where
  size : W.size = 4096
  mono : marksLe V W
  start : inSection c → settled bs W c
  closed : closedFrom bs V W
  sound : ∀ p, freshOpen bs V W p → connected bs c p
  mask : ∀ k, t.testBit k = true ↔
    ∃ p, freshOpen bs V W p ∧ (touchedFaces p.1 p.2.1 p.2.2).testBit k = true

/-- A fill function meets the flood fill contract from every visited set of 4096 bits. -/
def FillOk (bs : blocksSnapshot)
    (fill : BitSet → Int → Int → Int → Option (Nat × BitSet)) : Prop :=
  ∀ (V : BitSet) (c : Cell), V.size = 4096 →
    ∃ t W, fill V c.1 c.2.1 c.2.2 = some (t, W) ∧ FillPost bs V c t W

/-- The invariant of the triple loop of `buildCullBits` on the state `(bits, visited)`: the
marked open cells are closed under neighbours, and a bit is set exactly for the pairs of
faces touched by one marked component. -/
structure CullInv (bs : blocksSnapshot) (st : Nat × BitSet) : Prop where
  size : st.2.size = 4096
  closed : ∀ p, isOpen bs p → marked st.2 p →
    ∀ d ∈ Direction.Values, inSection (shift p d) → settled bs st.2 (shift p d)
  bits : ∀ n, st.1.testBit n = true ↔
    ∃ d1 ∈ Direction.Values, ∃ d2 ∈ Direction.Values, n = d1.toNat * 6 + d2.toNat ∧
      ∃ p q, isOpen bs p ∧ isOpen bs q ∧ marked st.2 p ∧
        (touchedFaces p.1 p.2.1 p.2.2).testBit d1.toNat = true ∧
        (touchedFaces q.1 q.2.1 q.2.2).testBit d2.toNat = true ∧ connected bs p q

/-- The cell lies in the box with corners `lo` and `hi` (both included). -/
def inBox (lo hi p : Cell) : Prop :=
  lo.1 ≤ p.1 ∧ p.1 ≤ hi.1 ∧ lo.2.1 ≤ p.2.1 ∧ p.2.1 ≤ hi.2.1 ∧ lo.2.2 ≤ p.2.2 ∧ p.2.2 ≤ hi.2.2

instance (lo hi p : Cell) : Decidable (inBox lo hi p) := by
  unfold inBox; exact inferInstance

/-! ## Test sections (the scenarios of the test suite) -/

/-- An air block: not renderable, not `ShouldCullAgainst`. -/
def airBlock : Block := ⟨false, false, false, false⟩

/-- A full opaque cube: renderable and `ShouldCullAgainst`. -/
def stoneBlock : Block := ⟨true, false, true, false⟩

/-- A glass block: renderable, translucent, not `ShouldCullAgainst`. -/
def glassBlock : Block := ⟨true, true, false, false⟩

/-- The snapshot that is stone where `solid` holds and air elsewhere. -/
def sectionOf (solid : Int → Int → Int → Bool) : blocksSnapshot :=
  ⟨fun x y z => if solid x y z then stoneBlock else airBlock⟩

/-- Scenario S1: an empty section. -/
def airSection : blocksSnapshot := sectionOf (fun _ _ _ => false)

/-- Scenario S6: glass everywhere. -/
def glassSection : blocksSnapshot := ⟨fun _ _ _ => glassBlock⟩

/-- Scenario S4: every cell is stone. -/
def stoneSection : blocksSnapshot := sectionOf (fun _ _ _ => true)

/-- Scenario S3: a solid plane at `y == 8`, the rest air. -/
def planeSection : blocksSnapshot := sectionOf (fun _ y _ => decide (y = 8))

/-- The partition test: a solid wall at `x == 8`, the rest air. -/
def wallSection : blocksSnapshot := sectionOf (fun x _ _ => decide (x = 8))

/-- Scenario S5: a checkerboard of stone and air; every air cell is isolated. -/
def checkerSection : blocksSnapshot := sectionOf (fun x y z => decide ((x + y + z) % 2 = 0))

/-- The value of a Go `int64` computation, wrapped to 64 bits two's complement.  Go `int`
is taken to be 64 bits wide. -/
def wrap64 (v : Int) : Int := (v + 2 ^ 63) % 2 ^ 64 - 2 ^ 63

/-! ## The render traversal (`render/render.go`) -/

/-- The section position of a render request (`position` of package `render`). -/
structure position where
  X : Int
  Y : Int
  Z : Int
  deriving DecidableEq

/-- The struct `renderRequest`.  Chunk buffers are referred to by their index among the `n`
buffers that exist; the field `from` is spelled `fromDir`. -/
structure renderRequest (n : Nat) where
  chunk : Fin n
  pos : position
  fromDir : Direction
  deriving DecidableEq

/-- Modelled from the spec: the part of a `ChunkBuffer` the traversal reads and does not
change: the six neighbour links (absent links are `none`), the `cullBits` matrix, the
opaque element count and the validity of the opaque vertex buffer. -/
structure ChunkBuffer (n : Nat) where
  neighborChunks : Direction → Option (Fin n)
  cullBits : Nat
  count : Nat
  bufferValid : Bool

/-- Modelled from the spec: `IsVisible(from, to)`, bit `from * 6 + to` of `cullBits`. -/
def ChunkBuffer.IsVisible {n : Nat} (c : ChunkBuffer n) (fromDir toDir : Direction) : Bool :=
  c.cullBits &&& (1 <<< (fromDir.toNat * 6 + toDir.toNat)) != 0

/-- What one frame fixes before the traversal starts: the chunk graph, the frame id, the
array `validDirs` and the frustum test.  `frustumInside pos` stands for
`frustum.IsAABBInside` applied to the grown bounding box built from `pos`. -/
structure RenderEnv (n : Nat) where
  chunks : Fin n → ChunkBuffer n
  frameID : Nat
  validDirs : Direction → Bool
  frustumInside : position → Bool

/-- What the traversal changes: the `renderedOn` marker of every chunk buffer, the list
`renderOrder`, the queue `rQueue` (modelled from the spec: a FIFO queue, `Append` adds at
the back and `Take` removes the front) and the log of the opaque draw calls issued. -/
structure RenderState (n : Nat) where
  renderedOn : Fin n → Nat
  renderOrder : List (Fin n)
  rQueue : List (renderRequest n)
  drawn : List (Fin n)

/-- The body of the loop over `direction.Values` in `renderBuffer` (lines 296-304).  The
sums of the new position are Go `int` additions and wrap. -/
def expandDir {n : Nat} (env : RenderEnv n) (req : renderRequest n) (st : RenderState n)
    (dir : Direction) : RenderState n :=
  match (env.chunks req.chunk).neighborChunks dir with
  | none => st
  | some c =>
    if dir ≠ req.fromDir ∧ st.renderedOn c ≠ env.frameID ∧
        (req.fromDir = Direction.Invalid ∨
          ((env.chunks req.chunk).IsVisible req.fromDir dir = true ∧
            env.validDirs dir = true)) then
      { st with rQueue := st.rQueue ++
          [⟨c, ⟨wrap64 (req.pos.X + dir.Offset.1), wrap64 (req.pos.Y + dir.Offset.2.1),
            wrap64 (req.pos.Z + dir.Offset.2.2)⟩, dir.Opposite⟩] }
    else st

/-- One iteration of the loop `itQueue` of `renderBuffer` for the request `req` that was
just taken from the queue (lines 275-304). -/
def renderStep {n : Nat} (env : RenderEnv n) (req : renderRequest n) (st : RenderState n) :
    RenderState n :=
  if st.renderedOn req.chunk = env.frameID then st
  else if env.frustumInside req.pos = false then
    { st with renderedOn := Function.update st.renderedOn req.chunk env.frameID }
  else
    let st := { st with
      renderedOn := Function.update st.renderedOn req.chunk env.frameID
      renderOrder := st.renderOrder ++ [req.chunk] }
    let st :=
      if (env.chunks req.chunk).count ≠ 0 ∧ (env.chunks req.chunk).bufferValid = true then
        { st with drawn := st.drawn ++ [req.chunk] }
      else st
    Direction.Values.foldl (expandDir env req) st

/-- The loop `for !rQueue.Empty()` of `renderBuffer`; the first argument bounds the number
of iterations. -/
def renderLoop {n : Nat} (env : RenderEnv n) : Nat → RenderState n → Option (RenderState n)
  | 0, _ => none
  | fuel + 1, st =>
    match st.rQueue with
    | [] => some st
    | req :: rest => renderLoop env fuel (renderStep env req { st with rQueue := rest })

/-- The function `renderBuffer`; `ch` is `none` for a nil chunk buffer.  The loop is given
`6 * n + 2` iterations on top of the length of the queue. -/
def renderBuffer {n : Nat} (env : RenderEnv n) (st : RenderState n) (ch : Option (Fin n))
    (po : position) (fr : Direction) : Option (RenderState n) :=
  match ch with
  | none => some st
  | some c =>
    renderLoop env (st.rQueue.length + 6 * n + 2)
      { st with rQueue := st.rQueue ++ [⟨c, po, fr⟩] }

/-- The request that expanding `req` in direction `d` enqueues for the neighbour `c`:
`(neighbour, pos + offset(d), opposite(d))`, the sums being Go `int` additions. -/
def neighbourRequest {n : Nat} (req : renderRequest n) (d : Direction) (c : Fin n) :
    renderRequest n :=
  ⟨c, ⟨wrap64 (req.pos.X + d.Offset.1), wrap64 (req.pos.Y + d.Offset.2.1),
    wrap64 (req.pos.Z + d.Offset.2.2)⟩, d.Opposite⟩

/-- What expanding `req` in direction `d` appends to the queue, for the `renderedOn`
markers `marks` in force during the expansion: the request for the neighbour, if there is
a neighbour and the condition of line 298 holds, and nothing otherwise. -/
def enqueueOpt {n : Nat} (env : RenderEnv n) (req : renderRequest n) (marks : Fin n → Nat)
    (d : Direction) : Option (renderRequest n) :=
  ((env.chunks req.chunk).neighborChunks d).bind (fun c =>
    if d ≠ req.fromDir ∧ marks c ≠ env.frameID ∧
        (req.fromDir = Direction.Invalid ∨
          ((env.chunks req.chunk).cullBits.testBit (req.fromDir.toNat * 6 + d.toNat) = true ∧
            env.validDirs d = true)) then
      some ⟨c, ⟨wrap64 (req.pos.X + d.Offset.1), wrap64 (req.pos.Y + d.Offset.2.1),
        wrap64 (req.pos.Z + d.Offset.2.2)⟩, d.Opposite⟩
    else none)

/-- The condition under which expanding `req` enqueues the neighbour `c` in direction `d`,
for the `renderedOn` markers `marks`. -/
def expands {n : Nat} (env : RenderEnv n) (req : renderRequest n) (marks : Fin n → Nat)
    (d : Direction) (c : Fin n) : Prop :=
  d ≠ req.fromDir ∧ marks c ≠ env.frameID ∧
    (req.fromDir = Direction.Invalid ∨
      ((env.chunks req.chunk).cullBits.testBit (req.fromDir.toNat * 6 + d.toNat) = true ∧
        env.validDirs d = true))

/-- The number of chunk buffers not yet marked with the current frame id. -/
def pending {n : Nat} (env : RenderEnv n) (st : RenderState n) : Nat :=
  (Finset.univ.filter (fun c => st.renderedOn c ≠ env.frameID)).card

/-- The invariant of the render list: no chunk twice, every chunk marked with the current
frame id. -/
def OrderInv {n : Nat} (env : RenderEnv n) (st : RenderState n) : Prop :=
  st.renderOrder.Nodup ∧ ∀ c ∈ st.renderOrder, st.renderedOn c = env.frameID

/-- A column of three chunk buffers, 0 below 1 below 2; the middle one is opaque
(`cullBits == 0`), the others are open in every direction. -/
def columnEnv : RenderEnv 3 where
  chunks := fun i =>
    { neighborChunks := fun d =>
        match d with
        | Direction.Up => if h : i.val + 1 < 3 then some ⟨i.val + 1, h⟩ else none
        | Direction.Down => if i.val = 0 then none else some ⟨i.val - 1, by omega⟩
        | _ => none
      cullBits := if i.val = 1 then 0 else 0xFFFFFFFFF
      count := 6
      bufferValid := true }
  frameID := 1
  validDirs := fun _ => true
  frustumInside := fun _ => true

/-- Three chunk buffers for the gates of the expansion.  Chunk 0 has chunk 1 above it
and chunk 2 both to its north and below it; its `cullBits` let a viewer who entered through
the South face see the Up face (bit `3 * 6 + 0`) and the Down face (bit `3 * 6 + 1`) but
not the North face, and `validDirs` rules out Down. -/
def gateEnv : RenderEnv 3 where
  chunks := fun i =>
    { neighborChunks := fun d =>
        if i.val = 0 then
          match d with
          | Direction.Up => some 1
          | Direction.North => some 2
          | Direction.Down => some 2
          | _ => none
        else none
      cullBits := if i.val = 0 then 2 ^ 18 + 2 ^ 19 else 0
      count := 6
      bufferValid := true }
  frameID := 1
  validDirs := fun d => decide (d ≠ Direction.Down)
  frustumInside := fun _ => true

/-- The request that reaches chunk 0 of `gateEnv` at the largest `Y` a Go `int` holds,
through its South face. -/
def gateRequest : renderRequest 3 := ⟨0, ⟨0, 2 ^ 63 - 1, 0⟩, Direction.South⟩

/-- The state at the start of a frame: no chunk buffer rendered in frame 1 yet, the render
list and the queue empty. -/
def freshState : RenderState 3 := ⟨fun _ => 0, [], [], []⟩

/-! ## The vertex serializer (`chunkbuilder.go`) -/

/-- The struct `chunkVertex`.  The `float32` fields are kept as their IEEE-754 bit
patterns, which is what the serializer writes. -/
structure chunkVertex where
  X : Nat
  Y : Nat
  Z : Nat
  TX : Nat
  TY : Nat
  TW : Nat
  TH : Nat
  TOffsetX : Int
  TOffsetY : Int
  TAtlas : Int
  Pad0 : Int
  R : Nat
  G : Nat
  B : Nat
  Pad1 : Nat
  BlockLight : Nat
  SkyLight : Nat
  Pad2 : Nat
  Pad3 : Nat

/-- The little-endian bytes of a 16-bit value. -/
def le16 (v : Nat) : List Nat := [v % 256, v / 256 % 256]

/-- The little-endian bytes of a 32-bit value. -/
def le32 (v : Nat) : List Nat :=
  [v % 256, v / 256 % 256, v / 65536 % 256, v / 16777216 % 256]

/-- Modelled from the spec: `builder.Buffer`, the bytes written so far. -/
abbrev Buffer := List Nat

/-- Modelled from the spec: `UnsignedByte`, one byte. -/
def Buffer.UnsignedByte (b : Buffer) (v : Nat) : Buffer := b ++ [v % 256]

/-- Modelled from the spec: `UnsignedShort`, two bytes, little-endian. -/
def Buffer.UnsignedShort (b : Buffer) (v : Nat) : Buffer := b ++ le16 v

/-- Modelled from the spec: `Short`, two bytes, little-endian two's complement. -/
def Buffer.Short (b : Buffer) (v : Int) : Buffer := b ++ le16 (v % 65536).toNat

/-- Modelled from the spec: `Float`, the four bytes of a `float32`, little-endian. -/
def Buffer.Float (b : Buffer) (v : Nat) : Buffer := b ++ le32 v

/-- The function `buildVertex`. -/
def buildVertex (b : Buffer) (v : chunkVertex) : Buffer :=
  let b := b.Float v.X
  let b := b.Float v.Y
  let b := b.Float v.Z
  let b := b.UnsignedShort v.TX
  let b := b.UnsignedShort v.TY
  let b := b.UnsignedShort v.TW
  let b := b.UnsignedShort v.TH
  let b := b.Short v.TOffsetX
  let b := b.Short v.TOffsetY
  let b := b.Short v.TAtlas
  let b := b.Short 0
  let b := b.UnsignedByte v.R
  let b := b.UnsignedByte v.G
  let b := b.UnsignedByte v.B
  let b := b.UnsignedByte 255
  let b := b.UnsignedShort v.BlockLight
  let b := b.UnsignedShort v.SkyLight
  let b := b.UnsignedShort 0
  let b := b.UnsignedShort 0
  b

/-- The bytes of `out` at offset `off`, `width` of them. -/
def slice (out : List Nat) (off width : Nat) : List Nat := (out.drop off).take width

/-- A vertex with every field zero. -/
def zeroVertex : chunkVertex :=
  ⟨0, 0, 0, 0, 0, 0, 0, 0, 0, 0, 0, 0, 0, 0, 0, 0, 0, 0, 0⟩

end Steven

namespace Steven

/-! ## The memory formatter (`client.go`) -/

/-- The loop of `formatMemory`: shift `alloc` right by 10 as long as the shifted value is
not 0, counting the shifts in `i`.  The first argument bounds the number of iterations; a
`uint64` needs at most seven. -/
def formatLoop : Nat → Nat → Nat → Option (Nat × Nat)
  | 0, _, _ => none
  | fuel + 1, alloc, i =>
    let check := alloc >>> 10
    if check = 0 then some (alloc, i) else formatLoop fuel check (i + 1)

/-- The unit letter `letters[i]` of `formatMemory`; `none` is the run-time panic of an index
out of range. -/
def unitLetter (i : Nat) : Option Char := "BKMG".toList[i]?

/-- The function `formatMemory` for a `uint64` value `alloc`; `none` is a run-time panic. -/
def formatMemory (alloc : Nat) : Option String :=
  match formatLoop 7 alloc 0 with
  | none => none
  | some (alloc, i) =>
    match unitLetter i with
    | none => none
    | some c =>
      let l := String.singleton c
      let l := if l ≠ "B" then l ++ "B" else l
      some (toString alloc ++ l)

end Steven

namespace Steven

/-! ## The flood fill with a record of the solidity tests

The same functions as above, with one more component of state: the list of the cells
whose `ShouldCullAgainst` was evaluated (line 189 of `floodFill`), in the order of the
evaluations. -/

/-- The loop body `fillNeighbour`, passing the record on. -/
def fillNeighbourLog (fill : BitSet → List Cell → Int → Int → Int →
      Option (Nat × BitSet × List Cell))
    (x y z : Int) (st : Nat × BitSet × List Cell) (d : Direction) :
    Option (Nat × BitSet × List Cell) :=
  match fill st.2.1 st.2.2 (x + d.Offset.1) (y + d.Offset.2.1) (z + d.Offset.2.2) with
  | none => none
  | some (t, v, log) => some (st.1 ||| t, v, log)

/-- The function `floodFill`, recording each evaluation of `ShouldCullAgainst`. -/
def floodFillLog (bs : blocksSnapshot) :
    Nat → BitSet → List Cell → Int → Int → Int → Option (Nat × BitSet × List Cell)
  | 0, _, _, _, _, _ => none
  | fuel + 1, visited, log, x, y, z =>
    if x < 0 ∨ x > 15 ∨ y < 0 ∨ y > 15 ∨ z < 0 ∨ z > 15 then some (0, visited, log)
    else
      match visited.Get (cellIndex x y z) with
      | none => none
      | some true => some (0, visited, log)
      | some false =>
        match visited.Set (cellIndex x y z) true with
        | none => none
        | some visited =>
          if (bs.block x y z).ShouldCullAgainst then some (0, visited, log ++ [(x, y, z)])
          else
            Direction.Values.foldlM (fillNeighbourLog (floodFillLog bs fuel) x y z)
              (touchedFaces x y z, visited, log ++ [(x, y, z)])

/-- The loop body `cullStep`, passing the record on; the state is `(bits, visited, log)`. -/
def cullStepLog (fill : BitSet → List Cell → Int → Int → Int →
      Option (Nat × BitSet × List Cell))
    (x y z : Nat) (st : Nat × BitSet × List Cell) : Option (Nat × BitSet × List Cell) :=
  match st.2.1.Get (x ||| (z <<< 4) ||| (y <<< 8)) with
  | none => none
  | some true => some st
  | some false =>
    match fill st.2.1 st.2.2 x y z with
    | none => none
    | some (touched, visited, log) =>
      if touched = 0 then some (st.1, visited, log)
      else some (setTouched st.1 touched, visited, log)

/-- The function `buildCullBits`, returning the bits together with the record of all
solidity tests of the run. -/
def buildCullBitsLog (bs : blocksSnapshot) : Option (Nat × List Cell) :=
  ((List.range 16).foldlM
    (fun st y => (List.range 16).foldlM
      (fun st z => (List.range 16).foldlM
        (fun st x => cullStepLog (floodFillLog bs (16 * 16 * 16 + 1)) x y z st) st) st)
    (0, NewSet (16 * 16 * 16), [])).map (fun st => (st.1, st.2.2))

end Steven

namespace Steven

/-! ## The mesher loop (`chunkSection.build` of `chunkbuilder.go`) -/

/-- Modelled from the spec: a model variant of a block; here only its identity matters. -/
structure Variant where
  id : Nat
  deriving DecidableEq

/-- What the mesher loop takes from its collaborators.  `seed` and `draw` stand for the
generator of `math/rand`: `seed s` is the state of `rand.New(rand.NewSource(s))` and `draw`
is one draw (`r.Int()`), giving the value drawn and the next state.  `Models`, `Render` and
`renderLiquid` are modelled from the spec: the model set of a block, and the two emitters,
which take a vertex buffer and its index counter and give both back. -/
structure MeshEnv where
  seed : Int → Nat
  draw : Nat → Nat × Nat
  Models : Block → List Variant
  Render : Variant → Int → Int → Int → blocksSnapshot → List chunkVertex → Nat →
    List chunkVertex × Nat
  renderLiquid : Block → blocksSnapshot → Int → Int → Int → List chunkVertex → Nat →
    List chunkVertex × Nat

/-- Modelled from the spec: `selectModel(rng)`, which selects one variant of the model set
with the seeded stream and advances the stream by exactly one draw; it gives no variant
for an empty model set. -/
def selectModel (env : MeshEnv) (models : List Variant) (r : Nat) : Option Variant × Nat :=
  (models[(env.draw r).1 % models.length]?, (env.draw r).2)

/-- The seed `int64(cs.chunk.X) | (int64(cs.chunk.Z) << 32)`. -/
def seedValue (chunkX chunkZ : Int) : Int :=
  Int.lor (wrap64 chunkX) (wrap64 (wrap64 chunkZ * 2 ^ 32))

/-- The state of the loop of `build`: the generator `r`, the opaque and translucent vertex
buffers and their index counters. -/
structure buildState where
  r : Nat
  bO : List chunkVertex
  bT : List chunkVertex
  bOI : Nat
  bTI : Nat

/-- The body of the loop of `build` for the cell `(x, y, z)` (lines 71-105); `select` is
the function called as `bl.Models().selectModel(r)`. -/
def buildCell (env : MeshEnv) (select : List Variant → Nat → Option Variant × Nat)
    (bs : blocksSnapshot) (st : buildState) (x y z : Int) : buildState :=
  let bl := bs.block x y z
  if bl.Renderable = false then
    { st with r := (env.draw st.r).2 }
  else if bl.IsLiquid = true then
    if bl.IsTranslucent = true then
      let out := env.renderLiquid bl bs x y z st.bT st.bTI
      { st with bT := out.1, bTI := out.2, r := (env.draw st.r).2 }
    else
      let out := env.renderLiquid bl bs x y z st.bO st.bOI
      { st with bO := out.1, bOI := out.2, r := (env.draw st.r).2 }
  else
    match select (env.Models bl) st.r with
    | (some variant, r1) =>
      if bl.IsTranslucent = true then
        let out := env.Render variant x y z bs st.bT st.bTI
        { st with bT := out.1, bTI := out.2, r := r1 }
      else
        let out := env.Render variant x y z bs st.bO st.bOI
        { st with bO := out.1, bOI := out.2, r := r1 }
    | (none, r1) => { st with r := r1 }

/-- The triple loop of `build` over `y`, `x`, `z`, in that nesting order. -/
def buildLoop (env : MeshEnv) (select : List Variant → Nat → Option Variant × Nat)
    (bs : blocksSnapshot) (st : buildState) : buildState :=
  (List.range 16).foldl
    (fun st (y : Nat) => (List.range 16).foldl
      (fun st (x : Nat) => (List.range 16).foldl
        (fun st (z : Nat) => buildCell env select bs st x y z) st) st) st

/-- The part of `build` that runs on the worker: seed the generator, run the triple loop
with empty buffers, then compute the cull bits.  The result is the final loop state and the
cull bits. -/
def build (env : MeshEnv) (chunkX chunkZ : Int) (bs : blocksSnapshot) :
    Option (buildState × Nat) :=
  let st := buildLoop env (selectModel env) bs ⟨env.seed (seedValue chunkX chunkZ), [], [], 0, 0⟩
  (buildCullBits bs).map (fun cullBits => (st, cullBits))

/-- The cells of the section in the order `build` visits them. -/
def buildOrder : List Cell :=
  (List.range 16).flatMap (fun (y : Nat) => (List.range 16).flatMap (fun (x : Nat) =>
    (List.range 16).map (fun (z : Nat) => ((x : Int), (y : Int), (z : Int)))))

/-- The state of the loop of `build` when it reaches the `k`-th cell of its order (after
all `k` cells if `k` is 4096). -/
def stateAt (env : MeshEnv) (select : List Variant → Nat → Option Variant × Nat)
    (bs : blocksSnapshot) (st : buildState) (k : Nat) : buildState :=
  (buildOrder.take k).foldl (fun st c => buildCell env select bs st c.1 c.2.1 c.2.2) st

/-- The generator state after the loop body of `build` has handled a cell holding block
`bl`, as a function of the state before. -/
def rngStep (env : MeshEnv) (select : List Variant → Nat → Option Variant × Nat)
    (bl : Block) (r : Nat) : Nat :=
  if bl.Renderable = false then (env.draw r).2
  else if bl.IsLiquid = true then (env.draw r).2
  else (select (env.Models bl) r).2

/-- The snapshot with the block of cell `c0` replaced by `b`. -/
def replaceBlock (bs : blocksSnapshot) (c0 : Cell) (b : Block) : blocksSnapshot :=
  ⟨fun x y z => if (x, y, z) = c0 then b else bs.block x y z⟩

/-- A small generator for tests: a linear congruential step modulo `2 ^ 31`. -/
def testEnv : MeshEnv where
  seed := fun s => (s % 2 ^ 31).toNat
  draw := fun r => ((1103515245 * r + 12345) % 2 ^ 31, (1103515245 * r + 12345) % 2 ^ 31)
  Models := fun b => if b.ShouldCullAgainst then [⟨0⟩, ⟨1⟩, ⟨2⟩] else [⟨3⟩]
  Render := fun v _ _ _ _ buf i => (buf ++ [{ zeroVertex with TAtlas := v.id }], i + 1)
  renderLiquid := fun _ _ _ _ _ buf i => (buf ++ [zeroVertex], i + 1)

end Steven

namespace Steven

/-! ## Bit set and index lemmas -/

theorem natIndex_eq (a b c : Nat) (ha : a < 16) (hb : b < 16) :
    a ||| (b <<< 4) ||| (c <<< 8) = a + 16 * b + 256 * c := by
  have h1 : a ||| (b <<< 4) = 2 ^ 4 * b + a := by
    rw [Nat.lor_comm, Nat.shiftLeft_eq, Nat.mul_comm]
    exact (Nat.mul_add_lt_is_or (by omega) b).symm
  have h2 : (2 ^ 4 * b + a) ||| (c <<< 8) = 2 ^ 8 * c + (2 ^ 4 * b + a) := by
    rw [Nat.lor_comm, Nat.shiftLeft_eq, Nat.mul_comm]
    exact (Nat.mul_add_lt_is_or (by omega) c).symm
  rw [h1, h2]; omega

theorem cellIndex_eq {c : Cell} (h : inSection c) :
    cellIndex c.1 c.2.1 c.2.2 = c.1.toNat + 16 * c.2.2.toNat + 256 * c.2.1.toNat := by
  obtain ⟨h1, h2, h3, h4, h5, h6⟩ := h
  unfold cellIndex
  exact natIndex_eq _ _ _ (by omega) (by omega)

theorem cellIndex_lt {c : Cell} (h : inSection c) : cellIndex c.1 c.2.1 c.2.2 < 4096 := by
  rw [cellIndex_eq h]
  obtain ⟨h1, h2, h3, h4, h5, h6⟩ := h
  omega

theorem cellIndex_inj {c e : Cell} (hc : inSection c) (he : inSection e)
    (h : cellIndex c.1 c.2.1 c.2.2 = cellIndex e.1 e.2.1 e.2.2) : c = e := by
  rw [cellIndex_eq hc, cellIndex_eq he] at h
  obtain ⟨h1, h2, h3, h4, h5, h6⟩ := hc
  obtain ⟨g1, g2, g3, g4, g5, g6⟩ := he
  have e1 : c.1 = e.1 := by omega
  have e2 : c.2.1 = e.2.1 := by omega
  have e3 : c.2.2 = e.2.2 := by omega
  exact Prod.ext e1 (Prod.ext e2 e3)

theorem cellIndex_natCast (x y z : Nat) :
    cellIndex (x : Int) (y : Int) (z : Int) = x ||| (z <<< 4) ||| (y <<< 8) := by
  simp [cellIndex]

theorem get_of_lt {V : BitSet} {i : Nat} (h : i < V.size) :
    V.Get i = some (V.bits.testBit i) := by
  simp [BitSet.Get, h]

theorem set_true_of_lt {V : BitSet} {i : Nat} (h : i < V.size) :
    V.Set i true = some ⟨V.size, V.bits ||| (1 <<< i)⟩ := by
  simp [BitSet.Set, h]

theorem testBit_setBit (b i j : Nat) :
    (b ||| (1 <<< i)).testBit j = (b.testBit j || decide (i = j)) := by
  rw [Nat.testBit_or, Nat.one_shiftLeft, Nat.testBit_two_pow]

theorem and_shift_ne_zero (t k : Nat) : t &&& (1 <<< k) ≠ 0 ↔ t.testBit k = true := by
  constructor
  · intro h
    by_contra hk
    apply h
    apply Nat.eq_of_testBit_eq
    intro i
    rw [Nat.testBit_and, Nat.one_shiftLeft, Nat.testBit_two_pow, Nat.zero_testBit]
    by_cases hik : k = i
    · subst hik; simp [hk]
    · simp [hik]
  · intro h h0
    have := congrArg (fun n => n.testBit k) h0
    simp [Nat.one_shiftLeft, Nat.testBit_two_pow, h] at this

/-! ## Marks -/

theorem marksLe_refl (V : BitSet) : marksLe V V := fun _ h => h

theorem marksLe_trans {U V W : BitSet} (h1 : marksLe U V) (h2 : marksLe V W) : marksLe U W :=
  fun i h => h2 i (h1 i h)

theorem marked_of_le {V W : BitSet} (h : marksLe V W) {c : Cell} (hc : marked V c) :
    marked W c := h _ hc

theorem unvisited_le_of_marksLe {V W : BitSet} (h : marksLe V W) : unvisited W ≤ unvisited V := by
  unfold unvisited
  apply Finset.card_le_card
  intro i hi
  rw [Finset.mem_filter] at hi ⊢
  refine ⟨hi.1, ?_⟩
  by_contra hV
  have := h i (by simpa using hV)
  rw [hi.2] at this
  exact Bool.noConfusion this

theorem unvisited_setBit_lt (V : BitSet) (i : Nat) (hi : i < 4096)
    (hV : V.bits.testBit i = false) :
    unvisited ⟨V.size, V.bits ||| (1 <<< i)⟩ < unvisited V := by
  unfold unvisited
  apply Finset.card_lt_card
  rw [Finset.ssubset_iff_of_subset]
  · refine ⟨i, ?_, ?_⟩
    · simp [hi, hV]
    · simp [testBit_setBit]
  · intro j hj
    rw [Finset.mem_filter] at hj ⊢
    refine ⟨hj.1, ?_⟩
    have := hj.2
    simp only [testBit_setBit, Bool.or_eq_false_iff] at this
    exact this.1

theorem unvisited_le (V : BitSet) : unvisited V ≤ 4096 := by
  unfold unvisited
  calc _ ≤ (Finset.range 4096).card := Finset.card_filter_le _ _
    _ = 4096 := Finset.card_range _

end Steven

namespace Steven

/-! ## Connectivity -/

theorem opposite_mem {d : Direction} (h : d ∈ Direction.Values) :
    d.Opposite ∈ Direction.Values := by
  cases d <;> simp [Direction.Values, Direction.Opposite] at h ⊢

theorem shift_opposite (c : Cell) (d : Direction) : shift (shift c d) d.Opposite = c := by
  cases d <;> simp [shift, Direction.Offset, Direction.Opposite]

theorem openStep_symm {bs : blocksSnapshot} {a b : Cell} (h : openStep bs a b) :
    openStep bs b a := by
  obtain ⟨ha, hb, d, hd, rfl⟩ := h
  exact ⟨hb, ha, d.Opposite, opposite_mem hd, (shift_opposite a d).symm⟩

theorem connected_symm {bs : blocksSnapshot} {a b : Cell} (h : connected bs a b) :
    connected bs b a := by
  induction h with
  | refl => exact Relation.ReflTransGen.refl
  | tail _ hstep ih => exact Relation.ReflTransGen.head (openStep_symm hstep) ih

theorem connected_trans {bs : blocksSnapshot} {a b c : Cell} (h1 : connected bs a b)
    (h2 : connected bs b c) : connected bs a c :=
  Relation.ReflTransGen.trans h1 h2

theorem isOpen_of_connected {bs : blocksSnapshot} {a b : Cell} (h : connected bs a b)
    (hb : isOpen bs b) : isOpen bs a := by
  induction h using Relation.ReflTransGen.head_induction_on with
  | refl => exact hb
  | head hstep _ _ => exact hstep.1

theorem isOpen_of_connected_left {bs : blocksSnapshot} {a b : Cell} (h : connected bs a b)
    (ha : isOpen bs a) : isOpen bs b :=
  isOpen_of_connected (connected_symm h) ha

theorem marked_of_settled_open {bs : blocksSnapshot} {V : BitSet} {p : Cell}
    (h : settled bs V p) (hp : isOpen bs p) : marked V p := by
  rcases h with h | h
  · exact h
  · rw [hp.2] at h; exact Bool.noConfusion h

theorem settled_of_le {bs : blocksSnapshot} {V W : BitSet} (h : marksLe V W) {p : Cell}
    (hp : settled bs V p) : settled bs W p :=
  hp.imp (fun hm => h _ hm) id

/-- A set of marks that is closed under neighbours of marked open cells contains the whole
component of each marked open cell. -/
theorem marked_of_connected {bs : blocksSnapshot} {V : BitSet}
    (hcl : ∀ p, isOpen bs p → marked V p → ∀ d ∈ Direction.Values,
      inSection (shift p d) → settled bs V (shift p d))
    {a b : Cell} (h : connected bs a b) (ha : marked V a) : marked V b := by
  induction h with
  | refl => exact ha
  | tail _ hstep ih =>
    obtain ⟨hp, hq, d, hd, rfl⟩ := hstep
    exact marked_of_settled_open (hcl _ hp ih d hd hq.1) hq

/-! ## Fresh cells -/

theorem freshOpen_split {bs : blocksSnapshot} {U V W : BitSet} {p : Cell}
    (h : freshOpen bs U W p) : freshOpen bs U V p ∨ freshOpen bs V W p := by
  by_cases hm : marked V p
  · exact Or.inl ⟨h.1, hm, h.2.2⟩
  · exact Or.inr ⟨h.1, h.2.1, hm⟩

theorem freshOpen_mono_right {bs : blocksSnapshot} {U V W : BitSet} {p : Cell}
    (hVW : marksLe V W) (h : freshOpen bs U V p) : freshOpen bs U W p :=
  ⟨h.1, marked_of_le hVW h.2.1, h.2.2⟩

theorem freshOpen_mono_left {bs : blocksSnapshot} {U V W : BitSet} {p : Cell}
    (hUV : marksLe U V) (h : freshOpen bs V W p) : freshOpen bs U W p :=
  ⟨h.1, h.2.1, fun hU => h.2.2 (marked_of_le hUV hU)⟩

theorem not_freshOpen_self {bs : blocksSnapshot} {V : BitSet} {p : Cell} :
    ¬ freshOpen bs V V p := fun h => h.2.2 h.2.1

/-- Marking one cell: the only cell that can become marked is that cell. -/
theorem marked_setBit {V : BitSet} {c p : Cell} (hc : inSection c) (hp : inSection p) :
    marked ⟨V.size, V.bits ||| (1 <<< cellIndex c.1 c.2.1 c.2.2)⟩ p ↔ marked V p ∨ p = c := by
  unfold marked
  simp only [testBit_setBit, Bool.or_eq_true, decide_eq_true_eq]
  constructor
  · rintro (h | h)
    · exact Or.inl h
    · exact Or.inr (cellIndex_inj hp hc h.symm)
  · rintro (h | h)
    · exact Or.inl h
    · exact Or.inr (by rw [h])

theorem marksLe_setBit (V : BitSet) (i : Nat) : marksLe V ⟨V.size, V.bits ||| (1 <<< i)⟩ := by
  intro j hj
  simp [testBit_setBit, hj]

end Steven

namespace Steven

/-! ## The flood fill -/

theorem floodFill_succ_open (bs : blocksSnapshot) (fuel : Nat) (V : BitSet) (c : Cell)
    (hsize : V.size = 4096) (hc : inSection c) (hm : ¬ marked V c) :
    floodFill bs (fuel + 1) V c.1 c.2.1 c.2.2 =
      if solidAt bs c then
        some (0, ⟨V.size, V.bits ||| (1 <<< cellIndex c.1 c.2.1 c.2.2)⟩)
      else
        Direction.Values.foldlM (fillNeighbour (floodFill bs fuel) c.1 c.2.1 c.2.2)
          (touchedFaces c.1 c.2.1 c.2.2,
            ⟨V.size, V.bits ||| (1 <<< cellIndex c.1 c.2.1 c.2.2)⟩) := by
  have hlt : cellIndex c.1 c.2.1 c.2.2 < V.size := by rw [hsize]; exact cellIndex_lt hc
  have hrange : ¬ (c.1 < 0 ∨ c.1 > 15 ∨ c.2.1 < 0 ∨ c.2.1 > 15 ∨ c.2.2 < 0 ∨ c.2.2 > 15) := by
    obtain ⟨h1, h2, h3, h4, h5, h6⟩ := hc
    omega
  have hbit : V.bits.testBit (cellIndex c.1 c.2.1 c.2.2) = false := by
    simpa [marked] using hm
  rw [floodFill, if_neg hrange, get_of_lt hlt, hbit]
  simp only [set_true_of_lt hlt, solidAt]

theorem floodFill_succ_marked (bs : blocksSnapshot) (fuel : Nat) (V : BitSet) (c : Cell)
    (hsize : V.size = 4096) (hc : inSection c) (hm : marked V c) :
    floodFill bs (fuel + 1) V c.1 c.2.1 c.2.2 = some (0, V) := by
  have hlt : cellIndex c.1 c.2.1 c.2.2 < V.size := by rw [hsize]; exact cellIndex_lt hc
  have hrange : ¬ (c.1 < 0 ∨ c.1 > 15 ∨ c.2.1 < 0 ∨ c.2.1 > 15 ∨ c.2.2 < 0 ∨ c.2.2 > 15) := by
    obtain ⟨h1, h2, h3, h4, h5, h6⟩ := hc
    omega
  rw [floodFill, if_neg hrange, get_of_lt hlt, show V.bits.testBit _ = true from hm]

theorem floodFill_succ_outside (bs : blocksSnapshot) (fuel : Nat) (V : BitSet) (c : Cell)
    (hc : ¬ inSection c) :
    floodFill bs (fuel + 1) V c.1 c.2.1 c.2.2 = some (0, V) := by
  have hrange : c.1 < 0 ∨ c.1 > 15 ∨ c.2.1 < 0 ∨ c.2.1 > 15 ∨ c.2.2 < 0 ∨ c.2.2 > 15 := by
    unfold inSection at hc
    omega
  rw [floodFill, if_pos hrange]

/-- A call that changes nothing and returns the empty mask meets the contract, provided an
in-range start cell is already marked. -/
theorem fillPost_unchanged (bs : blocksSnapshot) (V : BitSet) (c : Cell) (hsize : V.size = 4096)
    (hstart : inSection c → settled bs V c) : FillPost bs V c 0 V where
  size := hsize
  mono := marksLe_refl V
  start := hstart
  closed := fun _ hp => absurd hp not_freshOpen_self
  sound := fun _ hp => absurd hp not_freshOpen_self
  mask := fun k => by
    rw [Nat.zero_testBit]
    constructor
    · intro h; exact Bool.noConfusion h
    · rintro ⟨p, hp, _⟩; exact absurd hp not_freshOpen_self

end Steven

namespace Steven

/-- The loop over the neighbours of an open start cell, given the contract of the recursive
calls. -/
theorem fillLoop_spec (bs : blocksSnapshot)
    (fill : BitSet → Int → Int → Int → Option (Nat × BitSet)) (fuel : Nat) (c : Cell)
    (hrec : ∀ V e, V.size = 4096 → unvisited V < fuel →
      ∃ t W, fill V e.1 e.2.1 e.2.2 = some (t, W) ∧ FillPost bs V e t W) :
    ∀ (l : List Direction) (t0 : Nat) (V : BitSet), V.size = 4096 → unvisited V < fuel →
      ∃ t W, l.foldlM (fillNeighbour fill c.1 c.2.1 c.2.2) (t0, V) = some (t, W) ∧
        W.size = 4096 ∧ marksLe V W ∧
        (∀ d ∈ l, inSection (shift c d) → settled bs W (shift c d)) ∧
        closedFrom bs V W ∧
        (∀ p, freshOpen bs V W p → ∃ d ∈ l, connected bs (shift c d) p) ∧
        (∀ k, t.testBit k = true ↔ (t0.testBit k = true ∨
          ∃ p, freshOpen bs V W p ∧ (touchedFaces p.1 p.2.1 p.2.2).testBit k = true)) := by
  intro l
  induction l with
  | nil =>
    intro t0 V hsize _
    refine ⟨t0, V, rfl, hsize, marksLe_refl V, ?_, ?_, ?_, ?_⟩
    · intro d hd; simp at hd
    · exact fun _ hp => absurd hp not_freshOpen_self
    · exact fun _ hp => absurd hp not_freshOpen_self
    · intro k
      constructor
      · exact Or.inl
      · rintro (h | ⟨p, hp, _⟩)
        · exact h
        · exact absurd hp not_freshOpen_self
  | cons d l ih =>
    intro t0 V hsize hfuel
    obtain ⟨t1, V1, hcall, h1⟩ := hrec V (shift c d) hsize hfuel
    have hfuel1 : unvisited V1 < fuel :=
      Nat.lt_of_le_of_lt (unvisited_le_of_marksLe h1.mono) hfuel
    obtain ⟨t, W, hloop, hWsize, hle, hnb, hcl, hsound, hmask⟩ := ih (t0 ||| t1) V1 h1.size hfuel1
    have hstep : fillNeighbour fill c.1 c.2.1 c.2.2 (t0, V) d = some (t0 ||| t1, V1) := by
      unfold fillNeighbour
      have : fill V (c.1 + d.Offset.1) (c.2.1 + d.Offset.2.1) (c.2.2 + d.Offset.2.2)
          = some (t1, V1) := hcall
      simp only [this]
    refine ⟨t, W, ?_, hWsize, marksLe_trans h1.mono hle, ?_, ?_, ?_, ?_⟩
    · rw [List.foldlM_cons, hstep]
      exact hloop
    · intro e he hin
      rcases List.mem_cons.mp he with rfl | he
      · exact settled_of_le hle (h1.start hin)
      · exact hnb e he hin
    · intro p hp e he hin
      rcases freshOpen_split hp with hp1 | hp2
      · exact settled_of_le hle (h1.closed p hp1 e he hin)
      · exact hcl p hp2 e he hin
    · intro p hp
      rcases freshOpen_split hp with hp1 | hp2
      · exact ⟨d, List.mem_cons_self _ _, h1.sound p hp1⟩
      · obtain ⟨e, he, hconn⟩ := hsound p hp2
        exact ⟨e, List.mem_cons_of_mem _ he, hconn⟩
    · intro k
      rw [hmask k, Nat.testBit_or, Bool.or_eq_true, h1.mask k]
      constructor
      · rintro ((h | ⟨p, hp, hk⟩) | ⟨p, hp, hk⟩)
        · exact Or.inl h
        · exact Or.inr ⟨p, freshOpen_mono_right hle hp, hk⟩
        · exact Or.inr ⟨p, freshOpen_mono_left h1.mono hp, hk⟩
      · rintro (h | ⟨p, hp, hk⟩)
        · exact Or.inl (Or.inl h)
        · rcases freshOpen_split hp with hp1 | hp2
          · exact Or.inl (Or.inr ⟨p, hp1, hk⟩)
          · exact Or.inr ⟨p, hp2, hk⟩

/-- The fill from an unmarked open cell: mark it, then fill from its six neighbours.  This
is the part every variant of the flood fill shares. -/
theorem fillOpen_spec (bs : blocksSnapshot)
    (fill : BitSet → Int → Int → Int → Option (Nat × BitSet)) (fuel : Nat)
    (hrec : ∀ V e, V.size = 4096 → unvisited V < fuel →
      ∃ t W, fill V e.1 e.2.1 e.2.2 = some (t, W) ∧ FillPost bs V e t W)
    (V : BitSet) (c : Cell) (hsize : V.size = 4096) (hfuel : unvisited V < fuel + 1)
    (hopen : isOpen bs c) (hm : ¬ marked V c) :
    ∃ t W, Direction.Values.foldlM (fillNeighbour fill c.1 c.2.1 c.2.2)
        (touchedFaces c.1 c.2.1 c.2.2,
          ⟨V.size, V.bits ||| (1 <<< cellIndex c.1 c.2.1 c.2.2)⟩) = some (t, W) ∧
      FillPost bs V c t W := by
  have hc : inSection c := hopen.1
  have hbit : V.bits.testBit (cellIndex c.1 c.2.1 c.2.2) = false := by
    simpa [marked] using hm
  have hfresh : ∀ p, inSection p →
      marked ⟨V.size, V.bits ||| (1 <<< cellIndex c.1 c.2.1 c.2.2)⟩ p → ¬ marked V p →
      p = c := by
    intro p hp hpm hpn
    rcases (marked_setBit hc hp).mp hpm with h | h
    · exact absurd h hpn
    · exact h
  have hcm : marked ⟨V.size, V.bits ||| (1 <<< cellIndex c.1 c.2.1 c.2.2)⟩ c :=
    (marked_setBit hc hc).mpr (Or.inr rfl)
  have hfuel1 : unvisited ⟨V.size, V.bits ||| (1 <<< cellIndex c.1 c.2.1 c.2.2)⟩ < fuel :=
    Nat.lt_of_lt_of_le (unvisited_setBit_lt V _ (cellIndex_lt hc) hbit)
      (Nat.le_of_lt_succ hfuel)
  obtain ⟨t, W, hloop, hWsize, hle, hnb, hcl, hsound, hmask⟩ :=
    fillLoop_spec bs fill fuel c hrec Direction.Values
      (touchedFaces c.1 c.2.1 c.2.2)
      ⟨V.size, V.bits ||| (1 <<< cellIndex c.1 c.2.1 c.2.2)⟩ hsize hfuel1
  have hcW : marked W c := marked_of_le hle hcm
  have hcases : ∀ p, freshOpen bs V W p → p = c ∨
      freshOpen bs ⟨V.size, V.bits ||| (1 <<< cellIndex c.1 c.2.1 c.2.2)⟩ W p := by
    intro p hp
    rcases freshOpen_split
      (V := ⟨V.size, V.bits ||| (1 <<< cellIndex c.1 c.2.1 c.2.2)⟩) hp with h | h
    · exact Or.inl (hfresh p h.1.1 h.2.1 h.2.2)
    · exact Or.inr h
  refine ⟨t, W, hloop, ⟨hWsize, marksLe_trans (marksLe_setBit V _) hle,
    fun _ => Or.inl hcW, ?_, ?_, ?_⟩⟩
  · intro p hp d hd hin
    rcases hcases p hp with rfl | h
    · exact hnb d hd hin
    · exact hcl p h d hd hin
  · intro p hp
    rcases hcases p hp with rfl | h
    · exact Relation.ReflTransGen.refl
    · obtain ⟨d, hd, hconn⟩ := hsound p h
      have hnbOpen : isOpen bs (shift c d) := isOpen_of_connected hconn hp.1
      exact Relation.ReflTransGen.head ⟨hopen, hnbOpen, d, hd, rfl⟩ hconn
  · intro k
    rw [hmask k]
    constructor
    · rintro (h | ⟨p, hp, hk⟩)
      · exact ⟨c, ⟨hopen, hcW, hm⟩, h⟩
      · exact ⟨p, freshOpen_mono_left (marksLe_setBit V _) hp, hk⟩
    · rintro ⟨p, hp, hk⟩
      rcases hcases p hp with rfl | h
      · exact Or.inl hk
      · exact Or.inr ⟨p, h, hk⟩

/-- Marking a `ShouldCullAgainst` start cell and returning the empty mask meets the
contract. -/
theorem fillPost_solid (bs : blocksSnapshot) (V : BitSet) (c : Cell) (hsize : V.size = 4096)
    (hc : inSection c) (hsolid : solidAt bs c = true) :
    FillPost bs V c 0 ⟨V.size, V.bits ||| (1 <<< cellIndex c.1 c.2.1 c.2.2)⟩ := by
  have hnone : ∀ p,
      ¬ freshOpen bs V ⟨V.size, V.bits ||| (1 <<< cellIndex c.1 c.2.1 c.2.2)⟩ p := by
    intro p hp
    rcases (marked_setBit hc hp.1.1).mp hp.2.1 with h | h
    · exact hp.2.2 h
    · subst h
      rw [hp.1.2] at hsolid
      exact Bool.noConfusion hsolid
  refine ⟨hsize, marksLe_setBit V _, fun _ => Or.inr hsolid,
    fun p hp => absurd hp (hnone p), fun p hp => absurd hp (hnone p), ?_⟩
  intro k
  rw [Nat.zero_testBit]
  constructor
  · intro h; exact Bool.noConfusion h
  · rintro ⟨p, hp, _⟩; exact absurd hp (hnone p)

/-- The contract of `floodFill`: with a recursion depth above the number of unmarked cells the
call returns, and the result meets `FillPost`. -/
theorem floodFill_spec (bs : blocksSnapshot) :
    ∀ (fuel : Nat) (V : BitSet) (c : Cell), V.size = 4096 → unvisited V < fuel →
      ∃ t W, floodFill bs fuel V c.1 c.2.1 c.2.2 = some (t, W) ∧ FillPost bs V c t W := by
  intro fuel
  induction fuel with
  | zero => intro V c _ h; exact absurd h (Nat.not_lt_zero _)
  | succ fuel ih =>
    intro V c hsize hfuel
    by_cases hc : inSection c
    swap
    · exact ⟨0, V, floodFill_succ_outside bs fuel V c hc,
        fillPost_unchanged bs V c hsize (fun h => absurd h hc)⟩
    by_cases hm : marked V c
    · exact ⟨0, V, floodFill_succ_marked bs fuel V c hsize hc hm,
        fillPost_unchanged bs V c hsize (fun _ => Or.inl hm)⟩
    rw [floodFill_succ_open bs fuel V c hsize hc hm]
    by_cases hsolid : solidAt bs c = true
    · rw [if_pos hsolid]
      exact ⟨0, _, rfl, fillPost_solid bs V c hsize hc hsolid⟩
    · rw [if_neg hsolid]
      exact fillOpen_spec bs (floodFill bs fuel) fuel ih V c hsize hfuel
        ⟨hc, by simpa using hsolid⟩ hm

end Steven

namespace Steven

/-! ## The visibility bits -/

theorem testBit_setInner (t k : Nat) (l : List Direction) : ∀ (bits n : Nat),
    (l.foldl (fun bits d2 =>
        if t &&& (1 <<< d2.toNat) ≠ 0 then bits ||| (1 <<< (k * 6 + d2.toNat)) else bits)
      bits).testBit n = true ↔
    (bits.testBit n = true ∨ ∃ d2 ∈ l, t.testBit d2.toNat = true ∧ n = k * 6 + d2.toNat) := by
  induction l with
  | nil => intro bits n; simp
  | cons d l ih =>
    intro bits n
    rw [List.foldl_cons, ih]
    by_cases hd : t.testBit d.toNat = true
    · rw [if_pos ((and_shift_ne_zero t _).mpr hd), testBit_setBit]
      simp only [Bool.or_eq_true, decide_eq_true_eq, List.mem_cons, exists_eq_or_imp]
      constructor
      · rintro ((h | h) | h)
        · exact Or.inl h
        · exact Or.inr (Or.inl ⟨hd, h.symm⟩)
        · exact Or.inr (Or.inr h)
      · rintro (h | ⟨_, h⟩ | h)
        · exact Or.inl (Or.inl h)
        · exact Or.inl (Or.inr h.symm)
        · exact Or.inr h
    · rw [if_neg (fun h => hd ((and_shift_ne_zero t _).mp h))]
      simp only [List.mem_cons, exists_eq_or_imp]
      constructor
      · rintro (h | h)
        · exact Or.inl h
        · exact Or.inr (Or.inr h)
      · rintro (h | ⟨h, _⟩ | h)
        · exact Or.inl h
        · exact absurd h hd
        · exact Or.inr h

theorem testBit_setOuter (t : Nat) (l : List Direction) : ∀ (bits n : Nat),
    (l.foldl (fun bits d =>
        if t &&& (1 <<< d.toNat) ≠ 0 then
          Direction.Values.foldl (fun bits d2 =>
            if t &&& (1 <<< d2.toNat) ≠ 0 then bits ||| (1 <<< (d.toNat * 6 + d2.toNat))
            else bits) bits
        else bits) bits).testBit n = true ↔
    (bits.testBit n = true ∨ ∃ d1 ∈ l, ∃ d2 ∈ Direction.Values,
      t.testBit d1.toNat = true ∧ t.testBit d2.toNat = true ∧
      n = d1.toNat * 6 + d2.toNat) := by
  induction l with
  | nil => intro bits n; simp
  | cons d l ih =>
    intro bits n
    rw [List.foldl_cons, ih]
    by_cases hd : t.testBit d.toNat = true
    · rw [if_pos ((and_shift_ne_zero t _).mpr hd), testBit_setInner]
      simp only [List.mem_cons, exists_eq_or_imp]
      constructor
      · rintro ((h | ⟨d2, hd2, h2, hn⟩) | h)
        · exact Or.inl h
        · exact Or.inr (Or.inl ⟨d2, hd2, hd, h2, hn⟩)
        · exact Or.inr (Or.inr h)
      · rintro (h | ⟨d2, hd2, _, h2, hn⟩ | h)
        · exact Or.inl (Or.inl h)
        · exact Or.inl (Or.inr ⟨d2, hd2, h2, hn⟩)
        · exact Or.inr h
    · rw [if_neg (fun h => hd ((and_shift_ne_zero t _).mp h))]
      simp only [List.mem_cons, exists_eq_or_imp]
      constructor
      · rintro (h | h)
        · exact Or.inl h
        · exact Or.inr (Or.inr h)
      · rintro (h | ⟨_, _, h, _⟩ | h)
        · exact Or.inl h
        · exact absurd h hd
        · exact Or.inr h

/-- The bits after marking every touched face as visible through every touched face. -/
theorem testBit_setTouched (bits t n : Nat) :
    (setTouched bits t).testBit n = true ↔
    (bits.testBit n = true ∨ ∃ d1 ∈ Direction.Values, ∃ d2 ∈ Direction.Values,
      t.testBit d1.toNat = true ∧ t.testBit d2.toNat = true ∧
      n = d1.toNat * 6 + d2.toNat) :=
  testBit_setOuter t Direction.Values bits n

/-- An invariant of a loop in the option monad: every step keeps `Inv`, advances the state
along the preorder `R` and establishes `Q` for its element, and `Q` persists along `R`. -/
theorem foldlM_invariant {σ α : Type} (f : σ → α → Option σ) (R : σ → σ → Prop)
    (Inv : σ → Prop) (Q : α → σ → Prop)
    (hrefl : ∀ s, R s s) (htrans : ∀ s1 s2 s3, R s1 s2 → R s2 s3 → R s1 s3)
    (hQ : ∀ a s1 s2, R s1 s2 → Q a s1 → Q a s2) :
    ∀ (l : List α), (∀ s a, a ∈ l → Inv s → ∃ s1, f s a = some s1 ∧ Inv s1 ∧ R s s1 ∧ Q a s1) →
      ∀ s, Inv s → ∃ s1, l.foldlM f s = some s1 ∧ Inv s1 ∧ R s s1 ∧ ∀ a ∈ l, Q a s1 := by
  intro l
  induction l with
  | nil =>
    intro _ s hs
    exact ⟨s, rfl, hs, hrefl s, fun a ha => by simp at ha⟩
  | cons b l ih =>
    intro hstep s hs
    obtain ⟨s1, h1, hinv1, hR1, hQ1⟩ := hstep s b (List.mem_cons_self _ _) hs
    obtain ⟨s2, h2, hinv2, hR2, hQ2⟩ :=
      ih (fun s a ha => hstep s a (List.mem_cons_of_mem _ ha)) s1 hinv1
    refine ⟨s2, ?_, hinv2, htrans _ _ _ hR1 hR2, ?_⟩
    · rw [List.foldlM_cons, h1]; exact h2
    · intro a ha
      rcases List.mem_cons.mp ha with rfl | ha
      · exact hQ a s1 s2 hR2 hQ1
      · exact hQ2 a ha

end Steven

namespace Steven

theorem touchedFaces_testBit {d : Direction} (hd : d ∈ Direction.Values) (p : Cell) :
    (touchedFaces p.1 p.2.1 p.2.2).testBit d.toNat = true ↔ onFace d p := by
  unfold touchedFaces
  by_cases hx0 : p.1 = 0 <;> by_cases hx15 : p.1 = 15 <;>
  by_cases hy0 : p.2.1 = 0 <;> by_cases hy15 : p.2.1 = 15 <;>
  by_cases hz0 : p.2.2 = 0 <;> by_cases hz15 : p.2.2 = 15 <;>
  cases d <;>
  simp [Direction.Values] at hd <;>
  simp [hx0, hx15, hy0, hy15, hz0, hz15, onFace, Direction.toNat] <;>
  first | omega | decide

end Steven

namespace Steven

theorem inSection_natCast {x y z : Nat} (hx : x < 16) (hy : y < 16) (hz : z < 16) :
    inSection ((x : Int), (y : Int), (z : Int)) := by
  unfold inSection
  simp only
  omega

/-- A fill from an unmarked cell extends a closed set of marks by whole components: a fresh
open cell drags along every open cell connected to it. -/
theorem freshOpen_of_connected {bs : blocksSnapshot} {V W : BitSet}
    (hV : ∀ p, isOpen bs p → marked V p →
      ∀ d ∈ Direction.Values, inSection (shift p d) → settled bs V (shift p d))
    (hW : ∀ p, isOpen bs p → marked W p →
      ∀ d ∈ Direction.Values, inSection (shift p d) → settled bs W (shift p d))
    {p q : Cell} (hp : freshOpen bs V W p) (hq : isOpen bs q) (h : connected bs p q) :
    freshOpen bs V W q :=
  ⟨hq, marked_of_connected hW h hp.2.1,
    fun hm => hp.2.2 (marked_of_connected hV (connected_symm h) hm)⟩

/-- One step of the triple loop of `buildCullBits` keeps the invariant, keeps the marks and
settles its cell. -/
theorem cullStep_spec (bs : blocksSnapshot)
    (fill : BitSet → Int → Int → Int → Option (Nat × BitSet)) (hfill : FillOk bs fill)
    {x y z : Nat} (hx : x < 16) (hy : y < 16) (hz : z < 16)
    (st : Nat × BitSet) (hinv : CullInv bs st) :
    ∃ st1, cullStep fill x y z st = some st1 ∧ CullInv bs st1 ∧ marksLe st.2 st1.2 ∧
      settled bs st1.2 ((x : Int), (y : Int), (z : Int)) := by
  have hc : inSection ((x : Int), (y : Int), (z : Int)) := inSection_natCast hx hy hz
  have hidx : x ||| (z <<< 4) ||| (y <<< 8) < st.2.size := by
    rw [hinv.size, ← cellIndex_natCast]
    exact cellIndex_lt hc
  unfold cullStep
  rw [get_of_lt hidx]
  by_cases hm : st.2.bits.testBit (x ||| (z <<< 4) ||| (y <<< 8)) = true
  · rw [hm]
    refine ⟨st, rfl, hinv, marksLe_refl _, Or.inl ?_⟩
    unfold marked
    rw [cellIndex_natCast]
    exact hm
  · have hm0 : st.2.bits.testBit (x ||| (z <<< 4) ||| (y <<< 8)) = false := by
      simpa using hm
    rw [hm0]
    obtain ⟨t, W, hcall, hpost⟩ := hfill st.2 ((x : Int), (y : Int), (z : Int)) hinv.size
    have hcall1 : fill st.2 (x : Int) (y : Int) (z : Int) = some (t, W) := hcall
    simp only [hcall1]
    have hWclosed : ∀ p, isOpen bs p → marked W p →
        ∀ d ∈ Direction.Values, inSection (shift p d) → settled bs W (shift p d) := by
      intro p hp hpm d hd hin
      by_cases hpV : marked st.2 p
      · exact settled_of_le hpost.mono (hinv.closed p hp hpV d hd hin)
      · exact hpost.closed p ⟨hp, hpm, hpV⟩ d hd hin
    have key : ∀ bits1 : Nat,
        (∀ n, bits1.testBit n = true ↔ (st.1.testBit n = true ∨
          ∃ d1 ∈ Direction.Values, ∃ d2 ∈ Direction.Values,
            t.testBit d1.toNat = true ∧ t.testBit d2.toNat = true ∧
            n = d1.toNat * 6 + d2.toNat)) →
        CullInv bs (bits1, W) := by
      intro bits1 hbits1
      refine ⟨hpost.size, hWclosed, ?_⟩
      intro n
      rw [hbits1 n, hinv.bits n]
      constructor
      · rintro (⟨d1, hd1, d2, hd2, hn, p, q, hp, hq, hpm, hf1, hf2, hconn⟩ |
          ⟨d1, hd1, d2, hd2, ht1, ht2, hn⟩)
        · exact ⟨d1, hd1, d2, hd2, hn, p, q, hp, hq, marked_of_le hpost.mono hpm, hf1, hf2,
            hconn⟩
        · obtain ⟨p, hp, hf1⟩ := (hpost.mask _).mp ht1
          obtain ⟨q, hq, hf2⟩ := (hpost.mask _).mp ht2
          exact ⟨d1, hd1, d2, hd2, hn, p, q, hp.1, hq.1, hp.2.1, hf1, hf2,
            connected_trans (connected_symm (hpost.sound p hp)) (hpost.sound q hq)⟩
      · rintro ⟨d1, hd1, d2, hd2, hn, p, q, hp, hq, hpm, hf1, hf2, hconn⟩
        by_cases hpV : marked st.2 p
        · exact Or.inl ⟨d1, hd1, d2, hd2, hn, p, q, hp, hq, hpV, hf1, hf2, hconn⟩
        · have hpf : freshOpen bs st.2 W p := ⟨hp, hpm, hpV⟩
          have hqf : freshOpen bs st.2 W q :=
            freshOpen_of_connected hinv.closed hWclosed hpf hq hconn
          exact Or.inr ⟨d1, hd1, d2, hd2, (hpost.mask _).mpr ⟨p, hpf, hf1⟩,
            (hpost.mask _).mpr ⟨q, hqf, hf2⟩, hn⟩
    by_cases ht : t = 0
    · rw [if_pos ht]
      refine ⟨(st.1, W), rfl, key st.1 ?_, hpost.mono, hpost.start hc⟩
      intro n
      constructor
      · exact Or.inl
      · rintro (h | ⟨d1, _, d2, _, h1, _⟩)
        · exact h
        · rw [ht, Nat.zero_testBit] at h1
          exact Bool.noConfusion h1
    · rw [if_neg ht]
      exact ⟨(setTouched st.1 t, W), rfl, key _ (testBit_setTouched st.1 t), hpost.mono,
        hpost.start hc⟩

end Steven

namespace Steven

theorem not_marked_newSet (n : Nat) (p : Cell) : ¬ marked (NewSet n) p := by
  unfold marked NewSet
  simp

theorem cullInv_init (bs : blocksSnapshot) : CullInv bs (0, NewSet (16 * 16 * 16)) where
  size := rfl
  closed := fun p _ hm => absurd hm (not_marked_newSet _ p)
  bits := fun n => by
    rw [Nat.zero_testBit]
    constructor
    · intro h; exact Bool.noConfusion h
    · rintro ⟨_, _, _, _, _, p, _, _, _, hm, _⟩
      exact absurd hm (not_marked_newSet _ p)

/-- The triple loop of `buildCullBits` returns, with the invariant established and every
cell of the section settled. -/
theorem cullLoop_fold_spec (bs : blocksSnapshot)
    (fill : BitSet → Int → Int → Int → Option (Nat × BitSet)) (hfill : FillOk bs fill) :
    ∃ st, (List.range 16).foldlM
        (fun st y => (List.range 16).foldlM
          (fun st z => (List.range 16).foldlM
            (fun st x => cullStep fill x y z st) st) st)
        (0, NewSet (16 * 16 * 16)) = some st ∧
      CullInv bs st ∧
      ∀ y ∈ List.range 16, ∀ z ∈ List.range 16, ∀ x ∈ List.range 16,
        settled bs st.2 ((x : Int), (y : Int), (z : Int)) := by
  have hR : ∀ s1 s2 s3 : Nat × BitSet, marksLe s1.2 s2.2 → marksLe s2.2 s3.2 →
      marksLe s1.2 s3.2 := fun _ _ _ h1 h2 => marksLe_trans h1 h2
  have hxs : ∀ y ∈ List.range 16, ∀ z ∈ List.range 16, ∀ s : Nat × BitSet, CullInv bs s →
      ∃ s1, (List.range 16).foldlM (fun st x => cullStep fill x y z st) s = some s1 ∧
        CullInv bs s1 ∧ marksLe s.2 s1.2 ∧
        ∀ x ∈ List.range 16, settled bs s1.2 ((x : Int), (y : Int), (z : Int)) := by
    intro y hy z hz
    refine foldlM_invariant (fun st x => cullStep fill x y z st)
      (fun s1 s2 => marksLe s1.2 s2.2) (CullInv bs)
      (fun (x : Nat) s => settled bs s.2 ((x : Int), (y : Int), (z : Int)))
      (fun s => marksLe_refl s.2) hR (fun _ _ _ h hq => settled_of_le h hq) _ ?_
    intro s x hx hs
    exact cullStep_spec bs fill hfill (List.mem_range.mp hx) (List.mem_range.mp hy)
      (List.mem_range.mp hz) s hs
  have hzs : ∀ y ∈ List.range 16, ∀ s : Nat × BitSet, CullInv bs s →
      ∃ s1, (List.range 16).foldlM (fun st z => (List.range 16).foldlM
          (fun st x => cullStep fill x y z st) st) s = some s1 ∧
        CullInv bs s1 ∧ marksLe s.2 s1.2 ∧
        ∀ z ∈ List.range 16, ∀ x ∈ List.range 16,
          settled bs s1.2 ((x : Int), (y : Int), (z : Int)) := by
    intro y hy
    refine foldlM_invariant _
      (fun s1 s2 => marksLe s1.2 s2.2) (CullInv bs)
      (fun (z : Nat) s => ∀ x ∈ List.range 16, settled bs s.2 ((x : Int), (y : Int), (z : Int)))
      (fun s => marksLe_refl s.2) hR (fun _ _ _ h hq x hx => settled_of_le h (hq x hx)) _ ?_
    intro s z hz hs
    exact hxs y hy z hz s hs
  obtain ⟨st, hfold, hinv, _, hall⟩ := foldlM_invariant
    (fun st y => (List.range 16).foldlM (fun st z => (List.range 16).foldlM
      (fun st x => cullStep fill x y z st) st) st)
    (fun s1 s2 => marksLe s1.2 s2.2) (CullInv bs)
    (fun (y : Nat) s => ∀ z ∈ List.range 16, ∀ x ∈ List.range 16,
      settled bs s.2 ((x : Int), (y : Int), (z : Int)))
    (fun s => marksLe_refl s.2) hR
    (fun _ _ _ h hq z hz x hx => settled_of_le h (hq z hz x hx)) (List.range 16)
    (fun s y hy hs => hzs y hy s hs) (0, NewSet (16 * 16 * 16)) (cullInv_init bs)
  exact ⟨st, hfold, hinv, hall⟩

/-- The visibility bits computed by the triple loop for any fill function that meets the
flood fill contract: bit `d1 * 6 + d2` is set exactly when face `d1` sees face `d2`, and no
other bit is set. -/
theorem cullLoop_spec (bs : blocksSnapshot)
    (fill : BitSet → Int → Int → Int → Option (Nat × BitSet)) (hfill : FillOk bs fill) :
    ∃ bits, cullLoop fill = some bits ∧
      ∀ n, bits.testBit n = true ↔
        ∃ d1 ∈ Direction.Values, ∃ d2 ∈ Direction.Values,
          n = d1.toNat * 6 + d2.toNat ∧ sees bs d1 d2 := by
  obtain ⟨st, hfold, hinv, hall⟩ := cullLoop_fold_spec bs fill hfill
  have hmarked : ∀ p, isOpen bs p → marked st.2 p := by
    intro p hp
    obtain ⟨h1, h2, h3, h4, h5, h6⟩ := hp.1
    have hs := hall p.2.1.toNat (List.mem_range.mpr (by omega))
      p.2.2.toNat (List.mem_range.mpr (by omega)) p.1.toNat (List.mem_range.mpr (by omega))
    rw [Int.toNat_of_nonneg h1, Int.toNat_of_nonneg h3, Int.toNat_of_nonneg h5] at hs
    exact marked_of_settled_open hs hp
  refine ⟨st.1, ?_, ?_⟩
  · unfold cullLoop
    rw [hfold]
    rfl
  · intro n
    rw [hinv.bits n]
    constructor
    · rintro ⟨d1, hd1, d2, hd2, hn, p, q, hp, hq, _, hf1, hf2, hconn⟩
      exact ⟨d1, hd1, d2, hd2, hn, p, q, hp, hq, (touchedFaces_testBit hd1 p).mp hf1,
        (touchedFaces_testBit hd2 q).mp hf2, hconn⟩
    · rintro ⟨d1, hd1, d2, hd2, hn, p, q, hp, hq, hf1, hf2, hconn⟩
      exact ⟨d1, hd1, d2, hd2, hn, p, q, hp, hq, hmarked p hp,
        (touchedFaces_testBit hd1 p).mpr hf1, (touchedFaces_testBit hd2 q).mpr hf2, hconn⟩

theorem floodFill_fillOk (bs : blocksSnapshot) : FillOk bs (floodFill bs (16 * 16 * 16 + 1)) :=
  fun V c hsize => floodFill_spec bs _ V c hsize (Nat.lt_succ_of_le (unvisited_le V))

/-- The specification of `buildCullBits`: it returns, and bit `n` of the result is set exactly
when `n = d1 * 6 + d2` for two faces `d1`, `d2` such that `d1` sees `d2`. -/
theorem buildCullBits_spec (bs : blocksSnapshot) :
    ∃ bits, buildCullBits bs = some bits ∧
      ∀ n, bits.testBit n = true ↔
        ∃ d1 ∈ Direction.Values, ∃ d2 ∈ Direction.Values,
          n = d1.toNat * 6 + d2.toNat ∧ sees bs d1 d2 :=
  cullLoop_spec bs _ (floodFill_fillOk bs)

theorem toNat_lt_of_mem {d : Direction} (h : d ∈ Direction.Values) : d.toNat < 6 := by
  cases d <;> simp [Direction.Values, Direction.toNat] at h ⊢

theorem toNat_inj {a b : Direction} (h : a.toNat = b.toNat) : a = b := by
  cases a <;> cases b <;> simp [Direction.toNat] at h ⊢

theorem pairIndex_inj {a b c d : Direction} (hb : b ∈ Direction.Values)
    (hd : d ∈ Direction.Values)
    (h : a.toNat * 6 + b.toNat = c.toNat * 6 + d.toNat) : a = c ∧ b = d := by
  have h1 := toNat_lt_of_mem hb
  have h2 := toNat_lt_of_mem hd
  exact ⟨toNat_inj (by omega), toNat_inj (by omega)⟩

/-- The bit of a pair of faces is set exactly when the first face sees the second. -/
theorem buildCullBits_pairs (bs : blocksSnapshot) :
    ∃ bits, buildCullBits bs = some bits ∧
      ∀ f ∈ Direction.Values, ∀ t ∈ Direction.Values,
        (bits.testBit (f.toNat * 6 + t.toNat) = true ↔ sees bs f t) := by
  obtain ⟨bits, hb, hbits⟩ := buildCullBits_spec bs
  refine ⟨bits, hb, fun f _ t ht => ?_⟩
  rw [hbits]
  constructor
  · rintro ⟨d1, _, d2, hd2, hn, hsees⟩
    obtain ⟨rfl, rfl⟩ := pairIndex_inj ht hd2 hn
    exact hsees
  · intro hsees
    exact ⟨f, ‹_›, t, ht, rfl, hsees⟩

/-- C1. For every snapshot `buildCullBits` returns a value, and for every pair of faces
`(from, to)` of the six directions bit `from * 6 + to` of that value is set if and only if
some 6-connected component of cells of the section that are not `ShouldCullAgainst`
contains a cell on face `from` and a cell on face `to`. -/
theorem buildCullBits_bit_iff_sees (bs : blocksSnapshot) :
    ∃ bits, buildCullBits bs = some bits ∧
      ∀ f ∈ Direction.Values, ∀ t ∈ Direction.Values,
        (bits.testBit (f.toNat * 6 + t.toNat) = true ↔
          ∃ p q : Cell, isOpen bs p ∧ isOpen bs q ∧ onFace f p ∧ onFace t q ∧
            connected bs p q) :=
  buildCullBits_pairs bs

theorem buildCullBits_bit_iff_sees_witness :
    ∃ bits, buildCullBits planeSection = some bits ∧
      ∀ f ∈ Direction.Values, ∀ t ∈ Direction.Values,
        (bits.testBit (f.toNat * 6 + t.toNat) = true ↔
          ∃ p q : Cell, isOpen planeSection p ∧ isOpen planeSection q ∧ onFace f p ∧
            onFace t q ∧ connected planeSection p q) :=
  buildCullBits_bit_iff_sees planeSection

end Steven

namespace Steven

theorem sees_symm {bs : blocksSnapshot} {f t : Direction} (h : sees bs f t) : sees bs t f := by
  obtain ⟨p, q, hp, hq, hf, ht, hconn⟩ := h
  exact ⟨q, p, hq, hp, ht, hf, connected_symm hconn⟩

/-- C2. For every snapshot `buildCullBits` returns a value whose 6x6 visibility matrix is
symmetric: for all faces `a`, `b` in `[0, 6)` bit `a * 6 + b` equals bit `b * 6 + a`. -/
theorem buildCullBits_symmetric (bs : blocksSnapshot) :
    ∃ bits, buildCullBits bs = some bits ∧
      ∀ a b : Fin 6, bits.testBit (a.val * 6 + b.val) = bits.testBit (b.val * 6 + a.val) := by
  obtain ⟨bits, hb, hbits⟩ := buildCullBits_spec bs
  refine ⟨bits, hb, fun a b => ?_⟩
  have hswap : ∀ a b : Nat, bits.testBit (a * 6 + b) = true → a < 6 → b < 6 →
      bits.testBit (b * 6 + a) = true := by
    intro a b h ha hb6
    obtain ⟨d1, hd1, d2, hd2, hn, hsees⟩ := (hbits _).mp h
    have h1 := toNat_lt_of_mem hd1
    have h2 := toNat_lt_of_mem hd2
    exact (hbits _).mpr ⟨d2, hd2, d1, hd1, by omega, sees_symm hsees⟩
  rw [Bool.eq_iff_iff]
  exact ⟨fun h => hswap _ _ h a.isLt b.isLt, fun h => hswap _ _ h b.isLt a.isLt⟩

end Steven

namespace Steven

/-! ## Connectivity inside a box of open cells -/

theorem line_x (bs : blocksSnapshot) (y z a : Int) (n : Nat)
    (h : ∀ x, a ≤ x → x ≤ a + n → isOpen bs (x, y, z)) :
    connected bs (a, y, z) (a + n, y, z) := by
  induction n with
  | zero => simpa using (Relation.ReflTransGen.refl : connected bs (a, y, z) (a, y, z))
  | succ n ih =>
    have h1 := ih (fun x h1 h2 => h x h1 (by push_cast; omega))
    refine Relation.ReflTransGen.tail h1 ⟨h _ (by omega) (by push_cast; omega),
      h _ (by push_cast; omega) (by push_cast; omega), Direction.East, by decide, ?_⟩
    simp [shift, Direction.Offset]
    omega

theorem line_y (bs : blocksSnapshot) (x z a : Int) (n : Nat)
    (h : ∀ y, a ≤ y → y ≤ a + n → isOpen bs (x, y, z)) :
    connected bs (x, a, z) (x, a + n, z) := by
  induction n with
  | zero => simpa using (Relation.ReflTransGen.refl : connected bs (x, a, z) (x, a, z))
  | succ n ih =>
    have h1 := ih (fun y h1 h2 => h y h1 (by push_cast; omega))
    refine Relation.ReflTransGen.tail h1 ⟨h _ (by omega) (by push_cast; omega),
      h _ (by push_cast; omega) (by push_cast; omega), Direction.Up, by decide, ?_⟩
    simp [shift, Direction.Offset]
    omega

theorem line_z (bs : blocksSnapshot) (x y a : Int) (n : Nat)
    (h : ∀ z, a ≤ z → z ≤ a + n → isOpen bs (x, y, z)) :
    connected bs (x, y, a) (x, y, a + n) := by
  induction n with
  | zero => simpa using (Relation.ReflTransGen.refl : connected bs (x, y, a) (x, y, a))
  | succ n ih =>
    have h1 := ih (fun z h1 h2 => h z h1 (by push_cast; omega))
    refine Relation.ReflTransGen.tail h1 ⟨h _ (by omega) (by push_cast; omega),
      h _ (by push_cast; omega) (by push_cast; omega), Direction.South, by decide, ?_⟩
    simp [shift, Direction.Offset]
    omega

theorem segment_x (bs : blocksSnapshot) (y z a b : Int)
    (h : ∀ x, min a b ≤ x → x ≤ max a b → isOpen bs (x, y, z)) :
    connected bs (a, y, z) (b, y, z) := by
  rcases le_total a b with hab | hab
  · have := line_x bs y z a (b - a).toNat (fun x h1 h2 => h x (by omega) (by omega))
    rwa [Int.toNat_of_nonneg (by omega), show a + (b - a) = b by omega] at this
  · have := line_x bs y z b (a - b).toNat (fun x h1 h2 => h x (by omega) (by omega))
    rw [Int.toNat_of_nonneg (by omega), show b + (a - b) = a by omega] at this
    exact connected_symm this

theorem segment_y (bs : blocksSnapshot) (x z a b : Int)
    (h : ∀ y, min a b ≤ y → y ≤ max a b → isOpen bs (x, y, z)) :
    connected bs (x, a, z) (x, b, z) := by
  rcases le_total a b with hab | hab
  · have := line_y bs x z a (b - a).toNat (fun y h1 h2 => h y (by omega) (by omega))
    rwa [Int.toNat_of_nonneg (by omega), show a + (b - a) = b by omega] at this
  · have := line_y bs x z b (a - b).toNat (fun y h1 h2 => h y (by omega) (by omega))
    rw [Int.toNat_of_nonneg (by omega), show b + (a - b) = a by omega] at this
    exact connected_symm this

theorem segment_z (bs : blocksSnapshot) (x y a b : Int)
    (h : ∀ z, min a b ≤ z → z ≤ max a b → isOpen bs (x, y, z)) :
    connected bs (x, y, a) (x, y, b) := by
  rcases le_total a b with hab | hab
  · have := line_z bs x y a (b - a).toNat (fun z h1 h2 => h z (by omega) (by omega))
    rwa [Int.toNat_of_nonneg (by omega), show a + (b - a) = b by omega] at this
  · have := line_z bs x y b (a - b).toNat (fun z h1 h2 => h z (by omega) (by omega))
    rw [Int.toNat_of_nonneg (by omega), show b + (a - b) = a by omega] at this
    exact connected_symm this

/-- Any two cells of a box all of whose cells are open are connected. -/
theorem connected_of_box (bs : blocksSnapshot) (lo hi : Cell)
    (hbox : ∀ p, inBox lo hi p → isOpen bs p) {p q : Cell}
    (hp : inBox lo hi p) (hq : inBox lo hi q) : connected bs p q := by
  obtain ⟨px, py, pz⟩ := p
  obtain ⟨qx, qy, qz⟩ := q
  unfold inBox at hp hq
  simp only at hp hq
  have h1 : connected bs (px, py, pz) (qx, py, pz) :=
    segment_x bs py pz px qx (fun x h1 h2 => hbox _ (by unfold inBox; simp only; omega))
  have h2 : connected bs (qx, py, pz) (qx, qy, pz) :=
    segment_y bs qx pz py qy (fun y h1 h2 => hbox _ (by unfold inBox; simp only; omega))
  have h3 : connected bs (qx, qy, pz) (qx, qy, qz) :=
    segment_z bs qx qy pz qz (fun z h1 h2 => hbox _ (by unfold inBox; simp only; omega))
  exact connected_trans h1 (connected_trans h2 h3)

/-- Two faces that both meet a box of open cells see each other. -/
theorem sees_of_box (bs : blocksSnapshot) (lo hi : Cell)
    (hbox : ∀ p, inBox lo hi p → isOpen bs p) {f t : Direction} {p q : Cell}
    (hp : inBox lo hi p) (hq : inBox lo hi q) (hf : onFace f p) (ht : onFace t q) :
    sees bs f t :=
  ⟨p, q, hbox p hp, hbox q hq, hf, ht, connected_of_box bs lo hi hbox hp hq⟩

/-- A property of cells that no step between open cells changes holds on whole
components. -/
theorem connected_preserves {bs : blocksSnapshot} (P : Cell → Prop)
    (hstep : ∀ a b, openStep bs a b → P a → P b) {a b : Cell}
    (h : connected bs a b) (ha : P a) : P b := by
  induction h with
  | refl => exact ha
  | tail _ hs ih => exact hstep _ _ hs ih

end Steven

namespace Steven

theorem exists_direction_of_lt {k : Nat} (h : k < 6) :
    ∃ d ∈ Direction.Values, d.toNat = k := by
  interval_cases k
  · exact ⟨Direction.Up, by decide, rfl⟩
  · exact ⟨Direction.Down, by decide, rfl⟩
  · exact ⟨Direction.North, by decide, rfl⟩
  · exact ⟨Direction.South, by decide, rfl⟩
  · exact ⟨Direction.East, by decide, rfl⟩
  · exact ⟨Direction.West, by decide, rfl⟩

/-- Every face of the section has a cell on it. -/
theorem exists_cell_onFace {d : Direction} (h : d ∈ Direction.Values) :
    ∃ p, inBox (0, 0, 0) (15, 15, 15) p ∧ onFace d p := by
  cases d
  · exact ⟨(0, 15, 0), by decide, by decide⟩
  · exact ⟨(0, 0, 0), by decide, by decide⟩
  · exact ⟨(0, 0, 0), by decide, by decide⟩
  · exact ⟨(0, 0, 15), by decide, by decide⟩
  · exact ⟨(15, 0, 0), by decide, by decide⟩
  · exact ⟨(0, 0, 0), by decide, by decide⟩
  · simp [Direction.Values] at h

theorem inSection_of_inBox {lo hi p : Cell} (hlo : inSection lo) (hhi : inSection hi)
    (h : inBox lo hi p) : inSection p := by
  unfold inSection at *
  unfold inBox at h
  omega

/-- C3. For every snapshot in which no cell of the section is `ShouldCullAgainst` (all air,
or all glass), `buildCullBits` returns exactly `0xFFFFFFFFF`: all 36 used bits are set and
no bit at position 36 or above. -/
theorem buildCullBits_all_open (bs : blocksSnapshot)
    (h : ∀ c, inSection c → solidAt bs c = false) :
    buildCullBits bs = some 0xFFFFFFFFF := by
  obtain ⟨bits, hb, hbits⟩ := buildCullBits_spec bs
  have hbox : ∀ p, inBox (0, 0, 0) (15, 15, 15) p → isOpen bs p := fun p hp =>
    ⟨inSection_of_inBox (by decide) (by decide) hp,
      h p (inSection_of_inBox (by decide) (by decide) hp)⟩
  have hval : bits = 2 ^ 36 - 1 := by
    apply Nat.eq_of_testBit_eq
    intro i
    rw [Nat.testBit_two_pow_sub_one, Bool.eq_iff_iff, hbits, decide_eq_true_iff]
    constructor
    · rintro ⟨d1, hd1, d2, hd2, hn, _⟩
      have h1 := toNat_lt_of_mem hd1
      have h2 := toNat_lt_of_mem hd2
      omega
    · intro hi
      obtain ⟨d1, hd1, e1⟩ := exists_direction_of_lt (k := i / 6) (by omega)
      obtain ⟨d2, hd2, e2⟩ := exists_direction_of_lt (k := i % 6) (Nat.mod_lt _ (by omega))
      obtain ⟨p, hp, hf⟩ := exists_cell_onFace hd1
      obtain ⟨q, hq, ht⟩ := exists_cell_onFace hd2
      exact ⟨d1, hd1, d2, hd2, by omega, sees_of_box bs _ _ hbox hp hq hf ht⟩
  rw [hb, hval]
  rfl

theorem buildCullBits_all_open_witness :
    (∀ c, inSection c → solidAt glassSection c = false) ∧
      buildCullBits glassSection = some 0xFFFFFFFFF :=
  ⟨fun _ _ => rfl, buildCullBits_all_open glassSection (fun _ _ => rfl)⟩

/-- C4. For every snapshot in which every cell of the section is `ShouldCullAgainst`,
`buildCullBits` returns 0. -/
theorem buildCullBits_all_solid (bs : blocksSnapshot)
    (h : ∀ c, inSection c → solidAt bs c = true) :
    buildCullBits bs = some 0 := by
  obtain ⟨bits, hb, hbits⟩ := buildCullBits_spec bs
  have hval : bits = 0 := by
    apply Nat.eq_of_testBit_eq
    intro i
    rw [Nat.zero_testBit, Bool.eq_false_iff]
    intro hi
    obtain ⟨_, _, _, _, _, p, _, hp, _⟩ := (hbits i).mp hi
    have := h p hp.1
    rw [hp.2] at this
    exact Bool.noConfusion this
  rw [hb, hval]

theorem buildCullBits_all_solid_witness :
    (∀ c, inSection c → solidAt stoneSection c = true) ∧
      buildCullBits stoneSection = some 0 :=
  ⟨fun _ _ => rfl, buildCullBits_all_solid stoneSection (fun _ _ => rfl)⟩

/-- C6. For every snapshot `buildCullBits` returns a value in which, for every face `f`, the
self-bit `f * 6 + f` is set if and only if at least one cell on face `f` is not
`ShouldCullAgainst`; it is clear for a face all of whose cells are `ShouldCullAgainst`. -/
theorem buildCullBits_self_bit (bs : blocksSnapshot) :
    ∃ bits, buildCullBits bs = some bits ∧
      ∀ f ∈ Direction.Values,
        (bits.testBit (f.toNat * 6 + f.toNat) = true ↔ ∃ p, isOpen bs p ∧ onFace f p) := by
  obtain ⟨bits, hb, hbits⟩ := buildCullBits_pairs bs
  refine ⟨bits, hb, fun f hf => ?_⟩
  rw [hbits f hf f hf]
  constructor
  · rintro ⟨p, _, hp, _, hfp, _, _⟩
    exact ⟨p, hp, hfp⟩
  · rintro ⟨p, hp, hfp⟩
    exact ⟨p, p, hp, hp, hfp, hfp, Relation.ReflTransGen.refl⟩

theorem buildCullBits_self_bit_witness :
    ∃ bits, buildCullBits checkerSection = some bits ∧
      ∀ f ∈ Direction.Values,
        (bits.testBit (f.toNat * 6 + f.toNat) = true ↔
          ∃ p, isOpen checkerSection p ∧ onFace f p) :=
  buildCullBits_self_bit checkerSection

end Steven

namespace Steven

/-- A section cut by a layer of `ShouldCullAgainst` cells: `side` tells on which side of the
layer an open cell lies.  Two faces see each other if both have a cell in the same box
of open cells; a face met only on one side does not see a face met only on the other. -/
theorem not_sees_across (bs : blocksSnapshot) (side : Cell → Prop)
    (hstep : ∀ a b, openStep bs a b → side a → side b) {f t : Direction}
    (hf : ∀ p, isOpen bs p → onFace f p → side p)
    (ht : ∀ q, isOpen bs q → onFace t q → ¬ side q) : ¬ sees bs f t := by
  rintro ⟨p, q, hp, hq, hfp, htq, hconn⟩
  exact ht q hq htq (connected_preserves side hstep hconn (hf p hp hfp))

theorem shift_fst_bounds (a : Cell) {d : Direction} (_ : d ∈ Direction.Values) :
    a.1 - 1 ≤ (shift a d).1 ∧ (shift a d).1 ≤ a.1 + 1 ∧
    a.2.1 - 1 ≤ (shift a d).2.1 ∧ (shift a d).2.1 ≤ a.2.1 + 1 := by
  cases d <;> simp only [shift, Direction.Offset] <;> omega

/-- The visibility bits of a section cut by the solid plane `y == 8`. -/
theorem planeY_bits (bs : blocksSnapshot)
    (h : ∀ c, inSection c → solidAt bs c = decide (c.2.1 = 8)) :
    ∃ bits, buildCullBits bs = some bits ∧
      ∀ f ∈ Direction.Values, ∀ t ∈ Direction.Values,
        (bits.testBit (f.toNat * 6 + t.toNat) = true ↔
          ¬ ((f = Direction.Up ∧ t = Direction.Down) ∨
             (f = Direction.Down ∧ t = Direction.Up))) := by
  obtain ⟨bits, hb, hbits⟩ := buildCullBits_pairs bs
  refine ⟨bits, hb, fun f hf t ht => ?_⟩
  rw [hbits f hf t ht]
  have hne : ∀ p, isOpen bs p → p.2.1 ≠ 8 := by
    intro p hp h8
    have := h p hp.1
    rw [hp.2] at this
    simp [h8] at this
  have hup : ∀ p, inBox (0, 9, 0) (15, 15, 15) p → isOpen bs p := fun p hp =>
    have hin := inSection_of_inBox (by decide) (by decide) hp
    ⟨hin, by rw [h p hin]; unfold inBox at hp; simp only at hp; simp; omega⟩
  have hdown : ∀ p, inBox (0, 0, 0) (15, 7, 15) p → isOpen bs p := fun p hp =>
    have hin := inSection_of_inBox (by decide) (by decide) hp
    ⟨hin, by rw [h p hin]; unfold inBox at hp; simp only at hp; simp; omega⟩
  have hcross : ¬ sees bs Direction.Up Direction.Down := by
    refine not_sees_across bs (fun c => 9 ≤ c.2.1) ?_ ?_ ?_
    · rintro a b ⟨_, hbo, d, hd, rfl⟩ ha
      have := shift_fst_bounds a hd
      have := hne _ hbo
      simp only at ha ⊢
      omega
    · intro p _ hp
      simp only [onFace] at hp
      omega
    · intro q _ hq
      simp only [onFace] at hq
      omega
  have hupCell : ∀ g ∈ Direction.Values, g ≠ Direction.Down →
      ∃ p, inBox (0, 9, 0) (15, 15, 15) p ∧ onFace g p := by
    intro g hg hgd
    cases g
    · exact ⟨(0, 15, 0), by decide, by decide⟩
    · exact absurd rfl hgd
    · exact ⟨(0, 15, 0), by decide, by decide⟩
    · exact ⟨(0, 15, 15), by decide, by decide⟩
    · exact ⟨(15, 15, 0), by decide, by decide⟩
    · exact ⟨(0, 15, 0), by decide, by decide⟩
    · simp [Direction.Values] at hg
  have hdownCell : ∀ g ∈ Direction.Values, g ≠ Direction.Up →
      ∃ p, inBox (0, 0, 0) (15, 7, 15) p ∧ onFace g p := by
    intro g hg hgu
    cases g
    · exact absurd rfl hgu
    · exact ⟨(0, 0, 0), by decide, by decide⟩
    · exact ⟨(0, 0, 0), by decide, by decide⟩
    · exact ⟨(0, 0, 15), by decide, by decide⟩
    · exact ⟨(15, 0, 0), by decide, by decide⟩
    · exact ⟨(0, 0, 0), by decide, by decide⟩
    · simp [Direction.Values] at hg
  constructor
  · rintro hsees (⟨rfl, rfl⟩ | ⟨rfl, rfl⟩)
    · exact hcross hsees
    · exact hcross (sees_symm hsees)
  · intro hnot
    by_cases hfd : f = Direction.Down
    · subst hfd
      have htu : t ≠ Direction.Up := fun e => hnot (Or.inr ⟨rfl, e⟩)
      obtain ⟨p, hp, hfp⟩ := hdownCell _ hf (by decide)
      obtain ⟨q, hq, htq⟩ := hdownCell t ht htu
      exact sees_of_box bs _ _ hdown hp hq hfp htq
    · by_cases htd : t = Direction.Down
      · subst htd
        have hfu : f ≠ Direction.Up := fun e => hnot (Or.inl ⟨e, rfl⟩)
        obtain ⟨p, hp, hfp⟩ := hdownCell f hf hfu
        obtain ⟨q, hq, htq⟩ := hdownCell _ ht (by decide)
        exact sees_of_box bs _ _ hdown hp hq hfp htq
      · obtain ⟨p, hp, hfp⟩ := hupCell f hf hfd
        obtain ⟨q, hq, htq⟩ := hupCell t ht htd
        exact sees_of_box bs _ _ hup hp hq hfp htq

/-- The visibility bits of a section cut by the solid wall `x == 8`. -/
theorem wallX_bits (bs : blocksSnapshot)
    (h : ∀ c, inSection c → solidAt bs c = decide (c.1 = 8)) :
    ∃ bits, buildCullBits bs = some bits ∧
      ∀ f ∈ Direction.Values, ∀ t ∈ Direction.Values,
        (bits.testBit (f.toNat * 6 + t.toNat) = true ↔
          ¬ ((f = Direction.West ∧ t = Direction.East) ∨
             (f = Direction.East ∧ t = Direction.West))) := by
  obtain ⟨bits, hb, hbits⟩ := buildCullBits_pairs bs
  refine ⟨bits, hb, fun f hf t ht => ?_⟩
  rw [hbits f hf t ht]
  have hne : ∀ p, isOpen bs p → p.1 ≠ 8 := by
    intro p hp h8
    have := h p hp.1
    rw [hp.2] at this
    simp [h8] at this
  have heast : ∀ p, inBox (9, 0, 0) (15, 15, 15) p → isOpen bs p := fun p hp =>
    have hin := inSection_of_inBox (by decide) (by decide) hp
    ⟨hin, by rw [h p hin]; unfold inBox at hp; simp only at hp; simp; omega⟩
  have hwest : ∀ p, inBox (0, 0, 0) (7, 15, 15) p → isOpen bs p := fun p hp =>
    have hin := inSection_of_inBox (by decide) (by decide) hp
    ⟨hin, by rw [h p hin]; unfold inBox at hp; simp only at hp; simp; omega⟩
  have hcross : ¬ sees bs Direction.East Direction.West := by
    refine not_sees_across bs (fun c => 9 ≤ c.1) ?_ ?_ ?_
    · rintro a b ⟨_, hbo, d, hd, rfl⟩ ha
      have := shift_fst_bounds a hd
      have := hne _ hbo
      simp only at ha ⊢
      omega
    · intro p _ hp
      simp only [onFace] at hp
      omega
    · intro q _ hq
      simp only [onFace] at hq
      omega
  have heastCell : ∀ g ∈ Direction.Values, g ≠ Direction.West →
      ∃ p, inBox (9, 0, 0) (15, 15, 15) p ∧ onFace g p := by
    intro g hg hgw
    cases g
    · exact ⟨(15, 15, 0), by decide, by decide⟩
    · exact ⟨(15, 0, 0), by decide, by decide⟩
    · exact ⟨(15, 0, 0), by decide, by decide⟩
    · exact ⟨(15, 0, 15), by decide, by decide⟩
    · exact ⟨(15, 0, 0), by decide, by decide⟩
    · exact absurd rfl hgw
    · simp [Direction.Values] at hg
  have hwestCell : ∀ g ∈ Direction.Values, g ≠ Direction.East →
      ∃ p, inBox (0, 0, 0) (7, 15, 15) p ∧ onFace g p := by
    intro g hg hge
    cases g
    · exact ⟨(0, 15, 0), by decide, by decide⟩
    · exact ⟨(0, 0, 0), by decide, by decide⟩
    · exact ⟨(0, 0, 0), by decide, by decide⟩
    · exact ⟨(0, 0, 15), by decide, by decide⟩
    · exact absurd rfl hge
    · exact ⟨(0, 0, 0), by decide, by decide⟩
    · simp [Direction.Values] at hg
  constructor
  · rintro hsees (⟨rfl, rfl⟩ | ⟨rfl, rfl⟩)
    · exact hcross (sees_symm hsees)
    · exact hcross hsees
  · intro hnot
    by_cases hfw : f = Direction.West
    · subst hfw
      have hte : t ≠ Direction.East := fun e => hnot (Or.inl ⟨rfl, e⟩)
      obtain ⟨p, hp, hfp⟩ := hwestCell _ hf (by decide)
      obtain ⟨q, hq, htq⟩ := hwestCell t ht hte
      exact sees_of_box bs _ _ hwest hp hq hfp htq
    · by_cases htw : t = Direction.West
      · subst htw
        have hfe : f ≠ Direction.East := fun e => hnot (Or.inr ⟨e, rfl⟩)
        obtain ⟨p, hp, hfp⟩ := hwestCell f hf hfe
        obtain ⟨q, hq, htq⟩ := hwestCell _ ht (by decide)
        exact sees_of_box bs _ _ hwest hp hq hfp htq
      · obtain ⟨p, hp, hfp⟩ := heastCell f hf hfw
        obtain ⟨q, hq, htq⟩ := heastCell t ht htw
        exact sees_of_box bs _ _ heast hp hq hfp htq

end Steven

namespace Steven

theorem solidAt_sectionOf (solid : Int → Int → Int → Bool) (c : Cell) :
    solidAt (sectionOf solid) c = solid c.1 c.2.1 c.2.2 := by
  unfold solidAt sectionOf
  cases h : solid c.1 c.2.1 c.2.2 <;> simp [h, stoneBlock, airBlock]

/-- C5. A section whose cells on a middle plane are all `ShouldCullAgainst` and whose other
cells are all open has exactly the two faces the plane separates disconnected.  With the
plane `y == 8` the bits `Up*6+Down` and `Down*6+Up` are clear, every bit between Up and
Up, North, South, East, West and between Down and Down, North, South, East, West is set,
and no other pair of faces has a clear bit.  With the wall `x == 8` the same holds for
West and East with Up, Down, North, South. -/
theorem buildCullBits_partition (bsY bsX : blocksSnapshot)
    (hY : ∀ c, inSection c → solidAt bsY c = decide (c.2.1 = 8))
    (hX : ∀ c, inSection c → solidAt bsX c = decide (c.1 = 8)) :
    (∃ bits, buildCullBits bsY = some bits ∧
      bits.testBit (Direction.Up.toNat * 6 + Direction.Down.toNat) = false ∧
      bits.testBit (Direction.Down.toNat * 6 + Direction.Up.toNat) = false ∧
      (∀ f ∈ [Direction.Up, Direction.North, Direction.South, Direction.East, Direction.West],
        bits.testBit (Direction.Up.toNat * 6 + f.toNat) = true ∧
        bits.testBit (f.toNat * 6 + Direction.Up.toNat) = true) ∧
      (∀ f ∈ [Direction.Down, Direction.North, Direction.South, Direction.East,
          Direction.West],
        bits.testBit (Direction.Down.toNat * 6 + f.toNat) = true ∧
        bits.testBit (f.toNat * 6 + Direction.Down.toNat) = true) ∧
      (∀ f ∈ Direction.Values, ∀ t ∈ Direction.Values,
        bits.testBit (f.toNat * 6 + t.toNat) = false →
          (f = Direction.Up ∧ t = Direction.Down) ∨
          (f = Direction.Down ∧ t = Direction.Up))) ∧
    (∃ bits, buildCullBits bsX = some bits ∧
      bits.testBit (Direction.West.toNat * 6 + Direction.East.toNat) = false ∧
      bits.testBit (Direction.East.toNat * 6 + Direction.West.toNat) = false ∧
      (∀ f ∈ [Direction.West, Direction.Up, Direction.Down, Direction.North,
          Direction.South],
        bits.testBit (Direction.West.toNat * 6 + f.toNat) = true ∧
        bits.testBit (f.toNat * 6 + Direction.West.toNat) = true) ∧
      (∀ f ∈ [Direction.East, Direction.Up, Direction.Down, Direction.North,
          Direction.South],
        bits.testBit (Direction.East.toNat * 6 + f.toNat) = true ∧
        bits.testBit (f.toNat * 6 + Direction.East.toNat) = true) ∧
      (∀ f ∈ Direction.Values, ∀ t ∈ Direction.Values,
        bits.testBit (f.toNat * 6 + t.toNat) = false →
          (f = Direction.West ∧ t = Direction.East) ∨
          (f = Direction.East ∧ t = Direction.West))) := by
  constructor
  · obtain ⟨bits, hb, hbits⟩ := planeY_bits bsY hY
    refine ⟨bits, hb, ?_, ?_, ?_, ?_, ?_⟩
    · rw [Bool.eq_false_iff]
      exact fun h => (hbits _ (by decide) _ (by decide)).mp h (Or.inl ⟨rfl, rfl⟩)
    · rw [Bool.eq_false_iff]
      exact fun h => (hbits _ (by decide) _ (by decide)).mp h (Or.inr ⟨rfl, rfl⟩)
    · intro f hf
      have hfv : f ∈ Direction.Values := by
        simp only [List.mem_cons, List.mem_singleton, List.not_mem_nil, or_false] at hf
        rcases hf with rfl | rfl | rfl | rfl | rfl <;> decide
      have hfd : f ≠ Direction.Down := by
        simp only [List.mem_cons, List.mem_singleton, List.not_mem_nil, or_false] at hf
        rcases hf with rfl | rfl | rfl | rfl | rfl <;> decide
      exact ⟨(hbits _ (by decide) f hfv).mpr (by rintro (⟨_, h⟩ | ⟨h, _⟩) <;> simp_all),
        (hbits f hfv _ (by decide)).mpr (by rintro (⟨h, _⟩ | ⟨_, h⟩) <;> simp_all)⟩
    · intro f hf
      have hfv : f ∈ Direction.Values := by
        simp only [List.mem_cons, List.mem_singleton, List.not_mem_nil, or_false] at hf
        rcases hf with rfl | rfl | rfl | rfl | rfl <;> decide
      have hfu : f ≠ Direction.Up := by
        simp only [List.mem_cons, List.mem_singleton, List.not_mem_nil, or_false] at hf
        rcases hf with rfl | rfl | rfl | rfl | rfl <;> decide
      exact ⟨(hbits _ (by decide) f hfv).mpr (by rintro (⟨h, _⟩ | ⟨_, h⟩) <;> simp_all),
        (hbits f hfv _ (by decide)).mpr (by rintro (⟨_, h⟩ | ⟨h, _⟩) <;> simp_all)⟩
    · intro f hf t ht hclear
      by_contra hnot
      rw [(hbits f hf t ht).mpr hnot] at hclear
      exact Bool.noConfusion hclear
  · obtain ⟨bits, hb, hbits⟩ := wallX_bits bsX hX
    refine ⟨bits, hb, ?_, ?_, ?_, ?_, ?_⟩
    · rw [Bool.eq_false_iff]
      exact fun h => (hbits _ (by decide) _ (by decide)).mp h (Or.inl ⟨rfl, rfl⟩)
    · rw [Bool.eq_false_iff]
      exact fun h => (hbits _ (by decide) _ (by decide)).mp h (Or.inr ⟨rfl, rfl⟩)
    · intro f hf
      have hfv : f ∈ Direction.Values := by
        simp only [List.mem_cons, List.mem_singleton, List.not_mem_nil, or_false] at hf
        rcases hf with rfl | rfl | rfl | rfl | rfl <;> decide
      have hfe : f ≠ Direction.East := by
        simp only [List.mem_cons, List.mem_singleton, List.not_mem_nil, or_false] at hf
        rcases hf with rfl | rfl | rfl | rfl | rfl <;> decide
      exact ⟨(hbits _ (by decide) f hfv).mpr (by rintro (⟨_, h⟩ | ⟨h, _⟩) <;> simp_all),
        (hbits f hfv _ (by decide)).mpr (by rintro (⟨h, _⟩ | ⟨_, h⟩) <;> simp_all)⟩
    · intro f hf
      have hfv : f ∈ Direction.Values := by
        simp only [List.mem_cons, List.mem_singleton, List.not_mem_nil, or_false] at hf
        rcases hf with rfl | rfl | rfl | rfl | rfl <;> decide
      have hfw : f ≠ Direction.West := by
        simp only [List.mem_cons, List.mem_singleton, List.not_mem_nil, or_false] at hf
        rcases hf with rfl | rfl | rfl | rfl | rfl <;> decide
      exact ⟨(hbits _ (by decide) f hfv).mpr (by rintro (⟨h, _⟩ | ⟨_, h⟩) <;> simp_all),
        (hbits f hfv _ (by decide)).mpr (by rintro (⟨_, h⟩ | ⟨h, _⟩) <;> simp_all)⟩
    · intro f hf t ht hclear
      by_contra hnot
      rw [(hbits f hf t ht).mpr hnot] at hclear
      exact Bool.noConfusion hclear

theorem buildCullBits_partition_witness :
    (∀ c, inSection c → solidAt planeSection c = decide (c.2.1 = 8)) ∧
    (∀ c, inSection c → solidAt wallSection c = decide (c.1 = 8)) ∧
    (∃ bits, buildCullBits planeSection = some bits ∧
      bits.testBit (Direction.Up.toNat * 6 + Direction.Down.toNat) = false ∧
      bits.testBit (Direction.Down.toNat * 6 + Direction.Up.toNat) = false) ∧
    (∃ bits, buildCullBits wallSection = some bits ∧
      bits.testBit (Direction.West.toNat * 6 + Direction.East.toNat) = false ∧
      bits.testBit (Direction.East.toNat * 6 + Direction.West.toNat) = false) := by
  have hY : ∀ c, inSection c → solidAt planeSection c = decide (c.2.1 = 8) :=
    fun c _ => solidAt_sectionOf _ c
  have hX : ∀ c, inSection c → solidAt wallSection c = decide (c.1 = 8) :=
    fun c _ => solidAt_sectionOf _ c
  obtain ⟨⟨b1, h1, h2, h3, _⟩, ⟨b2, g1, g2, g3, _⟩⟩ :=
    buildCullBits_partition planeSection wallSection hY hX
  exact ⟨hY, hX, ⟨b1, h1, h2, h3⟩, ⟨b2, g1, g2, g3⟩⟩

end Steven

namespace Steven

/-! ## The alternative flood fill -/

theorem floodFillAlt_succ_open (bs : blocksSnapshot) (fuel : Nat) (V : BitSet) (c : Cell)
    (hsize : V.size = 4096) (hc : inSection c) (hm : ¬ marked V c) :
    floodFillAlt bs (fuel + 1) V c.1 c.2.1 c.2.2 =
      if solidAt bs c then some (0, V)
      else
        Direction.Values.foldlM (fillNeighbour (floodFillAlt bs fuel) c.1 c.2.1 c.2.2)
          (touchedFaces c.1 c.2.1 c.2.2,
            ⟨V.size, V.bits ||| (1 <<< cellIndex c.1 c.2.1 c.2.2)⟩) := by
  have hlt : cellIndex c.1 c.2.1 c.2.2 < V.size := by rw [hsize]; exact cellIndex_lt hc
  have hrange : ¬ (c.1 < 0 ∨ c.1 > 15 ∨ c.2.1 < 0 ∨ c.2.1 > 15 ∨ c.2.2 < 0 ∨ c.2.2 > 15) := by
    obtain ⟨h1, h2, h3, h4, h5, h6⟩ := hc
    omega
  have hbit : V.bits.testBit (cellIndex c.1 c.2.1 c.2.2) = false := by
    simpa [marked] using hm
  rw [floodFillAlt, if_neg hrange, get_of_lt hlt, hbit]
  simp only [set_true_of_lt hlt, solidAt]

theorem floodFillAlt_succ_marked (bs : blocksSnapshot) (fuel : Nat) (V : BitSet) (c : Cell)
    (hsize : V.size = 4096) (hc : inSection c) (hm : marked V c) :
    floodFillAlt bs (fuel + 1) V c.1 c.2.1 c.2.2 = some (0, V) := by
  have hlt : cellIndex c.1 c.2.1 c.2.2 < V.size := by rw [hsize]; exact cellIndex_lt hc
  have hrange : ¬ (c.1 < 0 ∨ c.1 > 15 ∨ c.2.1 < 0 ∨ c.2.1 > 15 ∨ c.2.2 < 0 ∨ c.2.2 > 15) := by
    obtain ⟨h1, h2, h3, h4, h5, h6⟩ := hc
    omega
  rw [floodFillAlt, if_neg hrange, get_of_lt hlt, show V.bits.testBit _ = true from hm]

theorem floodFillAlt_succ_outside (bs : blocksSnapshot) (fuel : Nat) (V : BitSet) (c : Cell)
    (hc : ¬ inSection c) :
    floodFillAlt bs (fuel + 1) V c.1 c.2.1 c.2.2 = some (0, V) := by
  have hrange : c.1 < 0 ∨ c.1 > 15 ∨ c.2.1 < 0 ∨ c.2.1 > 15 ∨ c.2.2 < 0 ∨ c.2.2 > 15 := by
    unfold inSection at hc
    omega
  rw [floodFillAlt, if_pos hrange]

/-- The alternative flood fill meets the same contract as `floodFill`. -/
theorem floodFillAlt_spec (bs : blocksSnapshot) :
    ∀ (fuel : Nat) (V : BitSet) (c : Cell), V.size = 4096 → unvisited V < fuel →
      ∃ t W, floodFillAlt bs fuel V c.1 c.2.1 c.2.2 = some (t, W) ∧ FillPost bs V c t W := by
  intro fuel
  induction fuel with
  | zero => intro V c _ h; exact absurd h (Nat.not_lt_zero _)
  | succ fuel ih =>
    intro V c hsize hfuel
    by_cases hc : inSection c
    swap
    · exact ⟨0, V, floodFillAlt_succ_outside bs fuel V c hc,
        fillPost_unchanged bs V c hsize (fun h => absurd h hc)⟩
    by_cases hm : marked V c
    · exact ⟨0, V, floodFillAlt_succ_marked bs fuel V c hsize hc hm,
        fillPost_unchanged bs V c hsize (fun _ => Or.inl hm)⟩
    rw [floodFillAlt_succ_open bs fuel V c hsize hc hm]
    by_cases hsolid : solidAt bs c = true
    · rw [if_pos hsolid]
      exact ⟨0, V, rfl, fillPost_unchanged bs V c hsize (fun _ => Or.inr hsolid)⟩
    · rw [if_neg hsolid]
      exact fillOpen_spec bs (floodFillAlt bs fuel) fuel ih V c hsize hfuel
        ⟨hc, by simpa using hsolid⟩ hm

theorem floodFillAlt_fillOk (bs : blocksSnapshot) :
    FillOk bs (floodFillAlt bs (16 * 16 * 16 + 1)) :=
  fun V c hsize => floodFillAlt_spec bs _ V c hsize (Nat.lt_succ_of_le (unvisited_le V))

/-- The two fills differ in what they mark: started on a `ShouldCullAgainst` cell, the
reference fill marks it and the alternative leaves the visited set unchanged. -/
theorem floodFill_alt_differ :
    floodFill stoneSection 1 (NewSet 4096) 0 0 0 = some (0, ⟨4096, 1⟩) ∧
      floodFillAlt stoneSection 1 (NewSet 4096) 0 0 0 = some (0, ⟨4096, 0⟩) :=
  ⟨rfl, rfl⟩

/-- C7. For every snapshot, `buildCullBits` computed with the reference `floodFill` (mark
`visited[i]` on entry, then test `ShouldCullAgainst` and return 0 if solid) and
`buildCullBits` computed with the alternative `floodFill` (test `ShouldCullAgainst` first
and return 0 for a solid cell without marking it visited) both return, and return the same
value. -/
theorem buildCullBits_eq_alt (bs : blocksSnapshot) :
    ∃ bits, buildCullBits bs = some bits ∧ buildCullBitsAlt bs = some bits := by
  obtain ⟨bits, hb, hbits⟩ := buildCullBits_spec bs
  obtain ⟨bitsAlt, hbAlt, hbitsAlt⟩ := cullLoop_spec bs _ (floodFillAlt_fillOk bs)
  have heq : bitsAlt = bits := by
    apply Nat.eq_of_testBit_eq
    intro i
    rw [Bool.eq_iff_iff, hbits, hbitsAlt]
  refine ⟨bits, hb, ?_⟩
  rw [← heq]
  exact hbAlt

end Steven

namespace Steven

/-! ## The render traversal -/

theorem isVisible_iff {n : Nat} (c : ChunkBuffer n) (f t : Direction) :
    c.IsVisible f t = true ↔ c.cullBits.testBit (f.toNat * 6 + t.toNat) = true := by
  unfold ChunkBuffer.IsVisible
  rw [bne_iff_ne]
  exact and_shift_ne_zero _ _

theorem expandDir_eq {n : Nat} (env : RenderEnv n) (req : renderRequest n)
    (st : RenderState n) (d : Direction) :
    ∃ enq, expandDir env req st d = { st with rQueue := st.rQueue ++ enq } ∧
      enq.length ≤ 1 ∧
      ∀ r, r ∈ enq ↔ ∃ c, (env.chunks req.chunk).neighborChunks d = some c ∧
        expands env req st.renderedOn d c ∧ r = neighbourRequest req d c := by
  unfold expandDir
  cases hnb : (env.chunks req.chunk).neighborChunks d with
  | none =>
    refine ⟨[], by simp, by simp, ?_⟩
    intro r
    simp
  | some c =>
    simp only
    by_cases hcond : expands env req st.renderedOn d c
    · have hcond1 : d ≠ req.fromDir ∧ st.renderedOn c ≠ env.frameID ∧
          (req.fromDir = Direction.Invalid ∨
            ((env.chunks req.chunk).IsVisible req.fromDir d = true ∧
              env.validDirs d = true)) := by
        simpa only [isVisible_iff] using hcond
      rw [if_pos hcond1]
      refine ⟨[neighbourRequest req d c], rfl, by simp, ?_⟩
      intro r
      simp only [List.mem_singleton, Option.some.injEq]
      constructor
      · intro h; exact ⟨c, rfl, hcond, h⟩
      · rintro ⟨c1, rfl, _, h⟩; exact h
    · have hcond1 : ¬ (d ≠ req.fromDir ∧ st.renderedOn c ≠ env.frameID ∧
          (req.fromDir = Direction.Invalid ∨
            ((env.chunks req.chunk).IsVisible req.fromDir d = true ∧
              env.validDirs d = true))) := by
        simpa only [isVisible_iff] using hcond
      rw [if_neg hcond1]
      refine ⟨[], by simp, by simp, ?_⟩
      intro r
      simp only [List.not_mem_nil, Option.some.injEq, false_iff]
      rintro ⟨c1, rfl, h, _⟩
      exact hcond h

/-- The loop over the directions only appends to the queue: the requests of the directions
that pass the condition, and nothing else. -/
theorem expand_foldl {n : Nat} (env : RenderEnv n) (req : renderRequest n)
    (l : List Direction) : ∀ st : RenderState n,
    ∃ enq, l.foldl (expandDir env req) st = { st with rQueue := st.rQueue ++ enq } ∧
      enq.length ≤ l.length ∧
      ∀ r, r ∈ enq ↔ ∃ d ∈ l, ∃ c, (env.chunks req.chunk).neighborChunks d = some c ∧
        expands env req st.renderedOn d c ∧ r = neighbourRequest req d c := by
  induction l with
  | nil =>
    intro st
    exact ⟨[], by simp, by simp, by simp⟩
  | cons d l ih =>
    intro st
    obtain ⟨e1, h1, hlen1, hmem1⟩ := expandDir_eq env req st d
    obtain ⟨e2, h2, hlen2, hmem2⟩ := ih (expandDir env req st d)
    refine ⟨e1 ++ e2, ?_, ?_, ?_⟩
    · rw [List.foldl_cons, h2, h1]
      simp
    · simp only [List.length_append, List.length_cons]
      omega
    · intro r
      rw [List.mem_append, hmem1, hmem2, h1]
      simp only [List.mem_cons, exists_eq_or_imp]

end Steven

namespace Steven

/-- A request that passes the dedupe and frustum gates: the chunk is marked and recorded,
and the queue grows by the requests of the directions that pass the condition. -/
theorem renderStep_pass {n : Nat} (env : RenderEnv n) (req : renderRequest n)
    (st : RenderState n) (hnew : st.renderedOn req.chunk ≠ env.frameID)
    (hin : env.frustumInside req.pos = true) :
    ∃ enq, (renderStep env req st).rQueue = st.rQueue ++ enq ∧
      (renderStep env req st).renderedOn =
        Function.update st.renderedOn req.chunk env.frameID ∧
      (renderStep env req st).renderOrder = st.renderOrder ++ [req.chunk] ∧
      enq.length ≤ 6 ∧
      ∀ r, r ∈ enq ↔ ∃ d ∈ Direction.Values, ∃ c,
        (env.chunks req.chunk).neighborChunks d = some c ∧
        expands env req (Function.update st.renderedOn req.chunk env.frameID) d c ∧
        r = neighbourRequest req d c := by
  unfold renderStep
  rw [if_neg hnew, if_neg (by simp [hin])]
  simp only
  by_cases hdraw : (env.chunks req.chunk).count ≠ 0 ∧ (env.chunks req.chunk).bufferValid = true
  · rw [if_pos hdraw]
    obtain ⟨enq, h, hlen, hmem⟩ := expand_foldl env req Direction.Values
      { renderedOn := Function.update st.renderedOn req.chunk env.frameID,
        renderOrder := st.renderOrder ++ [req.chunk], rQueue := st.rQueue,
        drawn := st.drawn ++ [req.chunk] }
    exact ⟨enq, by rw [h], by rw [h], by rw [h], hlen, hmem⟩
  · rw [if_neg hdraw]
    obtain ⟨enq, h, hlen, hmem⟩ := expand_foldl env req Direction.Values
      { renderedOn := Function.update st.renderedOn req.chunk env.frameID,
        renderOrder := st.renderOrder ++ [req.chunk], rQueue := st.rQueue,
        drawn := st.drawn }
    exact ⟨enq, by rw [h], by rw [h], by rw [h], hlen, hmem⟩

theorem opposite_inj {a b : Direction} (h : a.Opposite = b.Opposite) : a = b := by
  cases a <;> cases b <;> simp [Direction.Opposite] at h ⊢

/-- One direction of the expansion appends exactly `enqueueOpt` to the queue and changes
nothing else. -/
theorem expandDir_enqueueOpt {n : Nat} (env : RenderEnv n) (req : renderRequest n)
    (st : RenderState n) (d : Direction) :
    expandDir env req st d =
      { st with rQueue := st.rQueue ++ (enqueueOpt env req st.renderedOn d).toList } := by
  unfold expandDir enqueueOpt
  cases hnb : (env.chunks req.chunk).neighborChunks d with
  | none => simp
  | some c =>
    simp only [Option.some_bind, isVisible_iff]
    split_ifs <;> simp

/-- The loop over the directions appends the requests of `enqueueOpt`, in the order of the
directions, and changes nothing else. -/
theorem expand_foldl_enqueueOpt {n : Nat} (env : RenderEnv n) (req : renderRequest n)
    (l : List Direction) : ∀ st : RenderState n,
    l.foldl (expandDir env req) st =
      { st with rQueue := st.rQueue ++ l.filterMap (enqueueOpt env req st.renderedOn) } := by
  induction l with
  | nil => intro st; simp
  | cons d l ih =>
    intro st
    rw [List.foldl_cons, ih, expandDir_enqueueOpt, List.filterMap_cons]
    cases enqueueOpt env req st.renderedOn d <;> simp

/-- The whole state after an iteration for a request that passes both gates. -/
theorem renderStep_pass_eq {n : Nat} (env : RenderEnv n) (req : renderRequest n)
    (st : RenderState n) (hnew : st.renderedOn req.chunk ≠ env.frameID)
    (hin : env.frustumInside req.pos = true) :
    renderStep env req st =
      { renderedOn := Function.update st.renderedOn req.chunk env.frameID
        renderOrder := st.renderOrder ++ [req.chunk]
        rQueue := st.rQueue ++ Direction.Values.filterMap
          (enqueueOpt env req (Function.update st.renderedOn req.chunk env.frameID))
        drawn :=
          if (env.chunks req.chunk).count ≠ 0 ∧ (env.chunks req.chunk).bufferValid = true
          then st.drawn ++ [req.chunk] else st.drawn } := by
  unfold renderStep
  rw [if_neg hnew, if_neg (by simp [hin])]
  simp only
  rw [expand_foldl_enqueueOpt]
  split_ifs <;> rfl

theorem neighbourRequest_inj {n : Nat} (req : renderRequest n) {d e : Direction}
    {c b : Fin n} (h : neighbourRequest req d c = neighbourRequest req e b) :
    d = e ∧ c = b :=
  ⟨opposite_inj (congrArg renderRequest.fromDir h), congrArg renderRequest.chunk h⟩

theorem enqueueOpt_fromDir {n : Nat} (env : RenderEnv n) (req : renderRequest n)
    (marks : Fin n → Nat) (d : Direction) (r : renderRequest n)
    (h : r ∈ enqueueOpt env req marks d) : r.fromDir = d.Opposite := by
  unfold enqueueOpt at h
  cases hnb : (env.chunks req.chunk).neighborChunks d with
  | none => rw [hnb] at h; simp at h
  | some c =>
    rw [hnb, Option.some_bind] at h
    split_ifs at h
    · rw [← Option.some.inj (Option.mem_def.mp h)]
    · simp at h

/-- C8. When a request `(chunk, pos, from)` passes the dedupe and frustum gates of
`renderBuffer`, the iteration marks the chunk with the frame id, appends it to
`renderOrder`, and appends to the queue, in the order of the six directions and once each,
exactly the following requests: for a direction `d` whose neighbour `c` exists, the request
`(c, pos + offset(d), opposite(d))` (Go `int` sums) if and only if `d != from`, the
neighbour's `renderedOn`, read after the chunk itself was marked, differs from the current
frame id, and either `from` is `Invalid` or both the chunk's visibility bit for `(from, d)`
is set and `validDirs[d]` is true.  Nothing else is enqueued, nothing for a direction without
a neighbour, and the requests already queued stay in front. -/
theorem renderStep_enqueues {n : Nat} (env : RenderEnv n) (req : renderRequest n)
    (st : RenderState n) (hnew : st.renderedOn req.chunk ≠ env.frameID)
    (hin : env.frustumInside req.pos = true) :
    ∃ enq,
      renderStep env req st =
        { renderedOn := Function.update st.renderedOn req.chunk env.frameID
          renderOrder := st.renderOrder ++ [req.chunk]
          rQueue := st.rQueue ++ enq
          drawn :=
            if (env.chunks req.chunk).count ≠ 0 ∧ (env.chunks req.chunk).bufferValid = true
            then st.drawn ++ [req.chunk] else st.drawn } ∧
      enq = Direction.Values.filterMap (fun d =>
        ((env.chunks req.chunk).neighborChunks d).bind (fun c =>
          if d ≠ req.fromDir ∧
              Function.update st.renderedOn req.chunk env.frameID c ≠ env.frameID ∧
              (req.fromDir = Direction.Invalid ∨
                ((env.chunks req.chunk).cullBits.testBit
                    (req.fromDir.toNat * 6 + d.toNat) = true ∧
                  env.validDirs d = true)) then
            some ⟨c, ⟨wrap64 (req.pos.X + d.Offset.1), wrap64 (req.pos.Y + d.Offset.2.1),
              wrap64 (req.pos.Z + d.Offset.2.2)⟩, d.Opposite⟩
          else none)) ∧
      (∀ d ∈ Direction.Values, ∀ c, (env.chunks req.chunk).neighborChunks d = some c →
        ((⟨c, ⟨wrap64 (req.pos.X + d.Offset.1), wrap64 (req.pos.Y + d.Offset.2.1),
            wrap64 (req.pos.Z + d.Offset.2.2)⟩, d.Opposite⟩ : renderRequest n) ∈ enq ↔
          d ≠ req.fromDir ∧ c ≠ req.chunk ∧ st.renderedOn c ≠ env.frameID ∧
          (req.fromDir = Direction.Invalid ∨
            ((env.chunks req.chunk).cullBits.testBit (req.fromDir.toNat * 6 + d.toNat) = true ∧
              env.validDirs d = true)))) ∧
      (∀ r ∈ enq, ∃ d ∈ Direction.Values, ∃ c,
        (env.chunks req.chunk).neighborChunks d = some c ∧
          r = ⟨c, ⟨wrap64 (req.pos.X + d.Offset.1), wrap64 (req.pos.Y + d.Offset.2.1),
            wrap64 (req.pos.Z + d.Offset.2.2)⟩, d.Opposite⟩) ∧
      enq.Nodup := by
  have hmem : ∀ r, r ∈ Direction.Values.filterMap
      (enqueueOpt env req (Function.update st.renderedOn req.chunk env.frameID)) ↔
      ∃ d ∈ Direction.Values, ∃ c, (env.chunks req.chunk).neighborChunks d = some c ∧
        (d ≠ req.fromDir ∧
          Function.update st.renderedOn req.chunk env.frameID c ≠ env.frameID ∧
          (req.fromDir = Direction.Invalid ∨
            ((env.chunks req.chunk).cullBits.testBit (req.fromDir.toNat * 6 + d.toNat) = true ∧
              env.validDirs d = true))) ∧ r = neighbourRequest req d c := by
    intro r
    rw [List.mem_filterMap]
    constructor
    · rintro ⟨d, hd, hopt⟩
      unfold enqueueOpt at hopt
      cases hnb : (env.chunks req.chunk).neighborChunks d with
      | none => rw [hnb] at hopt; exact Option.noConfusion hopt
      | some c =>
        rw [hnb, Option.some_bind] at hopt
        split_ifs at hopt with hcond
        exact ⟨d, hd, c, hnb, hcond, (Option.some.inj hopt).symm⟩
    · rintro ⟨d, hd, c, hnb, hcond, rfl⟩
      refine ⟨d, hd, ?_⟩
      unfold enqueueOpt
      rw [hnb, Option.some_bind, if_pos hcond]
      rfl
  have hupd : ∀ c, Function.update st.renderedOn req.chunk env.frameID c ≠ env.frameID ↔
      c ≠ req.chunk ∧ st.renderedOn c ≠ env.frameID := by
    intro c
    by_cases hc : c = req.chunk
    · subst hc; simp
    · simp [Function.update_noteq hc, hc]
  refine ⟨_, renderStep_pass_eq env req st hnew hin, rfl, ?_, ?_, ?_⟩
  · intro d _ c hnb
    rw [show (⟨c, ⟨wrap64 (req.pos.X + d.Offset.1), wrap64 (req.pos.Y + d.Offset.2.1),
      wrap64 (req.pos.Z + d.Offset.2.2)⟩, d.Opposite⟩ : renderRequest n) =
      neighbourRequest req d c from rfl, hmem]
    constructor
    · rintro ⟨e, _, b, hb, hcond, heq⟩
      obtain ⟨rfl, rfl⟩ := neighbourRequest_inj req heq
      exact ⟨hcond.1, ((hupd c).mp hcond.2.1).1, ((hupd c).mp hcond.2.1).2, hcond.2.2⟩
    · rintro ⟨h1, h2, h3, h4⟩
      exact ⟨d, ‹_›, c, hnb, ⟨h1, (hupd c).mpr ⟨h2, h3⟩, h4⟩, rfl⟩
  · intro r hr
    obtain ⟨d, hd, c, hnb, _, heq⟩ := (hmem r).mp hr
    exact ⟨d, hd, c, hnb, heq⟩
  · refine List.Nodup.filterMap ?_ (by decide)
    intro d e r hd he
    exact opposite_inj ((enqueueOpt_fromDir env req _ d r hd).symm.trans
      (enqueueOpt_fromDir env req _ e r he))

end Steven

namespace Steven

theorem renderStep_enqueues_witness :
    freshState.renderedOn gateRequest.chunk ≠ gateEnv.frameID ∧
      gateEnv.frustumInside gateRequest.pos = true ∧
      ∃ enq,
        renderStep gateEnv gateRequest freshState =
          { renderedOn := Function.update freshState.renderedOn gateRequest.chunk
              gateEnv.frameID
            renderOrder := freshState.renderOrder ++ [gateRequest.chunk]
            rQueue := freshState.rQueue ++ enq
            drawn :=
              if (gateEnv.chunks gateRequest.chunk).count ≠ 0 ∧
                  (gateEnv.chunks gateRequest.chunk).bufferValid = true
              then freshState.drawn ++ [gateRequest.chunk] else freshState.drawn } ∧
        enq = [⟨1, ⟨0, -2 ^ 63, 0⟩, Direction.Down⟩] ∧
        (∀ d ∈ Direction.Values, ∀ c,
          (gateEnv.chunks gateRequest.chunk).neighborChunks d = some c →
          ((⟨c, ⟨wrap64 (gateRequest.pos.X + d.Offset.1),
              wrap64 (gateRequest.pos.Y + d.Offset.2.1),
              wrap64 (gateRequest.pos.Z + d.Offset.2.2)⟩, d.Opposite⟩ : renderRequest 3) ∈ enq ↔
            d ≠ gateRequest.fromDir ∧ c ≠ gateRequest.chunk ∧
            freshState.renderedOn c ≠ gateEnv.frameID ∧
            (gateRequest.fromDir = Direction.Invalid ∨
              ((gateEnv.chunks gateRequest.chunk).cullBits.testBit
                  (gateRequest.fromDir.toNat * 6 + d.toNat) = true ∧
                gateEnv.validDirs d = true)))) := by
  obtain ⟨enq, h1, h2, h3, _, _⟩ :=
    renderStep_enqueues gateEnv gateRequest freshState (by decide) (by decide)
  exact ⟨by decide, by decide, enq, h1, h2.trans (by decide), h3⟩

/-! ## Per-frame dedupe -/

theorem renderStep_skip {n : Nat} (env : RenderEnv n) (req : renderRequest n)
    (st : RenderState n) (h : st.renderedOn req.chunk = env.frameID) :
    renderStep env req st = st := by
  unfold renderStep
  rw [if_pos h]

theorem renderStep_outside {n : Nat} (env : RenderEnv n) (req : renderRequest n)
    (st : RenderState n) (hnew : st.renderedOn req.chunk ≠ env.frameID)
    (hout : env.frustumInside req.pos = false) :
    renderStep env req st =
      { st with renderedOn := Function.update st.renderedOn req.chunk env.frameID } := by
  unfold renderStep
  rw [if_neg hnew, if_pos hout]

theorem pending_mark {n : Nat} (env : RenderEnv n) (st st1 : RenderState n) (c : Fin n)
    (hnew : st.renderedOn c ≠ env.frameID)
    (h : st1.renderedOn = Function.update st.renderedOn c env.frameID) :
    pending env st1 + 1 = pending env st := by
  unfold pending
  have hset : Finset.univ.filter (fun e => st1.renderedOn e ≠ env.frameID) =
      (Finset.univ.filter (fun e => st.renderedOn e ≠ env.frameID)).erase c := by
    ext e
    rw [h]
    by_cases hec : e = c
    · subst hec; simp
    · simp [Function.update_noteq hec, hec]
  rw [hset, Finset.card_erase_of_mem (by simp [hnew])]
  have : 0 < (Finset.univ.filter (fun e => st.renderedOn e ≠ env.frameID)).card :=
    Finset.card_pos.mpr ⟨c, by simp [hnew]⟩
  omega

theorem pending_le {n : Nat} (env : RenderEnv n) (st : RenderState n) : pending env st ≤ n := by
  unfold pending
  calc _ ≤ (Finset.univ : Finset (Fin n)).card := Finset.card_filter_le _ _
    _ = n := Finset.card_fin n

theorem orderInv_mark {n : Nat} (env : RenderEnv n) (st : RenderState n) (c : Fin n)
    (h : OrderInv env st) :
    OrderInv env { st with renderedOn := Function.update st.renderedOn c env.frameID } := by
  refine ⟨h.1, fun e he => ?_⟩
  by_cases hec : e = c
  · subst hec; simp
  · simp only [Function.update_noteq hec]
    exact h.2 e he

/-- One iteration keeps the invariant of the render list and does not increase the measure
`queue length + 6 * pending`; an iteration that marks a chunk decreases it. -/
theorem renderStep_spec {n : Nat} (env : RenderEnv n) (req : renderRequest n)
    (st : RenderState n) (hinv : OrderInv env st) :
    OrderInv env (renderStep env req st) ∧
      (renderStep env req st).rQueue.length + 6 * pending env (renderStep env req st) ≤
        st.rQueue.length + 6 * pending env st := by
  by_cases hnew : st.renderedOn req.chunk = env.frameID
  · rw [renderStep_skip env req st hnew]
    exact ⟨hinv, Nat.le_refl _⟩
  by_cases hin : env.frustumInside req.pos = true
  · obtain ⟨enq, hq, hmarks, horder, hlen, _⟩ := renderStep_pass env req st hnew hin
    have hp := pending_mark env st (renderStep env req st) req.chunk hnew hmarks
    refine ⟨⟨?_, ?_⟩, ?_⟩
    · rw [horder]
      refine List.Nodup.append hinv.1 (List.nodup_singleton _) ?_
      intro e he1 he2
      rw [List.mem_singleton] at he2
      subst he2
      exact hnew (hinv.2 _ he1)
    · intro e he
      rw [horder, List.mem_append, List.mem_singleton] at he
      rw [hmarks]
      by_cases hec : e = req.chunk
      · subst hec; simp
      · rw [Function.update_noteq hec]
        rcases he with he | he
        · exact hinv.2 e he
        · exact absurd he hec
    · rw [hq, List.length_append]
      omega
  · have hout : env.frustumInside req.pos = false := by simpa using hin
    rw [renderStep_outside env req st hnew hout]
    have hp := pending_mark env st
      { st with renderedOn := Function.update st.renderedOn req.chunk env.frameID }
      req.chunk hnew rfl
    refine ⟨orderInv_mark env st req.chunk hinv, ?_⟩
    simp only
    omega

/-- The loop of `renderBuffer` returns once it has more iterations than
`queue length + 6 * pending`, and keeps the invariant of the render list. -/
theorem renderLoop_spec {n : Nat} (env : RenderEnv n) :
    ∀ (fuel : Nat) (st : RenderState n),
      st.rQueue.length + 6 * pending env st < fuel → OrderInv env st →
      ∃ st1, renderLoop env fuel st = some st1 ∧ OrderInv env st1 ∧ st1.rQueue = [] := by
  intro fuel
  induction fuel with
  | zero => intro st h; exact absurd h (Nat.not_lt_zero _)
  | succ fuel ih =>
    intro st hfuel hinv
    unfold renderLoop
    cases hq : st.rQueue with
    | nil => exact ⟨st, rfl, hinv, hq⟩
    | cons req rest =>
      simp only
      have hinv1 : OrderInv env { st with rQueue := rest } := hinv
      obtain ⟨hinv2, hle⟩ := renderStep_spec env req { st with rQueue := rest } hinv1
      have hp : pending env { st with rQueue := rest } = pending env st := rfl
      rw [hq, List.length_cons] at hfuel
      simp only [hp] at hle
      exact ih _ (by omega) hinv2

/-- C9. For every chunk graph and frame id, one `renderBuffer` call started with an empty
render list returns; afterwards no chunk occurs more than once in `renderOrder` and every
chunk in `renderOrder` has `renderedOn` equal to the current frame id.  An iteration for a
request whose chunk already has `renderedOn` equal to the frame id changes nothing: the
chunk is neither appended to `renderOrder` nor expanded into the queue. -/
theorem renderBuffer_dedupe {n : Nat} (env : RenderEnv n) (st : RenderState n)
    (ch : Option (Fin n)) (po : position) (fr : Direction) (hempty : st.renderOrder = []) :
    (∃ st1, renderBuffer env st ch po fr = some st1 ∧ st1.renderOrder.Nodup ∧
      ∀ c ∈ st1.renderOrder, st1.renderedOn c = env.frameID) ∧
    (∀ (s : RenderState n) (req : renderRequest n),
      s.renderedOn req.chunk = env.frameID →
        (renderStep env req s).renderOrder = s.renderOrder ∧
        (renderStep env req s).rQueue = s.rQueue ∧
        (renderStep env req s).renderedOn = s.renderedOn) := by
  have hinv : OrderInv env st := by
    unfold OrderInv
    rw [hempty]
    exact ⟨List.nodup_nil, fun c hc => by simp at hc⟩
  constructor
  · cases ch with
    | none => exact ⟨st, rfl, hinv.1, hinv.2⟩
    | some c =>
      have hp : pending env { st with rQueue := st.rQueue ++ [⟨c, po, fr⟩] } ≤ n :=
        pending_le env _
      obtain ⟨st1, h1, hinv1, _⟩ := renderLoop_spec env (st.rQueue.length + 6 * n + 2)
        { st with rQueue := st.rQueue ++ [⟨c, po, fr⟩] }
        (by simp only [List.length_append, List.length_singleton]; omega) hinv
      exact ⟨st1, h1, hinv1.1, hinv1.2⟩
  · intro s req h
    rw [renderStep_skip env req s h]
    exact ⟨rfl, rfl, rfl⟩

theorem renderBuffer_dedupe_witness :
    freshState.renderOrder = [] ∧
      ∃ st1, renderBuffer columnEnv freshState (some 0) ⟨0, 0, 0⟩ Direction.Invalid = some st1 ∧
        st1.renderOrder.Nodup ∧ ∀ c ∈ st1.renderOrder, st1.renderedOn c = columnEnv.frameID :=
  ⟨rfl, (renderBuffer_dedupe columnEnv freshState (some 0) ⟨0, 0, 0⟩ Direction.Invalid rfl).1⟩

end Steven

namespace Steven

/-! ## The vertex layout -/

theorem buildVertex_eq (b : Buffer) (v : chunkVertex) :
    buildVertex b v = b ++ (le32 v.X ++ le32 v.Y ++ le32 v.Z ++
      le16 v.TX ++ le16 v.TY ++ le16 v.TW ++ le16 v.TH ++
      le16 (v.TOffsetX % 65536).toNat ++ le16 (v.TOffsetY % 65536).toNat ++
      le16 (v.TAtlas % 65536).toNat ++ [0, 0] ++
      [v.R % 256, v.G % 256, v.B % 256, 255] ++
      le16 v.BlockLight ++ le16 v.SkyLight ++ [0, 0, 0, 0]) := by
  simp [buildVertex, Buffer.Float, Buffer.UnsignedShort, Buffer.Short, Buffer.UnsignedByte,
    le16, le32]

/-- The vertex that `buildVertex` writes is 40 bytes long, not 36: after `SkyLight` the
function writes two more 16-bit pads. -/
theorem buildVertex_not_36 :
    (buildVertex [] zeroVertex).length = 40 ∧ (buildVertex [] zeroVertex).length ≠ 36 := by
  decide

/-- C10 (amended). For every `chunkVertex` `v`, `buildVertex` appends 40 bytes to the buffer:
the 36 bytes of the layout table in its order and widths (X, Y, Z as 4-byte floats at
offsets 0, 4, 8; TX, TY, TW, TH as uint16 at 12..18; TOffsetX, TOffsetY, TAtlas as int16 at
20..24; a pad int16 equal to 0 at 26; R, G, B at 28..30; a pad byte equal to 255 at 31;
BlockLight and SkyLight as uint16 at 32 and 34), followed by two uint16 pads equal to 0 at
offsets 36 and 38.  The written bytes do not depend on the pad fields of `v`. -/
theorem buildVertex_layout (v : chunkVertex) :
    (∀ b : Buffer, buildVertex b v = b ++ buildVertex [] v) ∧
    (buildVertex [] v).length = 40 ∧
    slice (buildVertex [] v) 0 4 = le32 v.X ∧
    slice (buildVertex [] v) 4 4 = le32 v.Y ∧
    slice (buildVertex [] v) 8 4 = le32 v.Z ∧
    slice (buildVertex [] v) 12 2 = le16 v.TX ∧
    slice (buildVertex [] v) 14 2 = le16 v.TY ∧
    slice (buildVertex [] v) 16 2 = le16 v.TW ∧
    slice (buildVertex [] v) 18 2 = le16 v.TH ∧
    slice (buildVertex [] v) 20 2 = le16 (v.TOffsetX % 65536).toNat ∧
    slice (buildVertex [] v) 22 2 = le16 (v.TOffsetY % 65536).toNat ∧
    slice (buildVertex [] v) 24 2 = le16 (v.TAtlas % 65536).toNat ∧
    slice (buildVertex [] v) 26 2 = [0, 0] ∧
    slice (buildVertex [] v) 28 1 = [v.R % 256] ∧
    slice (buildVertex [] v) 29 1 = [v.G % 256] ∧
    slice (buildVertex [] v) 30 1 = [v.B % 256] ∧
    slice (buildVertex [] v) 31 1 = [255] ∧
    slice (buildVertex [] v) 32 2 = le16 v.BlockLight ∧
    slice (buildVertex [] v) 34 2 = le16 v.SkyLight ∧
    slice (buildVertex [] v) 36 4 = [0, 0, 0, 0] ∧
    (∀ (p0 : Int) (p1 p2 p3 : Nat) (b : Buffer),
      buildVertex b { v with Pad0 := p0, Pad1 := p1, Pad2 := p2, Pad3 := p3 } =
        buildVertex b v) := by
  refine ⟨fun b => ?_, ?_⟩
  · rw [buildVertex_eq b v, buildVertex_eq [] v, List.nil_append]
  · rw [buildVertex_eq [] v]
    refine ⟨?_, ?_, ?_, ?_, ?_, ?_, ?_, ?_, ?_, ?_, ?_, ?_, ?_, ?_, ?_, ?_, ?_, ?_, ?_,
      fun p0 p1 p2 p3 b => ?_⟩
    all_goals first
      | rw [buildVertex_eq, buildVertex_eq]
      | simp [slice, le16, le32]

end Steven

namespace Steven

/-! ## The memory formatter -/

/-- The loop of `formatMemory` returns within its bound: it stops after `k` shifts, where
`k` is the first count for which one more shift gives 0. -/
theorem formatLoop_spec : ∀ (fuel alloc i : Nat), alloc < 2 ^ (10 * (fuel + 1)) →
    ∃ k ≤ fuel, formatLoop (fuel + 1) alloc i = some (alloc >>> (10 * k), i + k) ∧
      alloc >>> (10 * k) >>> 10 = 0 ∧ (k = 0 ∨ alloc >>> (10 * k) ≠ 0) := by
  intro fuel
  induction fuel with
  | zero =>
    intro alloc i h
    have h0 : alloc >>> 10 = 0 := by
      rw [Nat.shiftRight_eq_div_pow]
      exact Nat.div_eq_of_lt (by simpa using h)
    exact ⟨0, Nat.le_refl _, by simp [formatLoop, h0], by simpa using h0, Or.inl rfl⟩
  | succ fuel ih =>
    intro alloc i h
    by_cases h0 : alloc >>> 10 = 0
    · exact ⟨0, Nat.zero_le _, by simp [formatLoop, h0], by simpa using h0, Or.inl rfl⟩
    · have hlt : alloc >>> 10 < 2 ^ (10 * (fuel + 1)) := by
        rw [Nat.shiftRight_eq_div_pow, Nat.div_lt_iff_lt_mul (by positivity)]
        calc alloc < 2 ^ (10 * (fuel + 1 + 1)) := h
          _ = 2 ^ (10 * (fuel + 1)) * 2 ^ 10 := by rw [← Nat.pow_add]; congr 1
      obtain ⟨k, hk, hloop, hstop, hne⟩ := ih (alloc >>> 10) (i + 1) hlt
      have hshift : alloc >>> 10 >>> (10 * k) = alloc >>> (10 * (k + 1)) := by
        rw [← Nat.shiftRight_add]; congr 1; omega
      refine ⟨k + 1, by omega, ?_, ?_, Or.inr ?_⟩
      · rw [formatLoop]
        simp only [h0, if_false]
        rw [hloop, hshift]
        congr 2; omega
      · rw [← hshift]; exact hstop
      · rw [← hshift]
        rcases hne with rfl | hne
        · simpa using h0
        · exact hne

/-- Below `2 ^ 40` the loop of `formatMemory` makes at most three shifts. -/
theorem formatLoop_small (alloc : Nat) (h : alloc < 2 ^ 40) :
    ∃ k ≤ 3, formatLoop 7 alloc 0 = some (alloc >>> (10 * k), k) ∧
      alloc >>> (10 * k) >>> 10 = 0 := by
  obtain ⟨k, _, hloop, hstop, hne⟩ := formatLoop_spec 6 alloc 0
    (Nat.lt_of_lt_of_le h (Nat.pow_le_pow_right (by decide) (by decide)))
  refine ⟨k, ?_, by simpa using hloop, hstop⟩
  by_contra hk
  rcases hne with rfl | hne
  · omega
  · apply hne
    rw [Nat.shiftRight_eq_div_pow]
    apply Nat.div_eq_of_lt
    calc alloc < 2 ^ 40 := h
      _ ≤ 2 ^ (10 * k) := Nat.pow_le_pow_right (by decide) (by omega)

/-- Below `2 ^ 40` (1 TiB) `formatMemory` returns the decimal of `alloc >> (10 * i)` followed
by `B` when `i == 0` and by the `i`-th letter of `BKMG` plus `B` otherwise, with `i <= 3`. -/
theorem formatMemory_small (alloc : Nat) (h : alloc < 2 ^ 40) :
    ∃ i ≤ 3, formatLoop 7 alloc 0 = some (alloc >>> (10 * i), i) ∧
      ∃ c, unitLetter i = some c ∧
        formatMemory alloc = some (toString (alloc >>> (10 * i)) ++
          (if i = 0 then "B" else String.singleton c ++ "B")) := by
  obtain ⟨k, hk, hloop, _⟩ := formatLoop_small alloc h
  refine ⟨k, hk, hloop, ?_⟩
  unfold formatMemory
  rw [hloop]
  interval_cases k
  · exact ⟨'B', rfl, rfl⟩
  · exact ⟨'K', rfl, rfl⟩
  · exact ⟨'M', rfl, rfl⟩
  · exact ⟨'G', rfl, rfl⟩

/-- C14 (the code at the failing input). For `alloc = 2 ^ 40`, a value of type `uint64`, the
loop of `formatMemory` makes four shifts, `letters[4]` is out of range of `BKMG`, and
`formatMemory` ends in a run-time panic instead of returning a string. -/
theorem formatMemory_panics :
    formatLoop 7 (2 ^ 40) 0 = some (1, 4) ∧ unitLetter 4 = none ∧
      formatMemory (2 ^ 40) = none := by
  decide

end Steven

namespace Steven

/-! ## The flood fill on one component -/

theorem touchedFaces_lt (x y z : Int) : touchedFaces x y z < 2 ^ 6 := by
  unfold touchedFaces
  by_cases hx0 : x = 0 <;> by_cases hx15 : x = 15 <;>
  by_cases hy0 : y = 0 <;> by_cases hy15 : y = 15 <;>
  by_cases hz0 : z = 0 <;> by_cases hz15 : z = 15 <;>
  simp [hx0, hx15, hy0, hy15, hz0, hz15, Direction.toNat]

/-- Bit `k` of the faces of a cell is set exactly when `k` is the index of a face the
cell lies on. -/
theorem touchedFaces_testBit_iff (p : Cell) (k : Nat) :
    (touchedFaces p.1 p.2.1 p.2.2).testBit k = true ↔
      ∃ d ∈ Direction.Values, d.toNat = k ∧ onFace d p := by
  constructor
  · intro h
    have hk : k < 6 := by
      by_contra hk
      have hlt : touchedFaces p.1 p.2.1 p.2.2 < 2 ^ k :=
        Nat.lt_of_lt_of_le (touchedFaces_lt _ _ _)
          (Nat.pow_le_pow_right (by decide) (by omega))
      rw [Nat.testBit_lt_two_pow hlt] at h
      exact Bool.noConfusion h
    obtain ⟨d, hd, rfl⟩ := exists_direction_of_lt hk
    exact ⟨d, hd, rfl, (touchedFaces_testBit hd p).mp h⟩
  · rintro ⟨d, hd, rfl, hf⟩
    exact (touchedFaces_testBit hd p).mpr hf

/-- A fill started on an open cell none of whose component is marked marks the whole
component, and the fresh open cells are exactly the cells of the component. -/
theorem fillPost_component {bs : blocksSnapshot} {V W : BitSet} {c : Cell} {t : Nat}
    (hpost : FillPost bs V c t W) (hopen : isOpen bs c)
    (hclear : ∀ p, connected bs c p → ¬ marked V p) :
    ∀ p, connected bs c p → freshOpen bs V W p := by
  intro p hp
  induction hp with
  | refl => exact ⟨hopen, marked_of_settled_open (hpost.start hopen.1) hopen, hclear c
      Relation.ReflTransGen.refl⟩
  | tail hab hstep ih =>
    obtain ⟨_, hq, d, hd, rfl⟩ := hstep
    exact ⟨hq, marked_of_settled_open (hpost.closed _ ih d hd hq.1) hq,
      hclear _ (Relation.ReflTransGen.tail hab ⟨ih.1, hq, d, hd, rfl⟩)⟩

/-- C12. For every snapshot, every visited set of 4096 bits and every recursion depth above
the number of unmarked cells: started on an open in-range cell none of whose 6-connected
component `C` of open cells is marked, `floodFill` returns exactly the 6-bit mask of the
faces on which some cell of `C` lies, afterwards every cell of `C` is marked and no
previously marked cell is unmarked; started on a `ShouldCullAgainst` cell in range it
returns 0 and marks only that cell; started out of range or on an already visited cell it
returns 0 and leaves `visited` unchanged.  An out-of-range start never reads the bit set
(the result is the same for a bit set of any size), and the index of an in-range cell is
below 4096. -/
theorem floodFill_component (bs : blocksSnapshot) (V : BitSet) (c : Cell) (fuel : Nat)
    (hsize : V.size = 4096) (hfuel : unvisited V < fuel) :
    (isOpen bs c → (∀ p, connected bs c p → ¬ marked V p) →
      ∃ t W, floodFill bs fuel V c.1 c.2.1 c.2.2 = some (t, W) ∧
        (∀ k, t.testBit k = true ↔
          ∃ d ∈ Direction.Values, d.toNat = k ∧ ∃ p, connected bs c p ∧ onFace d p) ∧
        (∀ p, connected bs c p → marked W p) ∧
        (∀ i, V.bits.testBit i = true → W.bits.testBit i = true)) ∧
    (inSection c → solidAt bs c = true →
      ∃ W, floodFill bs fuel V c.1 c.2.1 c.2.2 = some (0, W) ∧
        ∀ i, W.bits.testBit i =
          (V.bits.testBit i || decide (cellIndex c.1 c.2.1 c.2.2 = i))) ∧
    (¬ inSection c ∨ marked V c → floodFill bs fuel V c.1 c.2.1 c.2.2 = some (0, V)) ∧
    (¬ inSection c → ∀ U : BitSet, floodFill bs fuel U c.1 c.2.1 c.2.2 = some (0, U)) ∧
    (inSection c → cellIndex c.1 c.2.1 c.2.2 < 4096) := by
  obtain ⟨fuel, rfl⟩ : ∃ f, fuel = f + 1 := ⟨fuel - 1, by omega⟩
  refine ⟨?_, ?_, ?_, ?_, fun hc => cellIndex_lt hc⟩
  · intro hopen hclear
    obtain ⟨t, W, hcall, hpost⟩ := floodFill_spec bs (fuel + 1) V c hsize hfuel
    have hall := fillPost_component hpost hopen hclear
    refine ⟨t, W, hcall, ?_, fun p hp => (hall p hp).2.1, hpost.mono⟩
    intro k
    rw [hpost.mask k]
    constructor
    · rintro ⟨p, hp, hk⟩
      obtain ⟨d, hd, hdk, hf⟩ := (touchedFaces_testBit_iff p k).mp hk
      exact ⟨d, hd, hdk, p, hpost.sound p hp, hf⟩
    · rintro ⟨d, hd, hdk, p, hp, hf⟩
      exact ⟨p, hall p hp, (touchedFaces_testBit_iff p k).mpr ⟨d, hd, hdk, hf⟩⟩
  · intro hc hsolid
    by_cases hm : marked V c
    · refine ⟨V, floodFill_succ_marked bs fuel V c hsize hc hm, fun i => ?_⟩
      by_cases hi : cellIndex c.1 c.2.1 c.2.2 = i
      · subst hi
        rw [show V.bits.testBit _ = true from hm]
        rfl
      · simp [hi]
    · refine ⟨⟨V.size, V.bits ||| (1 <<< cellIndex c.1 c.2.1 c.2.2)⟩, ?_,
        fun i => testBit_setBit _ _ _⟩
      rw [floodFill_succ_open bs fuel V c hsize hc hm, if_pos hsolid]
  · rintro (hc | hm)
    · exact floodFill_succ_outside bs fuel V c hc
    · by_cases hc : inSection c
      · exact floodFill_succ_marked bs fuel V c hsize hc hm
      · exact floodFill_succ_outside bs fuel V c hc
  · intro hc U
    exact floodFill_succ_outside bs fuel U c hc

theorem floodFill_component_witness :
    (NewSet 4096).size = 4096 ∧ unvisited (NewSet 4096) < 4097 ∧
      isOpen planeSection (0, 0, 0) ∧
      (∀ p, connected planeSection (0, 0, 0) p → ¬ marked (NewSet 4096) p) ∧
      ∃ t W, floodFill planeSection 4097 (NewSet 4096) 0 0 0 = some (t, W) ∧
        (∀ k, t.testBit k = true ↔
          ∃ d ∈ Direction.Values, d.toNat = k ∧
            ∃ p, connected planeSection (0, 0, 0) p ∧ onFace d p) ∧
        (∀ p, connected planeSection (0, 0, 0) p → marked W p) ∧
        (∀ i, (NewSet 4096).bits.testBit i = true → W.bits.testBit i = true) :=
  ⟨rfl, Nat.lt_succ_of_le (unvisited_le _), by decide,
    fun p _ => not_marked_newSet 4096 p,
    (floodFill_component planeSection (NewSet 4096) (0, 0, 0) 4097 rfl
      (Nat.lt_succ_of_le (unvisited_le _))).1 (by decide)
      (fun p _ => not_marked_newSet 4096 p)⟩

end Steven

namespace Steven

/-! ## Termination and the record of solidity tests -/

theorem fillNeighbour_eq_some {fill : BitSet → Int → Int → Int → Option (Nat × BitSet)}
    {c : Cell} {st r : Nat × BitSet} {d : Direction}
    (h : fillNeighbour fill c.1 c.2.1 c.2.2 st d = some r) :
    ∃ t W, fill st.2 (shift c d).1 (shift c d).2.1 (shift c d).2.2 = some (t, W) ∧
      r = (st.1 ||| t, W) := by
  unfold fillNeighbour at h
  cases hcall : fill st.2 (c.1 + d.Offset.1) (c.2.1 + d.Offset.2.1) (c.2.2 + d.Offset.2.2) with
  | none => rw [hcall] at h; exact Option.noConfusion h
  | some tw =>
    rw [hcall] at h
    exact ⟨tw.1, tw.2, hcall, (Option.some.inj h).symm⟩

theorem foldlM_cons_eq_some {σ α : Type} {f : σ → α → Option σ} {a : α} {l : List α}
    {s r : σ} (h : (a :: l).foldlM f s = some r) :
    ∃ s1, f s a = some s1 ∧ l.foldlM f s1 = some r := by
  rw [List.foldlM_cons] at h
  cases hstep : f s a with
  | none => rw [hstep] at h; exact Option.noConfusion h
  | some s1 => rw [hstep] at h; exact ⟨s1, rfl, h⟩

/-- The loop over the neighbours, with and without the record: the recorded run returns
the same mask and set, and adds to the record cells that were unmarked before the loop,
are marked after it and are pairwise different. -/
theorem fillLoopLog_spec
    (fill : BitSet → Int → Int → Int → Option (Nat × BitSet))
    (fillLog : BitSet → List Cell → Int → Int → Int → Option (Nat × BitSet × List Cell))
    (c : Cell)
    (hrec : ∀ (V : BitSet) (log : List Cell) (e : Cell) (t : Nat) (W : BitSet),
      V.size = 4096 → fill V e.1 e.2.1 e.2.2 = some (t, W) →
      W.size = 4096 ∧ marksLe V W ∧ ∃ new,
        fillLog V log e.1 e.2.1 e.2.2 = some (t, W, log ++ new) ∧ new.Nodup ∧
        ∀ p ∈ new, inSection p ∧ ¬ marked V p ∧ marked W p) :
    ∀ (l : List Direction) (t0 : Nat) (V : BitSet) (log : List Cell) (t : Nat) (W : BitSet),
      V.size = 4096 →
      l.foldlM (fillNeighbour fill c.1 c.2.1 c.2.2) (t0, V) = some (t, W) →
      W.size = 4096 ∧ marksLe V W ∧ ∃ new,
        l.foldlM (fillNeighbourLog fillLog c.1 c.2.1 c.2.2) (t0, V, log) =
          some (t, W, log ++ new) ∧ new.Nodup ∧
        ∀ p ∈ new, inSection p ∧ ¬ marked V p ∧ marked W p := by
  intro l
  induction l with
  | nil =>
    intro t0 V log t W hsize h
    have h1 : (t0, V) = (t, W) := Option.some.inj h
    obtain ⟨rfl, rfl⟩ := Prod.mk.inj h1
    exact ⟨hsize, marksLe_refl _, [], by simp, List.nodup_nil, fun p hp => by simp at hp⟩
  | cons d l ih =>
    intro t0 V log t W hsize h
    obtain ⟨s1, hstep, hrest⟩ := foldlM_cons_eq_some h
    obtain ⟨t1, V1, hcall, rfl⟩ := fillNeighbour_eq_some hstep
    obtain ⟨hsize1, hle1, new1, hlog1, hnd1, hnew1⟩ := hrec V log (shift c d) t1 V1 hsize hcall
    obtain ⟨hsizeW, hleW, new2, hlog2, hnd2, hnew2⟩ :=
      ih (t0 ||| t1) V1 (log ++ new1) t W hsize1 hrest
    refine ⟨hsizeW, marksLe_trans hle1 hleW, new1 ++ new2, ?_, ?_, ?_⟩
    · rw [List.foldlM_cons]
      have hstepLog : fillNeighbourLog fillLog c.1 c.2.1 c.2.2 (t0, V, log) d =
          some (t0 ||| t1, V1, log ++ new1) := by
        unfold fillNeighbourLog
        have : fillLog V log (c.1 + d.Offset.1) (c.2.1 + d.Offset.2.1)
            (c.2.2 + d.Offset.2.2) = some (t1, V1, log ++ new1) := hlog1
        simp only [this]
      rw [hstepLog]
      simpa [List.append_assoc] using hlog2
    · refine List.Nodup.append hnd1 hnd2 ?_
      intro p hp1 hp2
      exact (hnew2 p hp2).2.1 (hnew1 p hp1).2.2
    · intro p hp
      rcases List.mem_append.mp hp with hp | hp
      · exact ⟨(hnew1 p hp).1, (hnew1 p hp).2.1, marked_of_le hleW (hnew1 p hp).2.2⟩
      · exact ⟨(hnew2 p hp).1, fun hm => (hnew2 p hp).2.1 (marked_of_le hle1 hm),
          (hnew2 p hp).2.2⟩

end Steven

namespace Steven

theorem floodFillLog_succ_open (bs : blocksSnapshot) (fuel : Nat) (V : BitSet)
    (log : List Cell) (c : Cell)
    (hsize : V.size = 4096) (hc : inSection c) (hm : ¬ marked V c) :
    floodFillLog bs (fuel + 1) V log c.1 c.2.1 c.2.2 =
      if solidAt bs c then
        some (0, ⟨V.size, V.bits ||| (1 <<< cellIndex c.1 c.2.1 c.2.2)⟩, log ++ [c])
      else
        Direction.Values.foldlM (fillNeighbourLog (floodFillLog bs fuel) c.1 c.2.1 c.2.2)
          (touchedFaces c.1 c.2.1 c.2.2,
            ⟨V.size, V.bits ||| (1 <<< cellIndex c.1 c.2.1 c.2.2)⟩, log ++ [c]) := by
  have hlt : cellIndex c.1 c.2.1 c.2.2 < V.size := by rw [hsize]; exact cellIndex_lt hc
  have hrange : ¬ (c.1 < 0 ∨ c.1 > 15 ∨ c.2.1 < 0 ∨ c.2.1 > 15 ∨ c.2.2 < 0 ∨ c.2.2 > 15) := by
    obtain ⟨h1, h2, h3, h4, h5, h6⟩ := hc
    omega
  have hbit : V.bits.testBit (cellIndex c.1 c.2.1 c.2.2) = false := by
    simpa [marked] using hm
  rw [floodFillLog, if_neg hrange, get_of_lt hlt, hbit]
  simp only [set_true_of_lt hlt, solidAt]

theorem floodFillLog_succ_marked (bs : blocksSnapshot) (fuel : Nat) (V : BitSet)
    (log : List Cell) (c : Cell)
    (hsize : V.size = 4096) (hc : inSection c) (hm : marked V c) :
    floodFillLog bs (fuel + 1) V log c.1 c.2.1 c.2.2 = some (0, V, log) := by
  have hlt : cellIndex c.1 c.2.1 c.2.2 < V.size := by rw [hsize]; exact cellIndex_lt hc
  have hrange : ¬ (c.1 < 0 ∨ c.1 > 15 ∨ c.2.1 < 0 ∨ c.2.1 > 15 ∨ c.2.2 < 0 ∨ c.2.2 > 15) := by
    obtain ⟨h1, h2, h3, h4, h5, h6⟩ := hc
    omega
  rw [floodFillLog, if_neg hrange, get_of_lt hlt, show V.bits.testBit _ = true from hm]

theorem floodFillLog_succ_outside (bs : blocksSnapshot) (fuel : Nat) (V : BitSet)
    (log : List Cell) (c : Cell) (hc : ¬ inSection c) :
    floodFillLog bs (fuel + 1) V log c.1 c.2.1 c.2.2 = some (0, V, log) := by
  have hrange : c.1 < 0 ∨ c.1 > 15 ∨ c.2.1 < 0 ∨ c.2.1 > 15 ∨ c.2.2 < 0 ∨ c.2.2 > 15 := by
    unfold inSection at hc
    omega
  rw [floodFillLog, if_pos hrange]

/-- The recorded flood fill returns what `floodFill` returns, and adds to the record only
cells that were unmarked before the call and are marked after it, each of them once. -/
theorem floodFillLog_spec (bs : blocksSnapshot) :
    ∀ (fuel : Nat) (V : BitSet) (log : List Cell) (c : Cell) (t : Nat) (W : BitSet),
      V.size = 4096 → floodFill bs fuel V c.1 c.2.1 c.2.2 = some (t, W) →
      W.size = 4096 ∧ marksLe V W ∧ ∃ new,
        floodFillLog bs fuel V log c.1 c.2.1 c.2.2 = some (t, W, log ++ new) ∧ new.Nodup ∧
        ∀ p ∈ new, inSection p ∧ ¬ marked V p ∧ marked W p := by
  intro fuel
  induction fuel with
  | zero => intro V log c t W _ h; exact Option.noConfusion h
  | succ fuel ih =>
    intro V log c t W hsize h
    have hnone : ∀ p ∈ ([] : List Cell), inSection p ∧ ¬ marked V p ∧ marked V p :=
      fun p hp => by simp at hp
    by_cases hc : inSection c
    swap
    · rw [floodFill_succ_outside bs fuel V c hc] at h
      obtain ⟨rfl, rfl⟩ := Prod.mk.inj (Option.some.inj h)
      exact ⟨hsize, marksLe_refl _, [],
        by rw [floodFillLog_succ_outside bs fuel V log c hc]; simp, List.nodup_nil, hnone⟩
    by_cases hm : marked V c
    · rw [floodFill_succ_marked bs fuel V c hsize hc hm] at h
      obtain ⟨rfl, rfl⟩ := Prod.mk.inj (Option.some.inj h)
      exact ⟨hsize, marksLe_refl _, [],
        by rw [floodFillLog_succ_marked bs fuel V log c hsize hc hm]; simp,
        List.nodup_nil, hnone⟩
    rw [floodFill_succ_open bs fuel V c hsize hc hm] at h
    rw [floodFillLog_succ_open bs fuel V log c hsize hc hm]
    have hcm : marked ⟨V.size, V.bits ||| (1 <<< cellIndex c.1 c.2.1 c.2.2)⟩ c :=
      (marked_setBit hc hc).mpr (Or.inr rfl)
    by_cases hsolid : solidAt bs c = true
    · rw [if_pos hsolid] at h
      rw [if_pos hsolid]
      obtain ⟨rfl, rfl⟩ := Prod.mk.inj (Option.some.inj h)
      refine ⟨hsize, marksLe_setBit V _, [c], rfl, List.nodup_singleton c, ?_⟩
      intro p hp
      rw [List.mem_singleton] at hp
      subst hp
      exact ⟨hc, hm, hcm⟩
    · rw [if_neg hsolid] at h
      rw [if_neg hsolid]
      obtain ⟨hsizeW, hle, new, hlog, hnd, hnew⟩ :=
        fillLoopLog_spec (floodFill bs fuel) (floodFillLog bs fuel) c ih Direction.Values
          (touchedFaces c.1 c.2.1 c.2.2)
          ⟨V.size, V.bits ||| (1 <<< cellIndex c.1 c.2.1 c.2.2)⟩ (log ++ [c]) t W hsize h
      refine ⟨hsizeW, marksLe_trans (marksLe_setBit V _) hle, c :: new, ?_, ?_, ?_⟩
      · rw [hlog]
        simp
      · refine List.nodup_cons.mpr ⟨fun hmem => (hnew c hmem).2.1 hcm, hnd⟩
      · intro p hp
        rcases List.mem_cons.mp hp with rfl | hp
        · exact ⟨hc, hm, marked_of_le hle hcm⟩
        · exact ⟨(hnew p hp).1,
            fun hV => (hnew p hp).2.1 (marked_of_le (marksLe_setBit V _) hV),
            (hnew p hp).2.2⟩

end Steven

namespace Steven

/-- Two loops in the option monad that step in relation stay in relation. -/
theorem foldlM_sim {σ τ α : Type} (f : σ → α → Option σ) (g : τ → α → Option τ)
    (Rel : σ → τ → Prop) :
    ∀ (l : List α),
      (∀ a ∈ l, ∀ s u s1, Rel s u → f s a = some s1 → ∃ u1, g u a = some u1 ∧ Rel s1 u1) →
      ∀ s u s1, Rel s u → l.foldlM f s = some s1 →
        ∃ u1, l.foldlM g u = some u1 ∧ Rel s1 u1 := by
  intro l
  induction l with
  | nil =>
    intro _ s u s1 hrel h
    have : s = s1 := Option.some.inj h
    subst this
    exact ⟨u, rfl, hrel⟩
  | cons a l ih =>
    intro hstep s u s1 hrel h
    obtain ⟨s2, h1, h2⟩ := foldlM_cons_eq_some h
    obtain ⟨u2, g1, hrel2⟩ := hstep a (List.mem_cons_self _ _) s u s2 hrel h1
    obtain ⟨u1, g2, hrel1⟩ :=
      ih (fun b hb => hstep b (List.mem_cons_of_mem _ hb)) s2 u2 s1 hrel2 h2
    exact ⟨u1, by rw [List.foldlM_cons, g1]; exact g2, hrel1⟩

/-- The relation between a state of the triple loop and the state of its recorded run: same
bits, same visited set, and a record without repetition all of whose cells are marked. -/
theorem cullStepLog_sim (bs : blocksSnapshot) {x y z : Nat} (hx : x < 16) (hy : y < 16)
    (hz : z < 16) (s : Nat × BitSet) (u : Nat × BitSet × List Cell) (s1 : Nat × BitSet)
    (hrel : (u.1 = s.1 ∧ u.2.1 = s.2) ∧ s.2.size = 4096 ∧ u.2.2.Nodup ∧
      ∀ p ∈ u.2.2, marked s.2 p)
    (h : cullStep (floodFill bs (16 * 16 * 16 + 1)) x y z s = some s1) :
    ∃ u1, cullStepLog (floodFillLog bs (16 * 16 * 16 + 1)) x y z u = some u1 ∧
      ((u1.1 = s1.1 ∧ u1.2.1 = s1.2) ∧ s1.2.size = 4096 ∧ u1.2.2.Nodup ∧
        ∀ p ∈ u1.2.2, marked s1.2 p) := by
  obtain ⟨bits, V⟩ := s
  obtain ⟨ubits, uV, log⟩ := u
  obtain ⟨⟨hb, hV⟩, hsize, hnd, hlog⟩ := hrel
  simp only at hb hV hsize hnd hlog
  subst hb
  subst hV
  have hc : inSection ((x : Int), (y : Int), (z : Int)) := inSection_natCast hx hy hz
  have hidx : x ||| (z <<< 4) ||| (y <<< 8) < uV.size := by
    rw [hsize, ← cellIndex_natCast]
    exact cellIndex_lt hc
  unfold cullStep at h
  unfold cullStepLog
  simp only [get_of_lt hidx] at h ⊢
  by_cases hm : uV.bits.testBit (x ||| (z <<< 4) ||| (y <<< 8)) = true
  · simp only [hm] at h ⊢
    have : (ubits, uV) = s1 := Option.some.inj h
    subst this
    exact ⟨_, rfl, ⟨rfl, rfl⟩, hsize, hnd, hlog⟩
  · have hm0 : uV.bits.testBit (x ||| (z <<< 4) ||| (y <<< 8)) = false := by
      simpa using hm
    simp only [hm0] at h ⊢
    cases hcall : floodFill bs (16 * 16 * 16 + 1) uV (x : Int) (y : Int) (z : Int) with
    | none => rw [hcall] at h; exact Option.noConfusion h
    | some tw =>
      obtain ⟨t, W⟩ := tw
      rw [hcall] at h
      obtain ⟨hsizeW, hle, new, hlogcall, hndnew, hnew⟩ :=
        floodFillLog_spec bs _ uV log ((x : Int), (y : Int), (z : Int)) t W hsize hcall
      have hlogcall1 : floodFillLog bs (16 * 16 * 16 + 1) uV log (x : Int) (y : Int) (z : Int)
          = some (t, W, log ++ new) := hlogcall
      simp only [hlogcall1]
      have hndall : (log ++ new).Nodup := by
        refine List.Nodup.append hnd hndnew ?_
        intro p hp1 hp2
        exact (hnew p hp2).2.1 (hlog p hp1)
      have hmall : ∀ p ∈ log ++ new, marked W p := by
        intro p hp
        rcases List.mem_append.mp hp with hp | hp
        · exact marked_of_le hle (hlog p hp)
        · exact (hnew p hp).2.2
      by_cases ht : t = 0
      · simp only [ht, if_true] at h ⊢
        have : (ubits, W) = s1 := Option.some.inj h
        subst this
        exact ⟨_, rfl, ⟨rfl, rfl⟩, hsizeW, hndall, hmall⟩
      · simp only [ht, if_false] at h ⊢
        have : (setTouched ubits t, W) = s1 := Option.some.inj h
        subst this
        exact ⟨_, rfl, ⟨rfl, rfl⟩, hsizeW, hndall, hmall⟩

/-- The recorded run of `buildCullBits` returns the bits of `buildCullBits`, and no cell
occurs twice in its record of solidity tests. -/
theorem buildCullBitsLog_spec (bs : blocksSnapshot) :
    ∃ bits log, buildCullBitsLog bs = some (bits, log) ∧ buildCullBits bs = some bits ∧
      log.Nodup := by
  obtain ⟨st, hfold, _, _⟩ := cullLoop_fold_spec bs _ (floodFill_fillOk bs)
  have hxs : ∀ y ∈ List.range 16, ∀ z ∈ List.range 16,
      ∀ (s : Nat × BitSet) (u : Nat × BitSet × List Cell) (s1 : Nat × BitSet),
      ((u.1 = s.1 ∧ u.2.1 = s.2) ∧ s.2.size = 4096 ∧ u.2.2.Nodup ∧
        ∀ p ∈ u.2.2, marked s.2 p) →
      (List.range 16).foldlM
        (fun st x => cullStep (floodFill bs (16 * 16 * 16 + 1)) x y z st) s = some s1 →
      ∃ u1, (List.range 16).foldlM
          (fun st x => cullStepLog (floodFillLog bs (16 * 16 * 16 + 1)) x y z st) u =
            some u1 ∧
        ((u1.1 = s1.1 ∧ u1.2.1 = s1.2) ∧ s1.2.size = 4096 ∧ u1.2.2.Nodup ∧
          ∀ p ∈ u1.2.2, marked s1.2 p) := by
    intro y hy z hz
    refine foldlM_sim _ _ _ (List.range 16) ?_
    intro x hx s u s1 hrel h
    exact cullStepLog_sim bs (List.mem_range.mp hx) (List.mem_range.mp hy)
      (List.mem_range.mp hz) s u s1 hrel h
  have hzs : ∀ y ∈ List.range 16,
      ∀ (s : Nat × BitSet) (u : Nat × BitSet × List Cell) (s1 : Nat × BitSet),
      ((u.1 = s.1 ∧ u.2.1 = s.2) ∧ s.2.size = 4096 ∧ u.2.2.Nodup ∧
        ∀ p ∈ u.2.2, marked s.2 p) →
      (List.range 16).foldlM (fun st z => (List.range 16).foldlM
        (fun st x => cullStep (floodFill bs (16 * 16 * 16 + 1)) x y z st) st) s = some s1 →
      ∃ u1, (List.range 16).foldlM (fun st z => (List.range 16).foldlM
          (fun st x => cullStepLog (floodFillLog bs (16 * 16 * 16 + 1)) x y z st) st) u =
            some u1 ∧
        ((u1.1 = s1.1 ∧ u1.2.1 = s1.2) ∧ s1.2.size = 4096 ∧ u1.2.2.Nodup ∧
          ∀ p ∈ u1.2.2, marked s1.2 p) := by
    intro y hy
    refine foldlM_sim _ _ _ (List.range 16) ?_
    intro z hz s u s1 hrel h
    exact hxs y hy z hz s u s1 hrel h
  obtain ⟨u1, hlogfold, ⟨hb, _⟩, _, hnd, _⟩ := foldlM_sim _ _
    (fun (s : Nat × BitSet) (u : Nat × BitSet × List Cell) =>
      (u.1 = s.1 ∧ u.2.1 = s.2) ∧ s.2.size = 4096 ∧ u.2.2.Nodup ∧ ∀ p ∈ u.2.2, marked s.2 p)
    (List.range 16) (fun y hy s u s1 hrel h => hzs y hy s u s1 hrel h)
    (0, NewSet (16 * 16 * 16)) (0, NewSet (16 * 16 * 16), []) st
    ⟨⟨rfl, rfl⟩, rfl, List.nodup_nil, fun p hp => by simp at hp⟩ hfold
  refine ⟨st.1, u1.2.2, ?_, ?_, hnd⟩
  · unfold buildCullBitsLog
    rw [hlogfold, ← hb]
    rfl
  · unfold buildCullBits cullLoop
    rw [hfold]
    rfl

end Steven

namespace Steven

theorem floodFill_size (bs : blocksSnapshot) (fuel : Nat) (V : BitSet) (c : Cell) (t : Nat)
    (W : BitSet) (hsize : V.size = 4096)
    (h : floodFill bs fuel V c.1 c.2.1 c.2.2 = some (t, W)) : W.size = 4096 ∧ marksLe V W :=
  ⟨(floodFillLog_spec bs fuel V [] c t W hsize h).1,
    (floodFillLog_spec bs fuel V [] c t W hsize h).2.1⟩

/-- The loop over the neighbours returns the same result when the recursive calls are
replaced by calls that return the same results. -/
theorem fillLoop_congr (f g : BitSet → Int → Int → Int → Option (Nat × BitSet)) (c : Cell)
    (hfg : ∀ (V : BitSet) (e : Cell) (t : Nat) (W : BitSet), V.size = 4096 →
      f V e.1 e.2.1 e.2.2 = some (t, W) → W.size = 4096 ∧ g V e.1 e.2.1 e.2.2 = some (t, W)) :
    ∀ (l : List Direction) (t0 : Nat) (V : BitSet) (r : Nat × BitSet), V.size = 4096 →
      l.foldlM (fillNeighbour f c.1 c.2.1 c.2.2) (t0, V) = some r →
      l.foldlM (fillNeighbour g c.1 c.2.1 c.2.2) (t0, V) = some r := by
  intro l
  induction l with
  | nil => intro t0 V r _ h; exact h
  | cons d l ih =>
    intro t0 V r hsize h
    obtain ⟨s1, hstep, hrest⟩ := foldlM_cons_eq_some h
    obtain ⟨t1, V1, hcall, rfl⟩ := fillNeighbour_eq_some hstep
    obtain ⟨hsize1, hg⟩ := hfg V (shift c d) t1 V1 hsize hcall
    have hstepg : fillNeighbour g c.1 c.2.1 c.2.2 (t0, V) d = some (t0 ||| t1, V1) := by
      unfold fillNeighbour
      have : g V (c.1 + d.Offset.1) (c.2.1 + d.Offset.2.1) (c.2.2 + d.Offset.2.2)
          = some (t1, V1) := hg
      simp only [this]
    rw [List.foldlM_cons, hstepg]
    exact ih (t0 ||| t1) V1 r hsize1 hrest

/-- A result of `floodFill` does not change when the recursion depth is raised. -/
theorem floodFill_fuel_succ (bs : blocksSnapshot) :
    ∀ (fuel : Nat) (V : BitSet) (c : Cell) (t : Nat) (W : BitSet), V.size = 4096 →
      floodFill bs fuel V c.1 c.2.1 c.2.2 = some (t, W) →
      floodFill bs (fuel + 1) V c.1 c.2.1 c.2.2 = some (t, W) := by
  intro fuel
  induction fuel with
  | zero => intro V c t W _ h; exact Option.noConfusion h
  | succ fuel ih =>
    intro V c t W hsize h
    by_cases hc : inSection c
    swap
    · rw [floodFill_succ_outside bs fuel V c hc] at h
      rw [floodFill_succ_outside bs (fuel + 1) V c hc, h]
    by_cases hm : marked V c
    · rw [floodFill_succ_marked bs fuel V c hsize hc hm] at h
      rw [floodFill_succ_marked bs (fuel + 1) V c hsize hc hm, h]
    rw [floodFill_succ_open bs fuel V c hsize hc hm] at h
    rw [floodFill_succ_open bs (fuel + 1) V c hsize hc hm]
    by_cases hsolid : solidAt bs c = true
    · rw [if_pos hsolid] at h
      rw [if_pos hsolid, h]
    · rw [if_neg hsolid] at h
      rw [if_neg hsolid]
      exact fillLoop_congr (floodFill bs fuel) (floodFill bs (fuel + 1)) c
        (fun U e t1 W1 hU hcall => ⟨(floodFill_size bs fuel U e t1 W1 hU hcall).1,
          ih U e t1 W1 hU hcall⟩)
        Direction.Values _ _ (t, W) hsize h

theorem floodFill_fuel_le (bs : blocksSnapshot) (V : BitSet) (c : Cell) (t : Nat) (W : BitSet)
    (hsize : V.size = 4096) {fuel fuel1 : Nat} (hle : fuel ≤ fuel1)
    (h : floodFill bs fuel V c.1 c.2.1 c.2.2 = some (t, W)) :
    floodFill bs fuel1 V c.1 c.2.1 c.2.2 = some (t, W) := by
  induction hle with
  | refl => exact h
  | step _ ih => exact floodFill_fuel_succ bs _ V c t W hsize ih

/-- C13. `floodFill` terminates for every snapshot, visited set of 4096 bits and start
coordinates: with any recursion depth above the number of unmarked cells it returns, always
the same result.  A call that does not start on an unmarked open cell of the section returns
without recursing.  A call that recurses has first marked its previously unmarked in-range
start cell, and every visited set handed to one of its recursive calls has fewer unmarked
cells than the set the call received.  Within one `buildCullBits` run no cell has its
`ShouldCullAgainst` evaluated twice. -/
theorem floodFill_terminates (bs : blocksSnapshot) (V : BitSet) (c : Cell)
    (hsize : V.size = 4096) :
    (∃ t W, ∀ fuel, unvisited V < fuel → floodFill bs fuel V c.1 c.2.1 c.2.2 = some (t, W)) ∧
    (¬ (isOpen bs c ∧ ¬ marked V c) →
      ∃ W, ∀ fuel, floodFill bs (fuel + 1) V c.1 c.2.1 c.2.2 = some (0, W)) ∧
    (isOpen bs c → ¬ marked V c →
      marked ⟨V.size, V.bits ||| (1 <<< cellIndex c.1 c.2.1 c.2.2)⟩ c ∧
      unvisited ⟨V.size, V.bits ||| (1 <<< cellIndex c.1 c.2.1 c.2.2)⟩ < unvisited V ∧
      ∀ fuel,
        floodFill bs (fuel + 1) V c.1 c.2.1 c.2.2 =
          Direction.Values.foldlM (fillNeighbour (floodFill bs fuel) c.1 c.2.1 c.2.2)
            (touchedFaces c.1 c.2.1 c.2.2,
              ⟨V.size, V.bits ||| (1 <<< cellIndex c.1 c.2.1 c.2.2)⟩) ∧
        ∀ (l1 l2 : List Direction) (r : Nat × BitSet), Direction.Values = l1 ++ l2 →
          l1.foldlM (fillNeighbour (floodFill bs fuel) c.1 c.2.1 c.2.2)
            (touchedFaces c.1 c.2.1 c.2.2,
              ⟨V.size, V.bits ||| (1 <<< cellIndex c.1 c.2.1 c.2.2)⟩) = some r →
          unvisited r.2 < unvisited V) ∧
    (∃ bits log, buildCullBitsLog bs = some (bits, log) ∧ buildCullBits bs = some bits ∧
      log.Nodup) := by
  refine ⟨?_, ?_, ?_, buildCullBitsLog_spec bs⟩
  · obtain ⟨t, W, h, _⟩ := floodFill_spec bs (unvisited V + 1) V c hsize (Nat.lt_succ_self _)
    exact ⟨t, W, fun fuel hfuel => floodFill_fuel_le bs V c t W hsize hfuel h⟩
  · intro hno
    by_cases hc : inSection c
    swap
    · exact ⟨V, fun fuel => floodFill_succ_outside bs fuel V c hc⟩
    by_cases hm : marked V c
    · exact ⟨V, fun fuel => floodFill_succ_marked bs fuel V c hsize hc hm⟩
    have hsolid : solidAt bs c = true := by
      by_contra hs
      exact hno ⟨⟨hc, by simpa using hs⟩, hm⟩
    refine ⟨⟨V.size, V.bits ||| (1 <<< cellIndex c.1 c.2.1 c.2.2)⟩, fun fuel => ?_⟩
    rw [floodFill_succ_open bs fuel V c hsize hc hm, if_pos hsolid]
  · intro hopen hm
    have hbit : V.bits.testBit (cellIndex c.1 c.2.1 c.2.2) = false := by
      simpa [marked] using hm
    have hlt := unvisited_setBit_lt V _ (cellIndex_lt hopen.1) hbit
    refine ⟨(marked_setBit hopen.1 hopen.1).mpr (Or.inr rfl), hlt, fun fuel => ⟨?_, ?_⟩⟩
    · rw [floodFill_succ_open bs fuel V c hsize hopen.1 hm, if_neg (by simp [hopen.2])]
    · intro l1 l2 r _ hr
      obtain ⟨_, hle, _⟩ := fillLoopLog_spec (floodFill bs fuel) (floodFillLog bs fuel) c
        (floodFillLog_spec bs fuel) l1 (touchedFaces c.1 c.2.1 c.2.2)
        ⟨V.size, V.bits ||| (1 <<< cellIndex c.1 c.2.1 c.2.2)⟩ [] r.1 r.2 hsize hr
      exact Nat.lt_of_le_of_lt (unvisited_le_of_marksLe hle) hlt

theorem floodFill_terminates_witness :
    (NewSet 4096).size = 4096 ∧
      (∃ t W, ∀ fuel, unvisited (NewSet 4096) < fuel →
        floodFill planeSection fuel (NewSet 4096) 0 8 0 = some (t, W)) ∧
      (∃ bits log, buildCullBitsLog planeSection = some (bits, log) ∧
        buildCullBits planeSection = some bits ∧ log.Nodup) :=
  ⟨rfl, (floodFill_terminates planeSection (NewSet 4096) (0, 8, 0) rfl).1,
    (floodFill_terminates planeSection (NewSet 4096) (0, 8, 0) rfl).2.2.2⟩

end Steven

namespace Steven

/-! ## The pseudo-random stream of the mesher loop -/

theorem buildCell_r (env : MeshEnv) (select : List Variant → Nat → Option Variant × Nat)
    (bs : blocksSnapshot) (st : buildState) (x y z : Int) :
    (buildCell env select bs st x y z).r = rngStep env select (bs.block x y z) st.r := by
  unfold buildCell rngStep
  generalize bs.block x y z = bl
  obtain ⟨R, T, S, L⟩ := bl
  cases R <;> cases L <;> cases T <;> simp only [if_true, if_false, Bool.false_eq_true,
    Bool.true_eq_false] <;>
    rcases select (env.Models _) st.r with ⟨v, r1⟩ <;> cases v <;> rfl

theorem foldl_flatMap_eq {α β σ : Type} (f : σ → β → σ) (g : α → List β) (l : List α)
    (s : σ) : (l.flatMap g).foldl f s = l.foldl (fun s a => (g a).foldl f s) s := by
  induction l generalizing s with
  | nil => rfl
  | cons a l ih => rw [List.flatMap_cons, List.foldl_append, List.foldl_cons, ih]

theorem buildOrder_length : buildOrder.length = 4096 := by
  simp [buildOrder, List.length_flatMap, Function.comp_def]

/-- The triple loop of `build` is the fold of its body over `buildOrder`. -/
theorem buildLoop_eq_stateAt (env : MeshEnv)
    (select : List Variant → Nat → Option Variant × Nat) (bs : blocksSnapshot)
    (st : buildState) : buildLoop env select bs st = stateAt env select bs st 4096 := by
  unfold stateAt
  rw [← buildOrder_length, List.take_length]
  unfold buildLoop buildOrder
  rw [foldl_flatMap_eq]
  refine List.foldl_ext _ _ _ (fun s y _ => ?_)
  rw [foldl_flatMap_eq]
  refine List.foldl_ext _ _ _ (fun s x _ => ?_)
  rw [List.foldl_map]

theorem foldl_r (env : MeshEnv) (select : List Variant → Nat → Option Variant × Nat)
    (bs : blocksSnapshot) (l : List Cell) : ∀ st : buildState,
    (l.foldl (fun st c => buildCell env select bs st c.1 c.2.1 c.2.2) st).r =
      l.foldl (fun r c => rngStep env select (bs.block c.1 c.2.1 c.2.2) r) st.r := by
  induction l with
  | nil => intro st; rfl
  | cons c l ih =>
    intro st
    rw [List.foldl_cons, List.foldl_cons, ih, buildCell_r]

theorem foldl_const_step {α : Type} (step : Nat → Nat) (l : List α) : ∀ r : Nat,
    l.foldl (fun r _ => step r) r = step^[l.length] r := by
  induction l with
  | nil => intro r; rfl
  | cons a l ih =>
    intro r
    rw [List.foldl_cons, ih, List.length_cons, Function.iterate_succ_apply]

theorem rngStep_selectModel (env : MeshEnv) (bl : Block) (r : Nat) :
    rngStep env (selectModel env) bl r = (env.draw r).2 := by
  unfold rngStep selectModel
  split_ifs <;> rfl

theorem stateAt_r (env : MeshEnv) (select : List Variant → Nat → Option Variant × Nat)
    (bs : blocksSnapshot) (st : buildState) (k : Nat) :
    (stateAt env select bs st k).r =
      (buildOrder.take k).foldl
        (fun r c => rngStep env select (bs.block c.1 c.2.1 c.2.2) r) st.r :=
  foldl_r env select bs _ st

theorem rngStep_replaceBlock (env : MeshEnv)
    (select : List Variant → Nat → Option Variant × Nat) (bs : blocksSnapshot) (c0 : Cell)
    (b : Block) (h0 : (bs.block c0.1 c0.2.1 c0.2.2).Renderable = false)
    (hb : b.Renderable = false) (c : Cell) (r : Nat) :
    rngStep env select ((replaceBlock bs c0 b).block c.1 c.2.1 c.2.2) r =
      rngStep env select (bs.block c.1 c.2.1 c.2.2) r := by
  unfold replaceBlock
  simp only
  by_cases hc : (c.1, c.2.1, c.2.2) = c0
  · rw [if_pos hc]
    have hcc : c = c0 := hc
    subst hcc
    unfold rngStep
    rw [if_pos hb, if_pos h0]
  · rw [if_neg hc]

/-- C11. In `build` the pseudo-random stream, seeded from `chunkX | (chunkZ << 32)`, is
advanced by exactly one draw for every one of the 4096 cells, visited in `y`, `x`, `z`
nesting order, whether the cell is non-renderable, a liquid, or rendered through
`selectModel`: the loop body leaves the generator one draw further, the state seen by the
`k`-th cell is the seed state after `k` draws, and `build` ends 4096 draws after the seed.
Consequently, replacing a non-renderable cell by another non-renderable block leaves the
stream state seen by every cell unchanged, whatever function selects the models. -/
theorem build_rng_one_draw_per_cell (env : MeshEnv) (chunkX chunkZ : Int)
    (bs : blocksSnapshot) (st : buildState) :
    buildOrder.length = 4096 ∧
    (∀ (s : buildState) (x y z : Int),
      (buildCell env (selectModel env) bs s x y z).r = (env.draw s.r).2) ∧
    (∀ k ≤ 4096,
      (stateAt env (selectModel env) bs st k).r = (fun r => (env.draw r).2)^[k] st.r) ∧
    (∃ fin bits, build env chunkX chunkZ bs = some (fin, bits) ∧
      fin.r = (fun r => (env.draw r).2)^[4096] (env.seed (seedValue chunkX chunkZ))) ∧
    (∀ (select : List Variant → Nat → Option Variant × Nat) (c0 : Cell) (b : Block),
      (bs.block c0.1 c0.2.1 c0.2.2).Renderable = false → b.Renderable = false →
      ∀ k, (stateAt env select (replaceBlock bs c0 b) st k).r =
        (stateAt env select bs st k).r) := by
  have hk : ∀ (s : buildState) (k : Nat), k ≤ 4096 →
      (stateAt env (selectModel env) bs s k).r = (fun r => (env.draw r).2)^[k] s.r := by
    intro s k hk
    rw [stateAt_r]
    have hstep : (fun (r : Nat) (c : Cell) =>
        rngStep env (selectModel env) (bs.block c.1 c.2.1 c.2.2) r) =
        (fun r _ => (env.draw r).2) := by
      funext r c
      exact rngStep_selectModel env _ r
    rw [hstep, foldl_const_step, List.length_take, buildOrder_length, Nat.min_eq_left hk]
  refine ⟨buildOrder_length, ?_, hk st, ?_, ?_⟩
  · intro s x y z
    rw [buildCell_r, rngStep_selectModel]
  · obtain ⟨bits, hbits, _⟩ := buildCullBits_spec bs
    refine ⟨buildLoop env (selectModel env) bs
      ⟨env.seed (seedValue chunkX chunkZ), [], [], 0, 0⟩, bits, ?_, ?_⟩
    · unfold build
      simp only [hbits, Option.map_some']
    · rw [buildLoop_eq_stateAt, hk _ 4096 (Nat.le_refl _)]
  · intro select c0 b h0 hb k
    rw [stateAt_r, stateAt_r]
    congr 1
    funext r c
    exact rngStep_replaceBlock env select bs c0 b h0 hb c r

theorem build_rng_one_draw_per_cell_witness :
    (planeSection.block 0 0 0).Renderable = false ∧
      (⟨false, true, false, false⟩ : Block).Renderable = false ∧
      ∀ k, (stateAt testEnv (selectModel testEnv)
          (replaceBlock planeSection (0, 0, 0) ⟨false, true, false, false⟩)
          ⟨5, [], [], 0, 0⟩ k).r =
        (stateAt testEnv (selectModel testEnv) planeSection ⟨5, [], [], 0, 0⟩ k).r :=
  ⟨rfl, rfl,
    (build_rng_one_draw_per_cell testEnv 3 2 planeSection ⟨5, [], [], 0, 0⟩).2.2.2.2
      (selectModel testEnv) (0, 0, 0) ⟨false, true, false, false⟩ rfl rfl⟩

end Steven
